import Mathlib

/-! # Verification of `pkg/controller/registry/resolver/constraints` and of the resolver test helpers

The development embeds

* `constraints/constraint.go`: the `Constraint` tree, `maxConstraintSize`,
  `ErrMaxConstraintSizeExceeded` and `Parse`;
* the part of Go's `encoding/json` that `Parse` drives (`Decoder.Decode` with
  `DisallowUnknownFields` into a `Constraint`) and that the round trip needs
  (`Marshal` of a `Constraint`);
* `resolver/util_test.go`: `RequireStepsEqual`, `apiSetToGVK`,
  `packageNameToProperty`, the bundle options, `bundle`, `apiSetToProperties`
  and `apiSetToDependencies`.

Go strings and byte slices are lists of bytes; a byte is a natural number below 256.
-/

namespace Constraints

/-! ## Bytes and ASCII literals -/

/-- Bytes of an ASCII literal. -/
def ascii (s : String) : List Nat := s.data.map Char.toNat

/-! ## Data model of `constraint.go` -/

/-- PackageConstraint defines a package constraint. -/
structure PackageConstraint where
  Name : List Nat
  VersionRange : List Nat
  deriving DecidableEq, Repr

/-- GVKConstraint defines a GVK constraint. -/
structure GVKConstraint where
  Group : List Nat
  Kind : List Nat
  Version : List Nat
  deriving DecidableEq, Repr

mutual
/-- Constraint holds parsed, potentially nested dependency constraints.  A Go pointer field is an
`Option`: `none` is the nil pointer. -/
inductive Constraint where
  | mk (Message : List Nat) (Package : Option PackageConstraint) (GVK : Option GVKConstraint)
      (All Any None : Option CompoundConstraint)
/-- CompoundConstraint holds a list of potentially nested constraints.  The Go slice is an
`Option (List _)`: `none` is the nil slice, `some []` the empty non-nil slice. -/
inductive CompoundConstraint where
  | mk (Constraints : Option (List Constraint))
end

namespace Constraint

def Message : Constraint → List Nat
  | mk m _ _ _ _ _ => m

def Package : Constraint → Option PackageConstraint
  | mk _ p _ _ _ _ => p

def GVK : Constraint → Option GVKConstraint
  | mk _ _ g _ _ _ => g

def All : Constraint → Option CompoundConstraint
  | mk _ _ _ a _ _ => a

def Any : Constraint → Option CompoundConstraint
  | mk _ _ _ _ a _ => a

def None : Constraint → Option CompoundConstraint
  | mk _ _ _ _ _ n => n

/-- The zero value of the Go struct. -/
def zero : Constraint := mk [] none none none none none

end Constraint

namespace CompoundConstraint

def Constraints : CompoundConstraint → Option (List Constraint)
  | mk cs => cs

/-- The zero value of the Go struct. -/
def zero : CompoundConstraint := mk none

end CompoundConstraint

/-- The zero value of the Go struct. -/
def PackageConstraint.zero : PackageConstraint := ⟨[], []⟩

/-- The zero value of the Go struct. -/
def GVKConstraint.zero : GVKConstraint := ⟨[], [], []⟩

/-- Go: `const maxConstraintSize = 2 << 16`. -/
def maxConstraintSize : Nat := 2 <<< 16

/-- Errors that `Parse` can return.  `ErrMaxConstraintSizeExceeded` is the package's own error
value; the other three are the errors of `Decoder.Decode`: `scan` stands for an error of
`Decoder.readValue` (`*json.SyntaxError`, `io.EOF` or `io.ErrUnexpectedEOF`), `unknownField` for
`json: unknown field "key"` and `unmarshalType` for `*json.UnmarshalTypeError`. -/
inductive Err where
  | ErrMaxConstraintSizeExceeded
  | scan
  | unknownField (key : List Nat)
  | unmarshalType
  deriving DecidableEq, Repr

/-! ## `encoding/json`: the scanner -/

/-- JSON values as `Decoder.readValue` delimits them and `decodeState` walks them.  Object members
are kept in document order with their duplicates; strings and keys are held unquoted.  The text of
a number is dropped: no field of `Constraint` can store one. -/
inductive JSON where
  | null
  | bool (b : Bool)
  | num
  | str (s : List Nat)
  | arr (xs : List JSON)
  | obj (ms : List (List Nat × JSON))
  deriving Repr

/-- Go: `maxNestingDepth` of `encoding/json/scanner.go`. -/
def maxNestingDepth : Nat := 10000

/-- Go: `isSpace` of the scanner: space, tab, carriage return, line feed. -/
def isSpace (c : Nat) : Bool := c = 32 || c = 9 || c = 13 || c = 10

/-- Skip the white space in front of the next token. -/
def skipSpace : List Nat → List Nat
  | [] => []
  | c :: cs => if isSpace c then skipSpace cs else c :: cs

/-- A continuation byte of UTF-8, `0x80..0xBF`. -/
def isCont (b : Nat) : Bool := 128 ≤ b && b ≤ 191

/-- Go: the accept range of `unicode/utf8` for the byte after the lead byte `c`: `A0..BF` after
`E0`, `80..9F` after `ED`, `90..BF` after `F0`, `80..8F` after `F4`, `80..BF` otherwise. -/
def acceptSecond (c b1 : Nat) : Bool :=
  if c = 224 then 160 ≤ b1 && b1 ≤ 191
  else if c = 237 then 128 ≤ b1 && b1 ≤ 159
  else if c = 240 then 144 ≤ b1 && b1 ≤ 191
  else if c = 244 then 128 ≤ b1 && b1 ≤ 143
  else isCont b1

/-- Go: `utf8.DecodeRune` at a lead byte `c ≥ 0x80` followed by `rest`, reduced to the size of the
encoding: `0` when Go answers `(RuneError, 1)`, otherwise the size `2`, `3` or `4` of the
well-formed encoding (lead bytes `C2..DF`, `E0..EF`, `F0..F4`). -/
def runeLen (c : Nat) (rest : List Nat) : Nat :=
  if 194 ≤ c ∧ c ≤ 223 then
    match rest with
    | b1 :: _ => if isCont b1 then 2 else 0
    | _ => 0
  else if 224 ≤ c ∧ c ≤ 239 then
    match rest with
    | b1 :: b2 :: _ => if acceptSecond c b1 && isCont b2 then 3 else 0
    | _ => 0
  else if 240 ≤ c ∧ c ≤ 244 then
    match rest with
    | b1 :: b2 :: b3 :: _ => if acceptSecond c b1 && isCont b2 && isCont b3 then 4 else 0
    | _ => 0
  else 0

/-- Go: `utf8.EncodeRune`; surrogates and values above `0x10FFFF` become `U+FFFD`. -/
def encodeRune (r : Nat) : List Nat :=
  if r < 128 then [r]
  else if r < 2048 then [192 + r / 64, 128 + r % 64]
  else if (55296 ≤ r ∧ r < 57344) ∨ 1114111 < r then [239, 191, 189]
  else if r < 65536 then [224 + r / 4096, 128 + r / 64 % 64, 128 + r % 64]
  else [240 + r / 262144, 128 + r / 4096 % 64, 128 + r / 64 % 64, 128 + r % 64]

/-- Value of a hexadecimal digit. -/
def hexVal (c : Nat) : Option Nat :=
  if 48 ≤ c ∧ c ≤ 57 then some (c - 48)
  else if 97 ≤ c ∧ c ≤ 102 then some (c - 87)
  else if 65 ≤ c ∧ c ≤ 70 then some (c - 55)
  else none

/-- Go: `getu4`, the value of the four hexadecimal digits of a `\uXXXX` escape. -/
def getu4 (a b c d : Nat) : Option Nat :=
  match hexVal a, hexVal b, hexVal c, hexVal d with
  | some x, some y, some z, some w => some (((x * 16 + y) * 16 + z) * 16 + w)
  | _, _, _, _ => none

/-- The single-character escapes of a JSON string (`unquoteBytes`). -/
def unescape (e : Nat) : Option Nat :=
  if e = 34 ∨ e = 92 ∨ e = 47 then some e
  else if e = 98 then some 8
  else if e = 102 then some 12
  else if e = 110 then some 10
  else if e = 114 then some 13
  else if e = 116 then some 9
  else none

/-- Put the bytes `p` in front of a scanned string. -/
def consBytes (p : List Nat) : Option (List Nat × List Nat) → Option (List Nat × List Nat)
  | some (s, r) => some (p ++ s, r)
  | none => none

/-- Go: the second half of a surrogate pair in `unquoteBytes`.  After a `\uXXXX` escape of value
`rr` in the surrogate range, `getu4` looks for another `\uXXXX` escape at the head of `s` and
`utf16.DecodeRune` joins the two; `none` when Go falls back to `U+FFFD` and leaves `s` alone. -/
def lowSurrogate (rr : Nat) (s : List Nat) : Option Nat :=
  match s with
  | b :: u :: g1 :: g2 :: g3 :: g4 :: _ =>
    if b = 92 ∧ u = 117 then
      match getu4 g1 g2 g3 g4 with
      | some rr1 =>
        if rr < 56320 ∧ 56320 ≤ rr1 ∧ rr1 < 57344 then
          some ((rr - 55296) * 1024 + (rr1 - 56320) + 65536)
        else none
      | none => none
    else none
  | _ => none

/-- A string literal after its opening quote: the scanner's `stateInString` (no control
character, escapes well formed) fused with `unquoteBytes` (escapes resolved, `\uXXXX` through
`utf16.DecodeRune` and `utf8.EncodeRune`, ill-formed UTF-8 replaced byte by byte with `U+FFFD`).
The result is the unquoted string and the input after the closing quote.

The function reads one byte per step.  `scanString k keep` first passes over `k` bytes that an
earlier step has already examined: with `keep` they are the continuation bytes of a rune that
`runeLen` found well formed and are copied (re-encoding a well-formed rune gives back its
bytes); without `keep` they are the second `\uXXXX` escape of a surrogate pair and are dropped. -/
def scanString : Nat → Bool → List Nat → Option (List Nat × List Nat)
  | _, _, [] => none
  | k + 1, keep, c :: rest =>
    if keep then consBytes [c] (scanString k keep rest) else scanString k keep rest
  | 0, _, c :: rest =>
    if c = 34 then some ([], rest)
    else if c = 92 then
      match rest with
      | [] => none
      | e :: rest1 =>
        if e = 117 then
          match rest1 with
          | h1 :: h2 :: h3 :: h4 :: rest2 =>
            match getu4 h1 h2 h3 h4 with
            | none => none
            | some rr =>
              if 55296 ≤ rr ∧ rr < 57344 then
                match lowSurrogate rr rest2 with
                | some r => consBytes (encodeRune r) (scanString 6 false rest2)
                | none => consBytes [239, 191, 189] (scanString 0 true rest2)
              else consBytes (encodeRune rr) (scanString 0 true rest2)
          | _ => none
        else
          match unescape e with
          | some b => consBytes [b] (scanString 0 true rest1)
          | none => none
    else if c < 32 then none
    else if c < 128 then consBytes [c] (scanString 0 true rest)
    else
      match runeLen c rest with
      | 0 => consBytes [239, 191, 189] (scanString 0 true rest)
      | n + 1 => consBytes [c] (scanString n true rest)

/-- Decimal digit. -/
def isDigit (c : Nat) : Bool := 48 ≤ c && c ≤ 57

/-- Skip a run of digits. -/
def skipDigits : List Nat → List Nat
  | [] => []
  | c :: cs => if isDigit c then skipDigits cs else c :: cs

/-- The exponent of a number, after `e` or `E`: an optional sign and at least one digit
(`stateE`, `stateESign`, `stateE0`). -/
def scanExp (s : List Nat) : Option (List Nat) :=
  match (match s with
         | c :: cs => if c = 43 ∨ c = 45 then cs else c :: cs
         | [] => []) with
  | d :: ds => if isDigit d then some (skipDigits ds) else none
  | [] => none

/-- The fraction and exponent of a number, after its integer part (`state1`, `state0`,
`stateDot`, `stateDot0`). -/
def scanFrac (s : List Nat) : Option (List Nat) :=
  match s with
  | c :: cs =>
    if c = 46 then
      match cs with
      | d :: ds =>
        if isDigit d then
          match skipDigits ds with
          | e :: es => if e = 101 ∨ e = 69 then scanExp es else some (e :: es)
          | [] => some []
        else none
      | [] => none
    else if c = 101 ∨ c = 69 then scanExp cs
    else some (c :: cs)
  | [] => some []

/-- A number after its optional minus sign (`stateNeg`): `0` or a run of digits starting with
`1..9`, then fraction and exponent. -/
def scanInt (s : List Nat) : Option (List Nat) :=
  match s with
  | c :: cs =>
    if c = 48 then scanFrac cs
    else if 49 ≤ c ∧ c ≤ 57 then scanFrac (skipDigits cs)
    else none
  | [] => none

/-- Expect the bytes `lit` at the head of the input (the scanner's states for `true`, `false`
and `null`). -/
def expect : List Nat → List Nat → Option (List Nat)
  | [], s => some s
  | _ :: _, [] => none
  | l :: ls, c :: s => if c = l then expect ls s else none

mutual
/-- One JSON value at the head of the input, at nesting depth `depth` (the length of the
scanner's `parseState`), and the input that follows it; `none` is a scanner error.  `lim` is the
deepest nesting the scanner admits, `maxNestingDepth` in Go.  The second argument bounds the
recursion; the length of the input plus one is enough (`scanValue_fuel`). -/
def scanValue (lim : Nat) : Nat → Nat → List Nat → Option (JSON × List Nat)
  | 0, _, _ => none
  | fuel + 1, depth, s =>
    match skipSpace s with
    | [] => none
    | c :: rest =>
      if c = 123 then
        if depth + 1 ≤ lim then
          match skipSpace rest with
          | [] => none
          | c1 :: rest1 =>
            if c1 = 125 then some (JSON.obj [], rest1)
            else
              match scanMembers lim fuel (depth + 1) (c1 :: rest1) with
              | some (ms, r) => some (JSON.obj ms, r)
              | none => none
        else none
      else if c = 91 then
        if depth + 1 ≤ lim then
          match skipSpace rest with
          | [] => none
          | c1 :: rest1 =>
            if c1 = 93 then some (JSON.arr [], rest1)
            else
              match scanElems lim fuel (depth + 1) (c1 :: rest1) with
              | some (xs, r) => some (JSON.arr xs, r)
              | none => none
        else none
      else if c = 34 then
        match scanString 0 true rest with
        | some (str, r) => some (JSON.str str, r)
        | none => none
      else if c = 45 then
        match scanInt rest with
        | some r => some (JSON.num, r)
        | none => none
      else if isDigit c then
        match scanInt (c :: rest) with
        | some r => some (JSON.num, r)
        | none => none
      else if c = 116 then
        match expect [114, 117, 101] rest with
        | some r => some (JSON.bool true, r)
        | none => none
      else if c = 102 then
        match expect [97, 108, 115, 101] rest with
        | some r => some (JSON.bool false, r)
        | none => none
      else if c = 110 then
        match expect [117, 108, 108] rest with
        | some r => some (JSON.null, r)
        | none => none
      else none
/-- The elements of a non-empty array up to and including its closing bracket. -/
def scanElems (lim : Nat) : Nat → Nat → List Nat → Option (List JSON × List Nat)
  | 0, _, _ => none
  | fuel + 1, depth, s =>
    match scanValue lim fuel depth s with
    | none => none
    | some (x, r) =>
      match skipSpace r with
      | [] => none
      | c :: rest =>
        if c = 44 then
          match scanElems lim fuel depth rest with
          | some (xs, r1) => some (x :: xs, r1)
          | none => none
        else if c = 93 then some ([x], rest)
        else none
/-- The members of a non-empty object up to and including its closing brace; the input starts
at the first key. -/
def scanMembers (lim : Nat) : Nat → Nat → List Nat → Option (List (List Nat × JSON) × List Nat)
  | 0, _, _ => none
  | fuel + 1, depth, s =>
    match s with
    | [] => none
    | q :: s1 =>
      if q = 34 then
        match scanString 0 true s1 with
        | none => none
        | some (key, r) =>
          match skipSpace r with
          | [] => none
          | c :: rest =>
            if c = 58 then
              match scanValue lim fuel depth rest with
              | none => none
              | some (x, r1) =>
                match skipSpace r1 with
                | [] => none
                | c1 :: rest1 =>
                  if c1 = 44 then
                    match scanMembers lim fuel depth (skipSpace rest1) with
                    | some (ms, r2) => some ((key, x) :: ms, r2)
                    | none => none
                  else if c1 = 125 then some ([(key, x)], rest1)
                  else none
            else none
      else none
end

/-- Go: `Decoder.readValue` on a fresh decoder over `v`: the first JSON value of the input, the
rest of the input is not looked at. -/
def readValue (v : List Nat) : Option JSON :=
  match scanValue maxNestingDepth (v.length + 1) 0 v with
  | some (j, _) => some j
  | none => none

/-! ## `encoding/json`: matching a key to a struct field -/

/-- Clear bit `0x20` of a byte: Go's `b & caseMask`. -/
def clearCase (b : Nat) : Nat := if b / 32 % 2 = 1 then b - 32 else b

/-- Go: the case-insensitive comparison of a field name `s` with a key `t` (`equalFoldRight` of
`encoding/json/fold.go`; for a name of ASCII letters `simpleLetterEqualFold` accepts the same
keys, and so does the `foldName` of later releases).  ASCII letters match in either case, `s`
and `S` also match `U+017F` (bytes `C5 BF`), `k` and `K` also match `U+212A` (bytes `E2 84 AA`). -/
def equalFold : List Nat → List Nat → Bool
  | [], t => t.isEmpty
  | _ :: _, [] => false
  | sb :: s, tb :: t =>
    if tb < 128 then
      if sb = tb then equalFold s t
      else if 65 ≤ clearCase sb ∧ clearCase sb ≤ 90 ∧ clearCase sb = clearCase tb then equalFold s t
      else false
    else if sb = 115 ∨ sb = 83 then
      match t with
      | b1 :: t1 => if tb = 197 ∧ b1 = 191 then equalFold s t1 else false
      | [] => false
    else if sb = 107 ∨ sb = 75 then
      match t with
      | b1 :: b2 :: t2 => if tb = 226 ∧ b1 = 132 ∧ b2 = 170 then equalFold s t2 else false
      | _ => false
    else false

/-- Go: the field lookup of `decodeState.object`: an exact match of the key with a field name,
otherwise the first field, in declaration order, whose name matches case-insensitively.  The
result is the index of the field. -/
def lookupField (names : List (List Nat)) (key : List Nat) : Option Nat :=
  if names.indexOf key < names.length then some (names.indexOf key)
  else if names.findIdx (fun n => equalFold n key) < names.length then
    some (names.findIdx (fun n => equalFold n key))
  else none

/-- JSON names of the fields of `Constraint`, in declaration order. -/
def constraintFields : List (List Nat) :=
  [ascii "message", ascii "package", ascii "gvk", ascii "all", ascii "any", ascii "none"]

/-- JSON names of the fields of `CompoundConstraint`. -/
def compoundFields : List (List Nat) := [ascii "constraints"]

/-- JSON names of the fields of `GVKConstraint`, in declaration order. -/
def gvkFields : List (List Nat) := [ascii "group", ascii "kind", ascii "version"]

/-- JSON names of the fields of `PackageConstraint`, in declaration order. -/
def packageFields : List (List Nat) := [ascii "name", ascii "versionRange"]

/-! ## `encoding/json`: `decodeState` into a `Constraint`

Every function takes the JSON value and the current content of its Go target and returns the
new content with the error that `saveError` would record for this value (`saveError` keeps the
first error and decoding goes on). -/

/-- Go: `saveError` keeps the first error. -/
def firstErr : Option Err → Option Err → Option Err
  | some e, _ => some e
  | none, e => e

/-- Decode into a `string` field: a JSON string is stored, `null` leaves the field alone,
anything else is an `UnmarshalTypeError` and leaves the field alone. -/
def valueString (j : JSON) (old : List Nat) : List Nat × Option Err :=
  match j with
  | JSON.str s => (s, none)
  | JSON.null => (old, none)
  | _ => (old, some Err.unmarshalType)

/-- Go: `decodeState.object` into a `PackageConstraint`, with `DisallowUnknownFields`. -/
def objectPackage : List (List Nat × JSON) → PackageConstraint → PackageConstraint × Option Err
  | [], p => (p, none)
  | (k, v) :: ms, p =>
    let r1 : PackageConstraint × Option Err :=
      match lookupField packageFields k with
      | some 0 => ({ p with Name := (valueString v p.Name).1 }, (valueString v p.Name).2)
      | some 1 =>
        ({ p with VersionRange := (valueString v p.VersionRange).1 },
          (valueString v p.VersionRange).2)
      | _ => (p, some (Err.unknownField k))
    let r2 := objectPackage ms r1.1
    (r2.1, firstErr r1.2 r2.2)

/-- Decode into a `*PackageConstraint` field: `null` sets the pointer to nil; any other value
allocates the struct when the pointer is nil (`indirect`), then an object is decoded into it and
anything else is an `UnmarshalTypeError`. -/
def valuePackage (j : JSON) (old : Option PackageConstraint) :
    Option PackageConstraint × Option Err :=
  match j with
  | JSON.null => (none, none)
  | JSON.obj ms =>
    (some (objectPackage ms (old.getD PackageConstraint.zero)).1,
      (objectPackage ms (old.getD PackageConstraint.zero)).2)
  | _ => (some (old.getD PackageConstraint.zero), some Err.unmarshalType)

/-- Go: `decodeState.object` into a `GVKConstraint`, with `DisallowUnknownFields`. -/
def objectGVK : List (List Nat × JSON) → GVKConstraint → GVKConstraint × Option Err
  | [], g => (g, none)
  | (k, v) :: ms, g =>
    let r1 : GVKConstraint × Option Err :=
      match lookupField gvkFields k with
      | some 0 => ({ g with Group := (valueString v g.Group).1 }, (valueString v g.Group).2)
      | some 1 => ({ g with Kind := (valueString v g.Kind).1 }, (valueString v g.Kind).2)
      | some 2 => ({ g with Version := (valueString v g.Version).1 }, (valueString v g.Version).2)
      | _ => (g, some (Err.unknownField k))
    let r2 := objectGVK ms r1.1
    (r2.1, firstErr r1.2 r2.2)

/-- Decode into a `*GVKConstraint` field, as `valuePackage`. -/
def valueGVK (j : JSON) (old : Option GVKConstraint) : Option GVKConstraint × Option Err :=
  match j with
  | JSON.null => (none, none)
  | JSON.obj ms =>
    (some (objectGVK ms (old.getD GVKConstraint.zero)).1,
      (objectGVK ms (old.getD GVKConstraint.zero)).2)
  | _ => (some (old.getD GVKConstraint.zero), some Err.unmarshalType)

/-! ### The memory of the decoder

A `[]Constraint` is a Go slice over a backing array.  `decodeState.array` decodes element `i` of
a JSON array into element `i` of the slice and, past the length of the slice, lengthens the
slice over the same array (`SetLen`), or over a larger array with the same elements when the
capacity is used up; after the last element it shortens the slice to the number of elements read.
What a shortened slice leaves in its backing array is decoded into again when the same field
occurs once more in the document with a longer array.  The memory of the decoder therefore
keeps, with every slice, these elements. -/

mutual
/-- A `Constraint` in the memory of the decoder. -/
inductive ConstraintMem where
  | mk (Message : List Nat) (Package : Option PackageConstraint) (GVK : Option GVKConstraint)
      (All Any None : Option CompoundMem)
/-- A `CompoundConstraint` in the memory of the decoder: the slice `Constraints`, `none` being
the nil slice, and `spare`, the elements that the backing array holds beyond the length of the
slice and that were within the length before.  The elements of the backing array that never were
within the length are zero, as are those of a new array, and are not listed. -/
inductive CompoundMem where
  | mk (Constraints : Option (List ConstraintMem)) (spare : List ConstraintMem)
end

/-- The zero value of the Go struct. -/
def ConstraintMem.zero : ConstraintMem := ConstraintMem.mk [] none none none none none

/-- The zero value of the Go struct: a nil slice. -/
def CompoundMem.zero : CompoundMem := CompoundMem.mk none []

mutual
/-- The `Constraint` that the memory holds: the value that the caller of `Decode` reads. -/
def ConstraintMem.value : ConstraintMem → Constraint
  | ConstraintMem.mk m p g a y n =>
    Constraint.mk m p g (fieldValue a) (fieldValue y) (fieldValue n)
/-- The `*CompoundConstraint` that the memory holds. -/
def fieldValue : Option CompoundMem → Option CompoundConstraint
  | none => none
  | some cc => some (compoundValue cc)
/-- The `CompoundConstraint` that the memory holds: the slice up to its length. -/
def compoundValue : CompoundMem → CompoundConstraint
  | CompoundMem.mk cs _ => CompoundConstraint.mk (sliceValue cs)
/-- The `[]Constraint` that the memory holds. -/
def sliceValue : Option (List ConstraintMem) → Option (List Constraint)
  | none => none
  | some l => some (elemsValue l)
/-- The elements that the memory holds. -/
def elemsValue : List ConstraintMem → List Constraint
  | [] => []
  | c :: l => c.value :: elemsValue l
end

mutual
/-- Go: `decodeState.value` into a `Constraint` (the target of `Decode`, or an element of a
`Constraints` slice): `null` leaves it alone, an object is decoded field by field, anything else
is an `UnmarshalTypeError`. -/
def valueConstraint : JSON → ConstraintMem → ConstraintMem × Option Err
  | JSON.null, c => (c, none)
  | JSON.obj ms, c => objectConstraint ms c
  | _, c => (c, some Err.unmarshalType)
/-- Go: `decodeState.object` into a `Constraint`, with `DisallowUnknownFields`: the members are
taken in document order; the value of a known field is decoded into the field as it stands, the
value of an unknown key is skipped and the unknown key recorded. -/
def objectConstraint : List (List Nat × JSON) → ConstraintMem → ConstraintMem × Option Err
  | [], c => (c, none)
  | (k, v) :: ms, ConstraintMem.mk m p g a y n =>
    match lookupField constraintFields k with
    | some 0 =>
      let r := objectConstraint ms (ConstraintMem.mk (valueString v m).1 p g a y n)
      (r.1, firstErr (valueString v m).2 r.2)
    | some 1 =>
      let r := objectConstraint ms (ConstraintMem.mk m (valuePackage v p).1 g a y n)
      (r.1, firstErr (valuePackage v p).2 r.2)
    | some 2 =>
      let r := objectConstraint ms (ConstraintMem.mk m p (valueGVK v g).1 a y n)
      (r.1, firstErr (valueGVK v g).2 r.2)
    | some 3 =>
      let r := objectConstraint ms (ConstraintMem.mk m p g (valueCompound v a).1 y n)
      (r.1, firstErr (valueCompound v a).2 r.2)
    | some 4 =>
      let r := objectConstraint ms (ConstraintMem.mk m p g a (valueCompound v y).1 n)
      (r.1, firstErr (valueCompound v y).2 r.2)
    | some 5 =>
      let r := objectConstraint ms (ConstraintMem.mk m p g a y (valueCompound v n).1)
      (r.1, firstErr (valueCompound v n).2 r.2)
    | _ =>
      let r := objectConstraint ms (ConstraintMem.mk m p g a y n)
      (r.1, firstErr (some (Err.unknownField k)) r.2)
/-- Decode into a `*CompoundConstraint` field: `null` sets the pointer to nil; any other value
allocates the struct when the pointer is nil, then an object is decoded into the struct and
anything else is an `UnmarshalTypeError`. -/
def valueCompound : JSON → Option CompoundMem → Option CompoundMem × Option Err
  | JSON.null, _ => (none, none)
  | JSON.obj ms, old =>
    (some (objectCompound ms (old.getD CompoundMem.zero)).1,
      (objectCompound ms (old.getD CompoundMem.zero)).2)
  | _, old => (some (old.getD CompoundMem.zero), some Err.unmarshalType)
/-- Go: `decodeState.object` into a `CompoundConstraint`. -/
def objectCompound : List (List Nat × JSON) → CompoundMem → CompoundMem × Option Err
  | [], cc => (cc, none)
  | (k, v) :: ms, CompoundMem.mk cs spare =>
    match lookupField compoundFields k with
    | some 0 =>
      let r := objectCompound ms (valueSlice v cs spare).1
      (r.1, firstErr (valueSlice v cs spare).2 r.2)
    | _ =>
      let r := objectCompound ms (CompoundMem.mk cs spare)
      (r.1, firstErr (some (Err.unknownField k)) r.2)
/-- Decode into the `[]Constraint` field of a `CompoundConstraint` whose slice is `old` over the
spare elements `spare`; the result is the new content of the struct.  `null` sets the slice to
nil; an empty array sets it to a new empty slice; another array is decoded element by element
(`arrayElems`) and leaves a slice of as many elements over the elements that were not decoded
into; anything else is an `UnmarshalTypeError`. -/
def valueSlice : JSON → Option (List ConstraintMem) → List ConstraintMem →
    CompoundMem × Option Err
  | JSON.null, _, _ => (CompoundMem.mk none [], none)
  | JSON.arr xs, old, spare =>
    (CompoundMem.mk (some (arrayElems xs (old.getD [] ++ spare)).1.1)
        (if xs.isEmpty then [] else (arrayElems xs (old.getD [] ++ spare)).1.2),
      (arrayElems xs (old.getD [] ++ spare)).2)
  | _, old, spare => (CompoundMem.mk old spare, some Err.unmarshalType)
/-- Go: the loop of `decodeState.array` into a slice whose backing array starts with the
elements `olds` (those of the slice, then the spare ones).  Element `i` of the array is decoded
into element `i` of `olds` as it stands, and into a zero element past the end of `olds`.  The
result is the decoded elements and the elements of `olds` that were not decoded into. -/
def arrayElems : List JSON → List ConstraintMem →
    (List ConstraintMem × List ConstraintMem) × Option Err
  | [], olds => (([], olds), none)
  | x :: xs, olds =>
    let r1 := valueConstraint x (olds.headD ConstraintMem.zero)
    let r2 := arrayElems xs olds.tail
    ((r1.1 :: r2.1.1, r2.1.2), firstErr r1.2 r2.2)
end

/-- Go: `Decoder.Decode(&c)` on a fresh decoder over `v` with `DisallowUnknownFields`, `c` being
the zero `Constraint`: `readValue` delimits the first JSON value and the value is decoded
into `c`. -/
def Decode (v : List Nat) : Constraint × Option Err :=
  match readValue v with
  | none => (Constraint.zero, some Err.scan)
  | some j =>
    ((valueConstraint j ConstraintMem.zero).1.value, (valueConstraint j ConstraintMem.zero).2)

/-! ## `constraint.go`: `Parse` -/

/-- Parse parses an olm.constraint property's value recursively into a Constraint.
The result is the pair `(c, err)` of the Go function. -/
def Parse (v : List Nat) : Constraint × Option Err :=
  if v.length > maxConstraintSize then
    (Constraint.zero, some Err.ErrMaxConstraintSizeExceeded)
  else
    Decode v

/-! ## `encoding/json`: `Marshal` of a `Constraint` -/

/-- Go: `hex`, the digits `0123456789abcdef` of the encoder. -/
def hexDigit (n : Nat) : Nat := if n < 10 then 48 + n else 87 + n

/-- Go: what `encodeState.string` writes for an ASCII byte with HTML escaping on: the quote and
the backslash take a backslash, line feed, carriage return and tab their letter, the other
control characters and `<`, `>`, `&` the form `\u00XX`; any other byte is written as it is. -/
def quoteByte (b : Nat) : List Nat :=
  if b = 34 ∨ b = 92 then [92, b]
  else if b = 10 then [92, 110]
  else if b = 13 then [92, 114]
  else if b = 9 then [92, 116]
  else if b < 32 ∨ b = 60 ∨ b = 62 ∨ b = 38 then
    [92, 117, 48, 48, hexDigit (b / 16), hexDigit (b % 16)]
  else [b]

/-- The rune at lead byte `c` is `U+2028` or `U+2029` (bytes `E2 80 A8`, `E2 80 A9`). -/
def isLineSep (c : Nat) (rest : List Nat) : Bool :=
  match rest with
  | b1 :: b2 :: _ => c = 226 && b1 = 128 && (b2 = 168 || b2 = 169)
  | _ => false

/-- Go: the body of `encodeState.string`, between the quotes.  A well-formed rune is copied, an
ill-formed byte becomes `\ufffd`, `U+2028` and `U+2029` become `\u2028` and `\u2029`.  The
function reads one byte per step; `quoteBody k keep` first passes over `k` continuation bytes
of the rune found by the step before, copying them (`keep`) or dropping them. -/
def quoteBody : Nat → Bool → List Nat → List Nat
  | _, _, [] => []
  | k + 1, keep, c :: rest =>
    if keep then c :: quoteBody k keep rest else quoteBody k keep rest
  | 0, _, c :: rest =>
    if c < 128 then quoteByte c ++ quoteBody 0 true rest
    else
      match runeLen c rest with
      | 0 => [92, 117, 102, 102, 102, 100] ++ quoteBody 0 true rest
      | n + 1 =>
        if isLineSep c rest then
          [92, 117, 50, 48, 50, hexDigit (rest.tail.headD 0 % 16)] ++ quoteBody 2 false rest
        else c :: quoteBody n true rest

/-- Go: `encodeState.string`. -/
def marshalString (s : List Nat) : List Nat := 34 :: (quoteBody 0 true s ++ [34])

/-- Go: the field loop of `structEncoder.encode` over the fields that are written, each given by
its name and its encoded value: the byte `next` (`{` before the first field, a comma before the
others), the quoted name, a colon and the value. -/
def marshalMembers (first : Bool) : List (List Nat × List Nat) → List Nat
  | [] => []
  | (name, val) :: fs =>
    (if first then 123 else 44) :: 34 :: (name ++ 34 :: 58 :: (val ++ marshalMembers false fs))

/-- Go: `structEncoder.encode`: `{}` when no field is written, otherwise the fields and the
closing brace. -/
def marshalStruct (fields : List (List Nat × List Nat)) : List Nat :=
  match fields with
  | [] => [123, 125]
  | f :: fs => marshalMembers true (f :: fs) ++ [125]

/-- Go: `Marshal` of a `PackageConstraint`. -/
def marshalPackage (p : PackageConstraint) : List Nat :=
  marshalStruct [(ascii "name", marshalString p.Name),
    (ascii "versionRange", marshalString p.VersionRange)]

/-- Go: `Marshal` of a `GVKConstraint`. -/
def marshalGVK (g : GVKConstraint) : List Nat :=
  marshalStruct [(ascii "group", marshalString g.Group), (ascii "kind", marshalString g.Kind),
    (ascii "version", marshalString g.Version)]

/-- A pointer field with `omitempty`: written only when the pointer is not nil. -/
def omitEmpty (name : List Nat) : Option (List Nat) → List (List Nat × List Nat)
  | none => []
  | some val => [(name, val)]

mutual
/-- Go: `Marshal` of a `Constraint`: the fields in declaration order under their tag names,
`message` always, a pointer field only when it is not nil (`omitempty`). -/
def marshalConstraint : Constraint → List Nat
  | Constraint.mk m p g a y n =>
    marshalStruct ((ascii "message", marshalString m)
      :: (omitEmpty (ascii "package") (p.map marshalPackage)
        ++ (omitEmpty (ascii "gvk") (g.map marshalGVK)
        ++ (marshalField (ascii "all") a
        ++ (marshalField (ascii "any") y ++ marshalField (ascii "none") n)))))
/-- A `*CompoundConstraint` field with `omitempty`. -/
def marshalField (name : List Nat) : Option CompoundConstraint → List (List Nat × List Nat)
  | none => []
  | some cc => [(name, marshalCompound cc)]
/-- Go: `Marshal` of a `CompoundConstraint`. -/
def marshalCompound : CompoundConstraint → List Nat
  | CompoundConstraint.mk cs => marshalStruct [(ascii "constraints", marshalSlice cs)]
/-- Go: `Marshal` of a `[]Constraint`: `null` for the nil slice. -/
def marshalSlice : Option (List Constraint) → List Nat
  | none => ascii "null"
  | some cs => 91 :: (marshalElems true cs ++ [93])
/-- The elements of an array, a comma in front of each but the first. -/
def marshalElems (first : Bool) : List Constraint → List Nat
  | [] => []
  | c :: cs => (if first then [] else [44]) ++ (marshalConstraint c ++ marshalElems false cs)
end

/-- Go: `json.Marshal(c)` for a `Constraint`. -/
def Marshal (c : Constraint) : List Nat := marshalConstraint c

/-! ## Vocabulary of the properties -/

/-- Go: `utf8.Valid` on the rest of a string of which `k` continuation bytes of a well-formed
rune are still to come. -/
def validString : Nat → List Nat → Bool
  | 0, [] => true
  | _ + 1, [] => false
  | k + 1, _ :: rest => validString k rest
  | 0, c :: rest =>
    if c < 128 then validString 0 rest
    else
      match runeLen c rest with
      | 0 => false
      | n + 1 => validString n rest

/-- Every string of a `PackageConstraint` is valid UTF-8. -/
def validPackage (p : PackageConstraint) : Bool :=
  validString 0 p.Name && validString 0 p.VersionRange

/-- Every string of a `GVKConstraint` is valid UTF-8. -/
def validGVK (g : GVKConstraint) : Bool :=
  validString 0 g.Group && validString 0 g.Kind && validString 0 g.Version

mutual
/-- Every string of the tree is valid UTF-8. -/
def validConstraint : Constraint → Bool
  | Constraint.mk m p g a y n =>
    validString 0 m && (p.all validPackage && (g.all validGVK
      && (validField a && (validField y && validField n))))
/-- Every string below a `*CompoundConstraint` field is valid UTF-8. -/
def validField : Option CompoundConstraint → Bool
  | none => true
  | some cc => validCompound cc
/-- Every string below a `CompoundConstraint` is valid UTF-8. -/
def validCompound : CompoundConstraint → Bool
  | CompoundConstraint.mk cs => validSlice cs
/-- Every string below a `[]Constraint` is valid UTF-8. -/
def validSlice : Option (List Constraint) → Bool
  | none => true
  | some cs => validElems cs
/-- Every string of the trees of a list is valid UTF-8. -/
def validElems : List Constraint → Bool
  | [] => true
  | c :: cs => validConstraint c && validElems cs
end

/-- The JSON value of a `PackageConstraint`. -/
def packageJSON (p : PackageConstraint) : JSON :=
  JSON.obj [(ascii "name", JSON.str p.Name), (ascii "versionRange", JSON.str p.VersionRange)]

/-- The JSON value of a `GVKConstraint`. -/
def gvkJSON (g : GVKConstraint) : JSON :=
  JSON.obj [(ascii "group", JSON.str g.Group), (ascii "kind", JSON.str g.Kind),
    (ascii "version", JSON.str g.Version)]

/-- The member of a pointer field with `omitempty`. -/
def omitEmptyJSON (name : List Nat) : Option JSON → List (List Nat × JSON)
  | none => []
  | some val => [(name, val)]

mutual
/-- The JSON value that `Marshal` writes for a `Constraint`. -/
def constraintJSON : Constraint → JSON
  | Constraint.mk m p g a y n =>
    JSON.obj ((ascii "message", JSON.str m)
      :: (omitEmptyJSON (ascii "package") (p.map packageJSON)
        ++ (omitEmptyJSON (ascii "gvk") (g.map gvkJSON)
        ++ (fieldJSON (ascii "all") a
        ++ (fieldJSON (ascii "any") y ++ fieldJSON (ascii "none") n)))))
/-- The member of a `*CompoundConstraint` field with `omitempty`. -/
def fieldJSON (name : List Nat) : Option CompoundConstraint → List (List Nat × JSON)
  | none => []
  | some cc => [(name, compoundJSON cc)]
/-- The JSON value that `Marshal` writes for a `CompoundConstraint`. -/
def compoundJSON : CompoundConstraint → JSON
  | CompoundConstraint.mk cs => JSON.obj [(ascii "constraints", sliceJSON cs)]
/-- The JSON value that `Marshal` writes for a `[]Constraint`. -/
def sliceJSON : Option (List Constraint) → JSON
  | none => JSON.null
  | some cs => JSON.arr (elemsJSON cs)
/-- The JSON values of the elements of a slice. -/
def elemsJSON : List Constraint → List JSON
  | [] => []
  | c :: cs => constraintJSON c :: elemsJSON cs
end

mutual
/-- Nesting depth of a JSON value: the number of arrays and objects around its innermost
value, itself included. -/
def depthJSON : JSON → Nat
  | JSON.arr xs => depthElems xs + 1
  | JSON.obj ms => depthMembers ms + 1
  | _ => 0
/-- Largest nesting depth among the elements of an array. -/
def depthElems : List JSON → Nat
  | [] => 0
  | x :: xs => max (depthJSON x) (depthElems xs)
/-- Largest nesting depth among the values of the members of an object. -/
def depthMembers : List (List Nat × JSON) → Nat
  | [] => 0
  | (_, x) :: ms => max (depthJSON x) (depthMembers ms)
end

/-- Nesting depth of the JSON text that `Marshal` writes for a `Constraint`. -/
def nesting (c : Constraint) : Nat := depthJSON (constraintJSON c)

/-- The tree of `n` nested `all` constraints around the zero `Constraint`; `Marshal` writes
`{"message":"","all":{"constraints":[` ... `{"message":""}` ... `]}}`. -/
def deep : Nat → Constraint
  | 0 => Constraint.zero
  | n + 1 =>
    Constraint.mk [] none none (some (CompoundConstraint.mk (some [deep n]))) none none

/-- The lookup that knows the names of the fields only as they are spelt. -/
def lookupExact (names : List (List Nat)) (key : List Nat) : Option Nat :=
  if names.indexOf key < names.length then some (names.indexOf key) else none

/-- The value of a `package` or `gvk` key is an object with a key that `lookup` does not find
among `names`. -/
def leafUnknown (lookup : List (List Nat) → List Nat → Option Nat) (names : List (List Nat)) :
    JSON → Bool
  | JSON.obj ms => ms.any (fun kv => (lookup names kv.1).isNone)
  | _ => false

mutual
/-- Some object of the document, at the position of a constraint node, of a package or gvk leaf
or of an all, any or none object, carries a key that `lookup` does not find among the names
recognised at that position. -/
def constraintUnknown (lookup : List (List Nat) → List Nat → Option Nat) : JSON → Bool
  | JSON.obj ms => membersUnknown lookup ms
  | _ => false
/-- The members of a constraint node: a key is not found, or the value of a key that is found
carries a key that is not. -/
def membersUnknown (lookup : List (List Nat) → List Nat → Option Nat) :
    List (List Nat × JSON) → Bool
  | [] => false
  | (k, v) :: ms =>
    (match lookup constraintFields k with
      | none => true
      | some 0 => false
      | some 1 => leafUnknown lookup packageFields v
      | some 2 => leafUnknown lookup gvkFields v
      | some _ => compoundUnknown lookup v) || membersUnknown lookup ms
/-- The value of an `all`, `any` or `none` key. -/
def compoundUnknown (lookup : List (List Nat) → List Nat → Option Nat) : JSON → Bool
  | JSON.obj ms => compoundMembersUnknown lookup ms
  | _ => false
/-- The members of an `all`, `any` or `none` object. -/
def compoundMembersUnknown (lookup : List (List Nat) → List Nat → Option Nat) :
    List (List Nat × JSON) → Bool
  | [] => false
  | (k, v) :: ms =>
    (match lookup compoundFields k with
      | none => true
      | some _ => sliceUnknown lookup v) || compoundMembersUnknown lookup ms
/-- The value of a `constraints` key. -/
def sliceUnknown (lookup : List (List Nat) → List Nat → Option Nat) : JSON → Bool
  | JSON.arr xs => elemsUnknown lookup xs
  | _ => false
/-- The elements of a `constraints` array. -/
def elemsUnknown (lookup : List (List Nat) → List Nat → Option Nat) : List JSON → Bool
  | [] => false
  | x :: xs => constraintUnknown lookup x || elemsUnknown lookup xs
end

/-- The value is a JSON string. -/
def isStr : JSON → Bool
  | JSON.str _ => true
  | _ => false

/-- A well-shaped package or gvk leaf: an object whose keys are among `names` and whose values
are strings. -/
def leafShaped (names : List (List Nat)) : JSON → Bool
  | JSON.obj ms => ms.all (fun kv => decide (kv.1 ∈ names) && isStr kv.2)
  | _ => false

mutual
/-- A well-shaped constraint node: an object whose members are well shaped. -/
def constraintShaped : JSON → Bool
  | JSON.obj ms => membersShaped ms
  | _ => false
/-- Well-shaped members of a constraint node: `message` with a string, `package` and `gvk` with
a well-shaped leaf, `all`, `any` and `none` with a well-shaped compound object. -/
def membersShaped : List (List Nat × JSON) → Bool
  | [] => true
  | (k, v) :: ms =>
    (if k = ascii "message" then isStr v
      else if k = ascii "package" then leafShaped packageFields v
      else if k = ascii "gvk" then leafShaped gvkFields v
      else if k = ascii "all" ∨ k = ascii "any" ∨ k = ascii "none" then compoundShaped v
      else false) && membersShaped ms
/-- A well-shaped compound object: every member is `constraints` with an array of well-shaped
constraint nodes. -/
def compoundShaped : JSON → Bool
  | JSON.obj ms => compoundMembersShaped ms
  | _ => false
/-- Well-shaped members of a compound object. -/
def compoundMembersShaped : List (List Nat × JSON) → Bool
  | [] => true
  | (k, v) :: ms => (decide (k = ascii "constraints") && sliceShaped v) && compoundMembersShaped ms
/-- A well-shaped `constraints` value: an array of well-shaped constraint nodes. -/
def sliceShaped : JSON → Bool
  | JSON.arr xs => elemsShaped xs
  | _ => false
/-- Well-shaped elements of a `constraints` array. -/
def elemsShaped : List JSON → Bool
  | [] => true
  | x :: xs => constraintShaped x && elemsShaped xs
end

/-- The keys of the top-level object of a document. -/
def keysOf : JSON → List (List Nat)
  | JSON.obj ms => ms.map Prod.fst
  | _ => []

/-- A JSON document in the sense of the grammar, without the scanner's depth limit: one value,
then white space only.  No value nests deeper than its text is long. -/
def document (v : List Nat) : Option JSON :=
  match scanValue v.length (v.length + 1) 0 v with
  | some (j, r) => if skipSpace r = [] then some j else none
  | none => none

/-- The error is not the size error of `Parse`. -/
def NoMax (e : Option Err) : Prop := e ≠ some Err.ErrMaxConstraintSizeExceeded

/-- The input `t` cannot continue a number that ends just before it. -/
def NumStop (t : List Nat) : Prop :=
  ∀ c r, t = c :: r → isDigit c = false ∧ c ≠ 46 ∧ c ≠ 101 ∧ c ≠ 69

/-- The text `t` is read as the value `j`: at nesting depth `d` under the limit `lim`, with
enough fuel and whatever input `R` follows (as long as `R` cannot continue a number), the
scanner takes `t` for `j` and leaves `R`, after the white space `w` that ends `t`. -/
def Reads (lim d : Nat) (t : List Nat) (j : JSON) : Prop :=
  ∃ F w, skipSpace w = [] ∧
    ∀ f, F ≤ f → ∀ R, NumStop R → scanValue lim f d (t ++ R) = some (j, w ++ R)

/-- A field name that quoting leaves as it is: ASCII, no control character, quote or
backslash. -/
def plainKey (n : List Nat) : Bool := n.all (fun c => decide (35 ≤ c ∧ c < 128 ∧ c ≠ 92))

/-- A field of a struct is read back: the name is the same and plain, and the text of the value
is read as the JSON value. -/
def FieldReads (lim d : Nat) (f : List Nat × List Nat) (m : List Nat × JSON) : Prop :=
  f.1 = m.1 ∧ plainKey f.1 = true ∧ Reads lim d f.2 m.2

/-- The documents `d1, ..., dn` separated by commas. -/
def joinDocs : List (List Nat) → List Nat
  | [] => []
  | [d] => d
  | d :: ds => d ++ 44 :: joinDocs ds

/-- The document `{"k":{"constraints":[d1,...,dn]}}`. -/
def wrapDocs (k : List Nat) (ds : List (List Nat)) : List Nat :=
  ascii "\x7b\"" ++ (k ++ (ascii "\":\x7b\"constraints\":[" ++ (joinDocs ds ++ ascii "]\x7d\x7d")))

mutual
/-- The memory that holds a `Constraint` and no spare element. -/
def constraintMem : Constraint → ConstraintMem
  | Constraint.mk m p g a y n => ConstraintMem.mk m p g (fieldMem a) (fieldMem y) (fieldMem n)
/-- The memory that holds a `*CompoundConstraint` and no spare element. -/
def fieldMem : Option CompoundConstraint → Option CompoundMem
  | none => none
  | some cc => some (compoundMem cc)
/-- The memory that holds a `CompoundConstraint` and no spare element. -/
def compoundMem : CompoundConstraint → CompoundMem
  | CompoundConstraint.mk cs => CompoundMem.mk (sliceMem cs) []
/-- The memory that holds a `[]Constraint`. -/
def sliceMem : Option (List Constraint) → Option (List ConstraintMem)
  | none => none
  | some l => some (elemsMem l)
/-- The memory that holds the elements of a `[]Constraint`. -/
def elemsMem : List Constraint → List ConstraintMem
  | [] => []
  | c :: l => constraintMem c :: elemsMem l
end

/-- The JSON value of the document `wrapDocs k ds`, the documents `ds` having the values
`js`. -/
def wrapJSON (k : List Nat) (js : List JSON) : JSON :=
  JSON.obj [(k, JSON.obj [(ascii "constraints", JSON.arr js)])]

/-- The `Constraint` with an empty message whose only populated variant is `k`, one of `all`,
`any` and `none`, with the sub-constraints `cs`. -/
def compoundOnly (k : List Nat) (cs : List Constraint) : Constraint :=
  Constraint.mk [] none none
    (if k = ascii "all" then some (CompoundConstraint.mk (some cs)) else none)
    (if k = ascii "any" then some (CompoundConstraint.mk (some cs)) else none)
    (if k = ascii "none" then some (CompoundConstraint.mk (some cs)) else none)

end Constraints

/-! ## `resolver/util_test.go`

Go slices are lists here; a slice is an `Option (List _)`, with `none` for nil, where a helper
returns nil on purpose (`apiSetToProperties`, `apiSetToDependencies`). -/

namespace Resolver

open Constraints

/-- Go: `opregistry.APIKey`. -/
structure APIKey where
  Group : List Nat
  Version : List Nat
  Kind : List Nat
  Plural : List Nat
  deriving DecidableEq, Repr

/-- Go: `cache.APISet`, a `map[opregistry.APIKey]struct{}`, given by its keys in the order in
which `range` yields them. -/
abbrev APISet := List APIKey

/-- Go: `api.GroupVersionKind`. -/
structure GroupVersionKind where
  Group : List Nat
  Version : List Nat
  Kind : List Nat
  Plural : List Nat
  deriving DecidableEq, Repr

/-- Go: `api.Property`; `Typ` is the field `Type`. -/
structure Property where
  Typ : List Nat
  Value : List Nat
  deriving DecidableEq, Repr

/-- Go: `api.Dependency`; `Typ` is the field `Type`. -/
structure Dependency where
  Typ : List Nat
  Value : List Nat
  deriving DecidableEq, Repr

/-- Modelled from the spec: the package-identity property type of the property wire format;
the declaration `opregistry.PackageType` is in the operator-registry module. -/
def PackageType : List Nat := ascii "olm.package"

/-- Modelled from the spec: the GVK property and dependency type of the property wire format;
the declaration `opregistry.GVKType` is in the operator-registry module. -/
def GVKType : List Nat := ascii "olm.gvk"

/-- Modelled from the spec: the deprecation marker type of the property wire format; the
declaration `opregistry.DeprecatedType` is in the operator-registry module. -/
def DeprecatedType : List Nat := ascii "olm.deprecated"

/-- Modelled from the spec: the value `{packageName, version}` of a package-identity property,
that is `json.Marshal(opregistry.PackageProperty{PackageName, Version})`; the struct is declared
in the operator-registry module. -/
def marshalPackageProperty (packageName version : List Nat) : List Nat :=
  marshalStruct [(ascii "packageName", marshalString packageName),
    (ascii "version", marshalString version)]

/-- Modelled from the spec: the value `{group, version, kind}` of a GVK property or dependency,
that is `json.Marshal` of an `opregistry.GVKProperty` or `opregistry.GVKDependency` (fields
`Group`, `Kind`, `Version` in this order); the structs are declared in the operator-registry
module. -/
def marshalGVKProperty (group kind version : List Nat) : List Nat :=
  marshalStruct [(ascii "group", marshalString group), (ascii "kind", marshalString kind),
    (ascii "version", marshalString version)]

/-- Modelled from the spec: the `{group, version, kind}` triple that the value of a GVK property
or dependency carries.  The value is read as one JSON document within the depth limit of
`encoding/json` and decoded as a struct with the string fields `group`, `kind` and `version`
(`valueGVK`, the decoding of `encoding/json` into a struct with the fields and tags of
`opregistry.GVKProperty`, unknown keys refused); `none` when the value is not such a
document. -/
def carriedGVK (value : List Nat) : Option (List Nat × List Nat × List Nat) :=
  match document value with
  | some j =>
    if depthJSON j ≤ maxNestingDepth then
      match valueGVK j none with
      | (some g, none) => some (g.Group, g.Version, g.Kind)
      | _ => none
    else none
  | none => none

/-- The group, version and kind of an `APIKey` are valid UTF-8. -/
def validKey (a : APIKey) : Bool :=
  validString 0 a.Group && validString 0 a.Kind && validString 0 a.Version

/-- Modelled from the spec: the value `{}` of a deprecation marker, that is
`json.Marshal(opregistry.DeprecatedProperty{})`. -/
def marshalDeprecatedProperty : List Nat := marshalStruct []

/-- The manifests that `bundle` serialises into `CsvJson` and `Object`: the result of
`csv(name, replaces, ownedCRDs, requiredCRDs, ownedAPIServices, requiredAPIServices, nil, nil)`
and of `crd(key)`.  The JSON text of a manifest is represented by the manifest. -/
inductive Manifest where
  | csv (name replaces : List Nat)
      (ownedCRDs requiredCRDs ownedAPIServices requiredAPIServices : APISet)
  | crd (key : APIKey)
  deriving DecidableEq, Repr

/-- Go: `api.Bundle`, the fields that the helpers set. -/
structure Bundle where
  CsvName : List Nat
  PackageName : List Nat
  ChannelName : List Nat
  CsvJson : Manifest
  Object : List Manifest
  Version : List Nat
  ProvidedApis : List GroupVersionKind
  RequiredApis : List GroupVersionKind
  Replaces : List Nat
  Dependencies : Option (List Dependency)
  Properties : List Property
  Skips : List (List Nat)
  SkipRange : List Nat
  deriving DecidableEq, Repr

/-- Go: `require.Contains(t, list, s)` passes. -/
def Contains {α : Type} [DecidableEq α] (list : List α) (s : α) : Bool := decide (s ∈ list)

/-- RequireStepsEqual is similar to require.ElementsMatch, but produces better error messages.
The result is `true` when the helper returns without failing the test. -/
def RequireStepsEqual {α : Type} [DecidableEq α] (expectedSteps steps : List α) : Bool :=
  expectedSteps.all (fun s => Contains steps s) && steps.all (fun s => Contains expectedSteps s)

/-- Go: `require.ElementsMatch` of testify passes: the two lists hold the same elements, each as
often in one as in the other, in any order. -/
def ElementsMatch {α : Type} [DecidableEq α] (listA listB : List α) : Bool :=
  decide (listA.Perm listB)

/-- Go: `apiSetToGVK`. -/
def apiSetToGVK (crds apis : APISet) : List GroupVersionKind :=
  crds.map (fun a => ⟨a.Group, a.Version, a.Kind, a.Plural⟩)
    ++ apis.map (fun a => ⟨a.Group, a.Version, a.Kind, a.Plural⟩)

/-- Go: `packageNameToProperty`. -/
def packageNameToProperty (packageName version : List Nat) : Property :=
  ⟨PackageType, marshalPackageProperty packageName version⟩

/-- Go: `type bundleOpt func(*api.Bundle)`. -/
abbrev bundleOpt := Bundle → Bundle

/-- Go: `withSkipRange`. -/
def withSkipRange (skipRange : List Nat) : bundleOpt :=
  fun b => { b with SkipRange := skipRange }

/-- Go: `withSkips`. -/
def withSkips (skips : List (List Nat)) : bundleOpt :=
  fun b => { b with Skips := skips }

/-- Go: `withVersion`: sets the version and rewrites every property of the package type. -/
def withVersion (version : List Nat) : bundleOpt :=
  fun b =>
    { b with
      Version := version
      Properties := b.Properties.map (fun p =>
        if p.Typ = PackageType then packageNameToProperty b.PackageName version else p) }

/-- Go: `apiSetToProperties`. -/
def apiSetToProperties (crds apis : APISet) (deprecated : Bool) : Option (List Property) :=
  let out : List Property :=
    crds.map (fun a => ⟨GVKType, marshalGVKProperty a.Group a.Kind a.Version⟩)
      ++ apis.map (fun a => ⟨GVKType, marshalGVKProperty a.Group a.Kind a.Version⟩)
      ++ (if deprecated then [⟨DeprecatedType, marshalDeprecatedProperty⟩] else [])
  if out.length = 0 then none else some out

/-- Go: `apiSetToDependencies`. -/
def apiSetToDependencies (crds apis : APISet) : Option (List Dependency) :=
  if crds.length + apis.length = 0 then none
  else
    let out : List Dependency :=
      crds.map (fun a => ⟨GVKType, marshalGVKProperty a.Group a.Kind a.Version⟩)
        ++ apis.map (fun a => ⟨GVKType, marshalGVKProperty a.Group a.Kind a.Version⟩)
    if out.length = 0 then none else some out

/-- Go: `bundle`. -/
def bundle (name pkg channel replaces : List Nat)
    (providedCRDs requiredCRDs providedAPIServices requiredAPIServices : APISet)
    (opts : List bundleOpt) : Bundle :=
  let csvJson := Manifest.csv name replaces providedCRDs requiredCRDs providedAPIServices
    requiredAPIServices
  let b : Bundle :=
    { CsvName := name
      PackageName := pkg
      ChannelName := channel
      CsvJson := csvJson
      Object := csvJson :: providedCRDs.map Manifest.crd
      Version := ascii "0.0.0"
      ProvidedApis := apiSetToGVK providedCRDs providedAPIServices
      RequiredApis := apiSetToGVK requiredCRDs requiredAPIServices
      Replaces := replaces
      Dependencies := apiSetToDependencies requiredCRDs requiredAPIServices
      Properties :=
        (apiSetToProperties providedCRDs providedAPIServices false).getD []
          ++ [packageNameToProperty pkg (ascii "0.0.0")]
      Skips := []
      SkipRange := [] }
  opts.foldl (fun b f => f b) b

/-- The three options of the helpers, as data. -/
inductive Opt where
  | skipRange (skipRange : List Nat)
  | skips (skips : List (List Nat))
  | version (version : List Nat)

/-- The `bundleOpt` that an `Opt` stands for. -/
def Opt.toBundleOpt : Opt → bundleOpt
  | Opt.skipRange s => withSkipRange s
  | Opt.skips l => withSkips l
  | Opt.version v => withVersion v

/-- The `Version` that a sequence of options leaves: the argument of the last `withVersion`,
and `start` when there is none. -/
def finalVersion (start : List Nat) : List Opt → List Nat
  | [] => start
  | Opt.version v :: os => finalVersion v os
  | _ :: os => finalVersion start os

end Resolver

namespace Constraints

/-! ## The scanner: input that follows a token -/

theorem scanString_zero (keep : Bool) (c : Nat) (rest : List Nat) :
    scanString 0 keep (c :: rest) =
      if c = 34 then some ([], rest)
      else if c = 92 then
        match rest with
        | [] => none
        | e :: rest1 =>
          if e = 117 then
            match rest1 with
            | h1 :: h2 :: h3 :: h4 :: rest2 =>
              match getu4 h1 h2 h3 h4 with
              | none => none
              | some rr =>
                if 55296 ≤ rr ∧ rr < 57344 then
                  match lowSurrogate rr rest2 with
                  | some r => consBytes (encodeRune r) (scanString 6 false rest2)
                  | none => consBytes [239, 191, 189] (scanString 0 true rest2)
                else consBytes (encodeRune rr) (scanString 0 true rest2)
            | _ => none
          else
            match unescape e with
            | some b => consBytes [b] (scanString 0 true rest1)
            | none => none
      else if c < 32 then none
      else if c < 128 then consBytes [c] (scanString 0 true rest)
      else
        match runeLen c rest with
        | 0 => consBytes [239, 191, 189] (scanString 0 true rest)
        | n + 1 => consBytes [c] (scanString n true rest) := by
  rw [scanString.eq_def] <;> rfl

theorem scanString_succ (k : Nat) (keep : Bool) (c : Nat) (rest : List Nat) :
    scanString (k + 1) keep (c :: rest) =
      if keep then consBytes [c] (scanString k keep rest) else scanString k keep rest := by
  rw [scanString.eq_def]


/-! ### Appending input after a scanned token -/

theorem skipSpace_append {s : List Nat} {c : Nat} {r : List Nat} (t : List Nat)
    (h : skipSpace s = c :: r) : skipSpace (s ++ t) = c :: (r ++ t) := by
  induction s with
  | nil => simp [skipSpace] at h
  | cons a s ih =>
    simp only [skipSpace, List.cons_append] at h ⊢
    split
    · next hs => rw [if_pos hs] at h; exact ih h
    · next hs =>
      rw [if_neg hs] at h
      simp only [List.cons.injEq] at h
      simp [h.1, h.2]

theorem consBytes_eq_some {p : List Nat} {o : Option (List Nat × List Nat)} {x r : List Nat}
    (h : consBytes p o = some (x, r)) : ∃ y, o = some (y, r) ∧ x = p ++ y := by
  cases o with
  | none => simp [consBytes] at h
  | some v =>
    obtain ⟨y, r'⟩ := v
    simp only [consBytes, Option.some.injEq, Prod.mk.injEq] at h
    exact ⟨y, by rw [h.2], h.1.symm⟩

theorem lowSurrogate_append_some {rr : Nat} {s : List Nat} {v : Nat} (t : List Nat)
    (h : lowSurrogate rr s = some v) : lowSurrogate rr (s ++ t) = some v := by
  rcases s with _ | ⟨a, _ | ⟨b, _ | ⟨c, _ | ⟨d, _ | ⟨e, _ | ⟨f, r⟩⟩⟩⟩⟩⟩ <;>
    simp_all [lowSurrogate]

theorem scanString_cont {b : Nat} {rest : List Nat} (h1 : 128 ≤ b) (h2 : b ≤ 193)
    (h : scanString 0 true (b :: rest) ≠ none) : scanString 0 true rest ≠ none := by
  intro h0
  apply h
  have hr : runeLen b rest = 0 := by
    simp only [runeLen]
    rw [if_neg (by omega), if_neg (by omega), if_neg (by omega)]
  rw [scanString_zero]
  rw [if_neg (by omega), if_neg (by omega), if_neg (by omega), if_neg (by omega)]
  simp [hr, h0, consBytes]

theorem scanString_nil (k : Nat) (keep : Bool) : scanString k keep [] = none := by
  cases k <;> simp [scanString]

theorem lowSurrogate_append_none {rr : Nat} {s : List Nat} (t : List Nat)
    (h : lowSurrogate rr s = none) (hs : scanString 0 true s ≠ none) :
    lowSurrogate rr (s ++ t) = none := by
  rcases s with _ | ⟨a, _ | ⟨b, _ | ⟨c, _ | ⟨d, _ | ⟨e, _ | ⟨f, r⟩⟩⟩⟩⟩⟩
  · simp [scanString] at hs
  · by_cases ha : a = 92
    · subst ha; simp [scanString] at hs
    · rcases t with _ | ⟨t1, _ | ⟨t2, _ | ⟨t3, _ | ⟨t4, _ | ⟨t5, t⟩⟩⟩⟩⟩ <;> simp [lowSurrogate, ha]
  · by_cases ha : a = 92
    · subst ha
      by_cases hb : b = 117
      · subst hb; simp [scanString] at hs
      · rcases t with _ | ⟨t1, _ | ⟨t2, _ | ⟨t3, _ | ⟨t4, t⟩⟩⟩⟩ <;> simp [lowSurrogate, hb]
    · rcases t with _ | ⟨t1, _ | ⟨t2, _ | ⟨t3, _ | ⟨t4, t⟩⟩⟩⟩ <;> simp [lowSurrogate, ha]
  · by_cases ha : a = 92
    · subst ha
      by_cases hb : b = 117
      · subst hb; simp [scanString] at hs
      · rcases t with _ | ⟨t1, _ | ⟨t2, _ | ⟨t3, t⟩⟩⟩ <;> simp [lowSurrogate, hb]
    · rcases t with _ | ⟨t1, _ | ⟨t2, _ | ⟨t3, t⟩⟩⟩ <;> simp [lowSurrogate, ha]
  · by_cases ha : a = 92
    · subst ha
      by_cases hb : b = 117
      · subst hb; simp [scanString] at hs
      · rcases t with _ | ⟨t1, _ | ⟨t2, t⟩⟩ <;> simp [lowSurrogate, hb]
    · rcases t with _ | ⟨t1, _ | ⟨t2, t⟩⟩ <;> simp [lowSurrogate, ha]
  · by_cases ha : a = 92
    · subst ha
      by_cases hb : b = 117
      · subst hb; simp [scanString] at hs
      · rcases t with _ | ⟨t1, t⟩ <;> simp [lowSurrogate, hb]
    · rcases t with _ | ⟨t1, t⟩ <;> simp [lowSurrogate, ha]
  · simpa [lowSurrogate] using h

theorem acceptSecond_cont {c b : Nat} (h : acceptSecond c b = true) : 128 ≤ b ∧ b ≤ 191 := by
  unfold acceptSecond at h
  split_ifs at h <;> simp [isCont] at h <;> omega

theorem runeLen_append_succ {c : Nat} {rest : List Nat} {n : Nat} (t : List Nat)
    (h : runeLen c rest = n + 1) : runeLen c (rest ++ t) = n + 1 := by
  unfold runeLen at h ⊢
  by_cases h1 : 194 ≤ c ∧ c ≤ 223
  · simp only [h1, and_self, if_true] at h ⊢
    rcases rest with _ | ⟨b1, r⟩
    · simp at h
    · simpa using h
  · by_cases h2 : 224 ≤ c ∧ c ≤ 239
    · simp only [h1, h2, and_self, if_true, if_false] at h ⊢
      rcases rest with _ | ⟨b1, _ | ⟨b2, r⟩⟩
      · simp at h
      · simp at h
      · simpa using h
    · by_cases h3 : 240 ≤ c ∧ c ≤ 244
      · simp only [h1, h2, h3, and_self, if_true, if_false] at h ⊢
        rcases rest with _ | ⟨b1, _ | ⟨b2, _ | ⟨b3, r⟩⟩⟩
        · simp at h
        · simp at h
        · simp at h
        · simpa using h
      · simp [h1, h2, h3] at h

theorem runeLen_append_zero {c : Nat} {rest : List Nat} (t : List Nat)
    (h : runeLen c rest = 0) (hs : scanString 0 true rest ≠ none) :
    runeLen c (rest ++ t) = 0 := by
  have hnil := scanString_nil 0 true
  unfold runeLen at h ⊢
  by_cases h1 : 194 ≤ c ∧ c ≤ 223
  · simp only [h1, and_self, if_true] at h ⊢
    rcases rest with _ | ⟨b1, r⟩
    · exact absurd hnil hs
    · simpa using h
  · by_cases h2 : 224 ≤ c ∧ c ≤ 239
    · simp only [h1, h2, and_self, if_true, if_false] at h ⊢
      rcases rest with _ | ⟨b1, _ | ⟨b2, r⟩⟩
      · exact absurd hnil hs
      · rcases t with _ | ⟨t1, t⟩
        · simp
        · simp only [List.cons_append, List.nil_append]
          by_cases hb : acceptSecond c b1 = true
          · have := acceptSecond_cont hb
            exact absurd hnil (scanString_cont this.1 (by omega) hs)
          · simp [hb]
      · simpa using h
    · by_cases h3 : 240 ≤ c ∧ c ≤ 244
      · simp only [h1, h2, h3, and_self, if_true, if_false] at h ⊢
        rcases rest with _ | ⟨b1, _ | ⟨b2, _ | ⟨b3, r⟩⟩⟩
        · exact absurd hnil hs
        · rcases t with _ | ⟨t1, _ | ⟨t2, t⟩⟩
          · simp
          · simp
          · simp only [List.cons_append, List.nil_append]
            by_cases hb : acceptSecond c b1 = true
            · have := acceptSecond_cont hb
              exact absurd hnil (scanString_cont this.1 (by omega) hs)
            · simp [hb]
        · rcases t with _ | ⟨t1, t⟩
          · simp
          · simp only [List.cons_append, List.nil_append]
            by_cases hb : acceptSecond c b1 = true
            · have hc := acceptSecond_cont hb
              have h2' := scanString_cont hc.1 (by omega) hs
              by_cases hb2 : isCont b2 = true
              · simp only [isCont, Bool.and_eq_true, decide_eq_true_eq] at hb2
                exact absurd hnil (scanString_cont hb2.1 (by omega) h2')
              · simp [hb2]
            · simp [hb]
        · simpa using h
      · simp [h1, h2, h3]

theorem consBytes_congr {p : List Nat} {o o' : Option (List Nat × List Nat)} {x r r' : List Nat}
    (ho : ∀ y, o = some (y, r) → o' = some (y, r'))
    (h : consBytes p o = some (x, r)) : consBytes p o' = some (x, r') := by
  obtain ⟨y, hy, rfl⟩ := consBytes_eq_some h
  rw [ho y hy]
  rfl

theorem scanString_append (t : List Nat) : ∀ (k : Nat) (keep : Bool) (s : List Nat)
    (x r : List Nat), scanString k keep s = some (x, r) →
      scanString k keep (s ++ t) = some (x, r ++ t) := by
  intro k keep s
  induction k, keep, s using scanString.induct with
  | case1 k keep => intro x r h; simp [scanString_nil] at h
  | case2 k c rest ih =>
    intro x r h
    simp only [List.cons_append, scanString_succ, if_true] at h ⊢
    exact consBytes_congr (fun y hy => ih y r hy) h
  | case3 k keep c rest hk ih =>
    intro x r h
    cases keep with
    | true => exact absurd rfl hk
    | false =>
      simp only [List.cons_append, scanString_succ, Bool.false_eq_true, if_false] at h ⊢
      exact ih x r h
  | case4 keep rest =>
    intro x r h
    simp only [List.cons_append, scanString_zero, if_true, Option.some.injEq, Prod.mk.injEq] at h ⊢
    simp [← h.1, ← h.2]
  | case5 keep hne =>
    intro x r h
    simp [scanString_zero] at h
  | case6 keep h1 h2 h3 h4 rest2 hg hne =>
    intro x r h
    simp [scanString_zero, hg] at h
  | case7 keep h1 h2 h3 h4 rest2 rr hg hsur rr1 hlow hne ih =>
    intro x r h
    simp only [List.cons_append, scanString_zero, hg, hsur, hlow] at h ⊢
    simp only [lowSurrogate_append_some t hlow]
    simp only [show ¬ (92 = 34) by decide, if_false, if_true, and_self] at h ⊢
    exact consBytes_congr (fun y hy => ih y r hy) h
  | case8 keep h1 h2 h3 h4 rest2 rr hg hsur hlow hne ih =>
    intro x r h
    simp only [List.cons_append, scanString_zero, hg, hsur, hlow] at h ⊢
    simp only [show ¬ (92 = 34) by decide, if_false, if_true, and_self] at h ⊢
    have hs : scanString 0 true rest2 ≠ none := by
      intro h0
      rw [h0] at h
      simp [consBytes] at h
    simp only [lowSurrogate_append_none t hlow hs]
    exact consBytes_congr (fun y hy => ih y r hy) h
  | case9 keep h1 h2 h3 h4 rest2 rr hg hsur hne ih =>
    intro x r h
    simp only [List.cons_append, scanString_zero, hg, hsur] at h ⊢
    simp only [show ¬ (92 = 34) by decide, if_false, if_true] at h ⊢
    exact consBytes_congr (fun y hy => ih y r hy) h
  | case10 keep cs hcs hne =>
    intro x r h
    rcases cs with _ | ⟨a, _ | ⟨b, _ | ⟨c, _ | ⟨d, cs⟩⟩⟩⟩
    · simp [scanString_zero] at h
    · simp [scanString_zero] at h
    · simp [scanString_zero] at h
    · simp [scanString_zero] at h
    · exact absurd rfl (hcs a b c d cs)
  | case11 keep c cs hc b hb hne ih =>
    intro x r h
    simp only [List.cons_append, scanString_zero, hc, hb] at h ⊢
    simp only [show ¬ (92 = 34) by decide, if_false, if_true] at h ⊢
    exact consBytes_congr (fun y hy => ih y r hy) h
  | case12 keep c cs hc hb hne =>
    intro x r h
    simp [scanString_zero, hc, hb] at h
  | case13 keep c rest h34 h92 h32 =>
    intro x r h
    simp [scanString_zero, h34, h92, h32] at h
  | case14 keep c rest h34 h92 h32 h128 ih =>
    intro x r h
    simp only [List.cons_append, scanString_zero, h34, h92, h32, h128, if_false, if_true] at h ⊢
    exact consBytes_congr (fun y hy => ih y r hy) h
  | case15 keep c rest h34 h92 h32 h128 hr ih =>
    intro x r h
    simp only [List.cons_append, scanString_zero, h34, h92, h32, h128, if_false, hr] at h ⊢
    have hs : scanString 0 true rest ≠ none := by
      intro h0
      rw [h0] at h
      simp [consBytes] at h
    simp only [runeLen_append_zero t hr hs]
    exact consBytes_congr (fun y hy => ih y r hy) h
  | case16 keep c rest h34 h92 h32 h128 n hr ih =>
    intro x r h
    simp only [List.cons_append, scanString_zero, h34, h92, h32, h128, if_false, hr] at h ⊢
    simp only [runeLen_append_succ t hr]
    exact consBytes_congr (fun y hy => ih y r hy) h

theorem skipDigits_stop {t : List Nat} (h : NumStop t) : skipDigits t = t := by
  rcases t with _ | ⟨c, r⟩
  · rfl
  · simp [skipDigits, (h c r rfl).1]

theorem skipDigits_append {s : List Nat} (t : List Nat)
    (h : skipDigits s ≠ [] ∨ NumStop t) : skipDigits (s ++ t) = skipDigits s ++ t := by
  induction s with
  | nil =>
    rcases h with h | h
    · simp [skipDigits] at h
    · simpa [skipDigits] using skipDigits_stop h
  | cons a s ih =>
    simp only [skipDigits, List.cons_append] at h ⊢
    split
    · next ha => rw [if_pos ha] at h; exact ih h
    · rfl

theorem scanExp_append {s r : List Nat} (t : List Nat) (h : scanExp s = some r)
    (ht : r ≠ [] ∨ NumStop t) : scanExp (s ++ t) = some (r ++ t) := by
  unfold scanExp at h ⊢
  rcases s with _ | ⟨c, cs⟩
  · simp at h
  · by_cases hc : c = 43 ∨ c = 45
    · simp only [hc, if_true, List.cons_append] at h ⊢
      rcases cs with _ | ⟨d, ds⟩
      · simp at h
      · simp only [List.cons_append] at h ⊢
        split_ifs at h ⊢ with hd
        simp only [Option.some.injEq] at h ⊢
        rw [skipDigits_append t (by rw [h]; exact ht), h]
    · simp only [hc, if_false, List.cons_append] at h ⊢
      split_ifs at h ⊢ with hd
      simp only [Option.some.injEq] at h ⊢
      rw [skipDigits_append t (by rw [h]; exact ht), h]

theorem scanFrac_append {s r : List Nat} (t : List Nat) (h : scanFrac s = some r)
    (ht : r ≠ [] ∨ NumStop t) : scanFrac (s ++ t) = some (r ++ t) := by
  unfold scanFrac at h ⊢
  rcases s with _ | ⟨c, cs⟩
  · simp only [Option.some.injEq] at h
    subst h
    rcases ht with ht | ht
    · exact absurd rfl ht
    · rcases t with _ | ⟨e, es⟩
      · rfl
      · have := ht e es rfl
        simp [this.2.1, this.2.2.1, this.2.2.2]
  · simp only [List.cons_append] at h ⊢
    by_cases h46 : c = 46
    · simp only [h46, if_true] at h ⊢
      rcases cs with _ | ⟨d, ds⟩
      · simp at h
      · simp only [List.cons_append] at h ⊢
        split_ifs at h ⊢ with hd
        rcases hsd : skipDigits ds with _ | ⟨e, es⟩
        · rw [hsd] at h
          simp only [Option.some.injEq] at h
          subst h
          rcases ht with ht | ht
          · exact absurd rfl ht
          · rw [skipDigits_append t (Or.inr ht), hsd]
            rcases t with _ | ⟨e, es⟩
            · rfl
            · have := ht e es rfl
              simp [this.2.2.1, this.2.2.2]
        · rw [hsd] at h
          rw [skipDigits_append t (Or.inl (by simp [hsd])), hsd]
          simp only [List.cons_append] at h ⊢
          split_ifs at h ⊢ with he
          · exact scanExp_append t h ht
          · simp only [Option.some.injEq] at h ⊢
            simp [← h]
    · simp only [h46, if_false] at h ⊢
      split_ifs at h ⊢ with he
      · exact scanExp_append t h ht
      · simp only [Option.some.injEq] at h ⊢
        simp [← h]

theorem scanInt_append {s r : List Nat} (t : List Nat) (h : scanInt s = some r)
    (ht : r ≠ [] ∨ NumStop t) : scanInt (s ++ t) = some (r ++ t) := by
  unfold scanInt at h ⊢
  rcases s with _ | ⟨c, cs⟩
  · simp at h
  · simp only [List.cons_append] at h ⊢
    split_ifs at h ⊢ with h48 h49
    · exact scanFrac_append t h ht
    · by_cases hsd : skipDigits cs = []
      · rw [hsd] at h
        simp only [scanFrac, Option.some.injEq] at h
        subst h
        rcases ht with ht | ht
        · exact absurd rfl ht
        · rw [skipDigits_append t (Or.inr ht), hsd]
          exact scanFrac_append t (by simp [scanFrac]) (Or.inr ht)
      · rw [skipDigits_append t (Or.inl hsd)]
        exact scanFrac_append t h ht

theorem expect_append {lit s r : List Nat} (t : List Nat) (h : expect lit s = some r) :
    expect lit (s ++ t) = some (r ++ t) := by
  induction lit generalizing s with
  | nil =>
    cases s <;> simp_all [expect]
  | cons l ls ih =>
    rcases s with _ | ⟨c, s⟩
    · simp [expect] at h
    · simp only [expect, List.cons_append] at h ⊢
      split_ifs at h ⊢ with hc
      exact ih h


theorem skipSpace_append' {s : List Nat} (t : List Nat) (h : skipSpace s ≠ []) :
    skipSpace (s ++ t) = skipSpace s ++ t := by
  rcases hs : skipSpace s with _ | ⟨c, r⟩
  · exact absurd hs h
  · rw [skipSpace_append t hs]; rfl

theorem scanMembers_succ (lim fuel depth : Nat) (s : List Nat) :
    scanMembers lim (fuel + 1) depth s =
      match s with
      | [] => none
      | q :: s1 =>
        if q = 34 then
          match scanString 0 true s1 with
          | none => none
          | some (key, r) =>
            match skipSpace r with
            | [] => none
            | c :: rest =>
              if c = 58 then
                match scanValue lim fuel depth rest with
                | none => none
                | some (x, r1) =>
                  match skipSpace r1 with
                  | [] => none
                  | c1 :: rest1 =>
                    if c1 = 44 then
                      match scanMembers lim fuel depth (skipSpace rest1) with
                      | some (ms, r2) => some ((key, x) :: ms, r2)
                      | none => none
                    else if c1 = 125 then some ([(key, x)], rest1)
                    else none
              else none
        else none := by
  rw [scanMembers.eq_def] <;> rfl

theorem scanMembers_nil (lim fuel depth : Nat) : scanMembers lim fuel depth [] = none := by
  cases fuel <;> simp [scanMembers]

theorem scan_append (lim : Nat) (t : List Nat) : ∀ fuel : Nat,
    (∀ depth s j r, scanValue lim fuel depth s = some (j, r) →
        (j = JSON.num → r ≠ [] ∨ NumStop t) →
        scanValue lim fuel depth (s ++ t) = some (j, r ++ t)) ∧
      (∀ depth s xs r, scanElems lim fuel depth s = some (xs, r) →
        scanElems lim fuel depth (s ++ t) = some (xs, r ++ t)) ∧
      (∀ depth s ms r, scanMembers lim fuel depth s = some (ms, r) →
        scanMembers lim fuel depth (s ++ t) = some (ms, r ++ t)) := by
  intro fuel
  induction fuel with
  | zero => simp [scanValue, scanElems, scanMembers]
  | succ fuel ih =>
    obtain ⟨ihV, ihE, ihM⟩ := ih
    refine ⟨?_, ?_, ?_⟩
    · intro depth s j r h hnum
      rw [scanValue] at h ⊢
      rcases hs : skipSpace s with _ | ⟨c, rest⟩
      · simp [hs] at h
      · rw [skipSpace_append t hs]
        simp only [hs] at h ⊢
        split_ifs at h ⊢ with h123 hd h91 hd h34 h45 hdig h116 h102 h110
        · rcases hs1 : skipSpace rest with _ | ⟨c1, rest1⟩
          · simp [hs1] at h
          · rw [skipSpace_append t hs1]
            simp only [hs1] at h ⊢
            split_ifs at h ⊢ with h125
            · simp only [Option.some.injEq, Prod.mk.injEq] at h ⊢
              simp [← h.1, ← h.2]
            · rcases hm : scanMembers lim fuel (depth + 1) (c1 :: rest1) with _ | ⟨ms, r'⟩
              · simp [hm] at h
              · have := ihM _ _ _ _ hm
                simp only [List.cons_append] at this
                simp only [hm, this, Option.some.injEq, Prod.mk.injEq] at h ⊢
                simp [← h.1, ← h.2]
        · rcases hs1 : skipSpace rest with _ | ⟨c1, rest1⟩
          · simp [hs1] at h
          · rw [skipSpace_append t hs1]
            simp only [hs1] at h ⊢
            split_ifs at h ⊢ with h93
            · simp only [Option.some.injEq, Prod.mk.injEq] at h ⊢
              simp [← h.1, ← h.2]
            · rcases hm : scanElems lim fuel (depth + 1) (c1 :: rest1) with _ | ⟨ms, r'⟩
              · simp [hm] at h
              · have := ihE _ _ _ _ hm
                simp only [List.cons_append] at this
                simp only [hm, this, Option.some.injEq, Prod.mk.injEq] at h ⊢
                simp [← h.1, ← h.2]
        · rcases hm : scanString 0 true rest with _ | ⟨x, r'⟩
          · simp [hm] at h
          · simp only [hm, scanString_append t _ _ _ _ _ hm, Option.some.injEq,
              Prod.mk.injEq] at h ⊢
            simp [← h.1, ← h.2]
        · rcases hm : scanInt rest with _ | r'
          · simp [hm] at h
          · simp only [hm, Option.some.injEq, Prod.mk.injEq] at h
            obtain ⟨rfl, rfl⟩ := h
            simp [scanInt_append t hm (hnum rfl)]
        · rcases hm : scanInt (c :: rest) with _ | r'
          · simp [hm] at h
          · simp only [hm, Option.some.injEq, Prod.mk.injEq] at h
            obtain ⟨rfl, rfl⟩ := h
            have := scanInt_append t hm (hnum rfl)
            simp only [List.cons_append] at this
            simp [this]
        · rcases hm : expect [114, 117, 101] rest with _ | r'
          · simp [hm] at h
          · simp only [hm, expect_append t hm, Option.some.injEq, Prod.mk.injEq] at h ⊢
            simp [← h.1, ← h.2]
        · rcases hm : expect [97, 108, 115, 101] rest with _ | r'
          · simp [hm] at h
          · simp only [hm, expect_append t hm, Option.some.injEq, Prod.mk.injEq] at h ⊢
            simp [← h.1, ← h.2]
        · rcases hm : expect [117, 108, 108] rest with _ | r'
          · simp [hm] at h
          · simp only [hm, expect_append t hm, Option.some.injEq, Prod.mk.injEq] at h ⊢
            simp [← h.1, ← h.2]
    · intro depth s xs r h
      rw [scanElems] at h ⊢
      rcases hv : scanValue lim fuel depth s with _ | ⟨x, r1⟩
      · simp [hv] at h
      · simp only [hv] at h
        rcases hs : skipSpace r1 with _ | ⟨c, rest⟩
        · simp [hs] at h
        · have hr1 : r1 ≠ [] := by rintro rfl; simp [skipSpace] at hs
          rw [ihV _ _ _ _ hv (fun _ => Or.inl hr1)]
          simp only [hs, skipSpace_append t hs] at h ⊢
          split_ifs at h ⊢ with h44 h93
          · rcases hm : scanElems lim fuel depth rest with _ | ⟨ys, r'⟩
            · simp [hm] at h
            · simp only [hm, ihE _ _ _ _ hm, Option.some.injEq, Prod.mk.injEq] at h ⊢
              simp [← h.1, ← h.2]
          · simp only [Option.some.injEq, Prod.mk.injEq] at h ⊢
            simp [← h.1, ← h.2]
    · intro depth s ms r h
      rw [scanMembers_succ] at h ⊢
      rcases s with _ | ⟨q, s1⟩
      · simp at h
      · simp only [List.cons_append] at h ⊢
        split_ifs at h ⊢ with hq
        rcases hk : scanString 0 true s1 with _ | ⟨key, r0⟩
        · simp [hk] at h
        · simp only [hk, scanString_append t _ _ _ _ _ hk] at h ⊢
          rcases hs : skipSpace r0 with _ | ⟨c, rest⟩
          · simp [hs] at h
          · simp only [hs, skipSpace_append t hs] at h ⊢
            split_ifs at h ⊢ with h58
            rcases hv : scanValue lim fuel depth rest with _ | ⟨x, r1⟩
            · simp [hv] at h
            · simp only [hv] at h
              rcases hs1 : skipSpace r1 with _ | ⟨c1, rest1⟩
              · simp [hs1] at h
              · have hr1 : r1 ≠ [] := by rintro rfl; simp [skipSpace] at hs1
                rw [ihV _ _ _ _ hv (fun _ => Or.inl hr1)]
                simp only [hs1, skipSpace_append t hs1] at h ⊢
                split_ifs at h ⊢ with h44 h125
                · rcases hm : scanMembers lim fuel depth (skipSpace rest1) with _ | ⟨ys, r'⟩
                  · simp [hm] at h
                  · have hne : skipSpace rest1 ≠ [] := by
                      intro h0
                      rw [h0, scanMembers_nil] at hm
                      simp at hm
                    rw [skipSpace_append' t hne]
                    simp only [hm, ihM _ _ _ _ hm, Option.some.injEq, Prod.mk.injEq] at h ⊢
                    simp [← h.1, ← h.2]
                · simp only [Option.some.injEq, Prod.mk.injEq] at h ⊢
                  simp [← h.1, ← h.2]

/-! ## The scanner: depth and fuel -/

/-- A scan that succeeds at one depth under one limit succeeds with the same result wherever
the room left below the limit is at least as large. -/
theorem scan_depth (lim lim' : Nat) : ∀ fuel : Nat,
    (∀ depth depth' s x, depth' + lim ≤ depth + lim' →
        scanValue lim fuel depth s = some x → scanValue lim' fuel depth' s = some x) ∧
      (∀ depth depth' s x, depth' + lim ≤ depth + lim' →
        scanElems lim fuel depth s = some x → scanElems lim' fuel depth' s = some x) ∧
      (∀ depth depth' s x, depth' + lim ≤ depth + lim' →
        scanMembers lim fuel depth s = some x → scanMembers lim' fuel depth' s = some x) := by
  intro fuel
  induction fuel with
  | zero => simp [scanValue, scanElems, scanMembers]
  | succ fuel ih =>
    obtain ⟨ihV, ihE, ihM⟩ := ih
    refine ⟨?_, ?_, ?_⟩
    · intro depth depth' s x hd h
      rw [scanValue] at h ⊢
      rcases hs : skipSpace s with _ | ⟨c, rest⟩
      · simp [hs] at h
      · simp only [hs] at h ⊢
        by_cases h123 : c = 123
        · simp only [h123, if_true] at h ⊢
          by_cases hdd : depth + 1 ≤ lim
          · have hdd' : depth' + 1 ≤ lim' := by omega
            simp only [hdd, hdd', if_true] at h ⊢
            rcases hs1 : skipSpace rest with _ | ⟨c1, rest1⟩
            · simp [hs1] at h
            · simp only [hs1] at h ⊢
              split_ifs at h ⊢ with h125
              · exact h
              · rcases hm : scanMembers lim fuel (depth + 1) (c1 :: rest1) with _ | ⟨ms, r'⟩
                · simp [hm] at h
                · rw [ihM (depth + 1) (depth' + 1) _ _ (by omega) hm]
                  simpa [hm] using h
          · simp [hdd] at h
        · simp only [h123, if_false] at h ⊢
          by_cases h91 : c = 91
          · simp only [h91, if_true] at h ⊢
            by_cases hdd : depth + 1 ≤ lim
            · have hdd' : depth' + 1 ≤ lim' := by omega
              simp only [hdd, hdd', if_true] at h ⊢
              rcases hs1 : skipSpace rest with _ | ⟨c1, rest1⟩
              · simp [hs1] at h
              · simp only [hs1] at h ⊢
                split_ifs at h ⊢ with h93
                · exact h
                · rcases hm : scanElems lim fuel (depth + 1) (c1 :: rest1) with _ | ⟨ms, r'⟩
                  · simp [hm] at h
                  · rw [ihE (depth + 1) (depth' + 1) _ _ (by omega) hm]
                    simpa [hm] using h
            · simp [hdd] at h
          · simp only [h91, if_false] at h ⊢
            exact h
    · intro depth depth' s x hd h
      rw [scanElems] at h ⊢
      rcases hv : scanValue lim fuel depth s with _ | ⟨y, r1⟩
      · simp [hv] at h
      · rw [ihV _ _ _ _ hd hv]
        simp only [hv] at h ⊢
        rcases hs : skipSpace r1 with _ | ⟨c, rest⟩
        · simp [hs] at h
        · simp only [hs] at h ⊢
          split_ifs at h ⊢ with h44 h93
          · rcases hm : scanElems lim fuel depth rest with _ | ⟨ys, r'⟩
            · simp [hm] at h
            · rw [ihE _ _ _ _ hd hm]
              simpa [hm] using h
          · exact h
    · intro depth depth' s x hd h
      rw [scanMembers_succ] at h ⊢
      rcases s with _ | ⟨q, s1⟩
      · simp at h
      · simp only at h ⊢
        split_ifs at h ⊢ with hq
        rcases hk : scanString 0 true s1 with _ | ⟨key, r0⟩
        · simp [hk] at h
        · simp only [hk] at h ⊢
          rcases hs : skipSpace r0 with _ | ⟨c, rest⟩
          · simp [hs] at h
          · simp only [hs] at h ⊢
            split_ifs at h ⊢ with h58
            rcases hv : scanValue lim fuel depth rest with _ | ⟨y, r1⟩
            · simp [hv] at h
            · rw [ihV _ _ _ _ hd hv]
              simp only [hv] at h ⊢
              rcases hs1 : skipSpace r1 with _ | ⟨c1, rest1⟩
              · simp [hs1] at h
              · simp only [hs1] at h ⊢
                split_ifs at h ⊢ with h44 h125
                · rcases hm : scanMembers lim fuel depth (skipSpace rest1) with _ | ⟨ys, r'⟩
                  · simp [hm] at h
                  · rw [ihM _ _ _ _ hd hm]
                    simpa [hm] using h
                · exact h

/-- More fuel does not change a successful scan. -/
theorem scan_mono (lim : Nat) : ∀ fuel : Nat,
    (∀ depth s x, scanValue lim fuel depth s = some x →
        scanValue lim (fuel + 1) depth s = some x) ∧
      (∀ depth s x, scanElems lim fuel depth s = some x →
        scanElems lim (fuel + 1) depth s = some x) ∧
      (∀ depth s x, scanMembers lim fuel depth s = some x →
        scanMembers lim (fuel + 1) depth s = some x) := by
  intro fuel
  induction fuel with
  | zero => simp [scanValue, scanElems, scanMembers]
  | succ fuel ih =>
    obtain ⟨ihV, ihE, ihM⟩ := ih
    refine ⟨?_, ?_, ?_⟩
    · intro depth s x h
      rw [scanValue] at h
      rw [scanValue]
      rcases hs : skipSpace s with _ | ⟨c, rest⟩
      · simp [hs] at h
      · simp only [hs] at h ⊢
        by_cases h123 : c = 123
        · simp only [h123, if_true] at h ⊢
          split_ifs at h ⊢ with hdd
          rcases hs1 : skipSpace rest with _ | ⟨c1, rest1⟩
          · simp [hs1] at h
          · simp only [hs1] at h ⊢
            split_ifs at h ⊢ with h125
            · exact h
            · rcases hm : scanMembers lim fuel (depth + 1) (c1 :: rest1) with _ | ⟨ms, r'⟩
              · simp [hm] at h
              · rw [ihM _ _ _ hm]
                simpa [hm] using h
        · simp only [h123, if_false] at h ⊢
          by_cases h91 : c = 91
          · simp only [h91, if_true] at h ⊢
            split_ifs at h ⊢ with hdd
            rcases hs1 : skipSpace rest with _ | ⟨c1, rest1⟩
            · simp [hs1] at h
            · simp only [hs1] at h ⊢
              split_ifs at h ⊢ with h93
              · exact h
              · rcases hm : scanElems lim fuel (depth + 1) (c1 :: rest1) with _ | ⟨ms, r'⟩
                · simp [hm] at h
                · rw [ihE _ _ _ hm]
                  simpa [hm] using h
          · simp only [h91, if_false] at h ⊢
            exact h
    · intro depth s x h
      rw [scanElems] at h
      rw [scanElems]
      rcases hv : scanValue lim fuel depth s with _ | ⟨y, r1⟩
      · simp [hv] at h
      · rw [ihV _ _ _ hv]
        simp only [hv] at h ⊢
        rcases hs : skipSpace r1 with _ | ⟨c, rest⟩
        · simp [hs] at h
        · simp only [hs] at h ⊢
          split_ifs at h ⊢ with h44 h93
          · rcases hm : scanElems lim fuel depth rest with _ | ⟨ys, r'⟩
            · simp [hm] at h
            · rw [ihE _ _ _ hm]
              simpa [hm] using h
          · exact h
    · intro depth s x h
      rw [scanMembers_succ] at h
      rw [scanMembers_succ]
      rcases s with _ | ⟨q, s1⟩
      · simp at h
      · simp only at h ⊢
        split_ifs at h ⊢ with hq
        rcases hk : scanString 0 true s1 with _ | ⟨key, r0⟩
        · simp [hk] at h
        · simp only [hk] at h ⊢
          rcases hs : skipSpace r0 with _ | ⟨c, rest⟩
          · simp [hs] at h
          · simp only [hs] at h ⊢
            split_ifs at h ⊢ with h58
            rcases hv : scanValue lim fuel depth rest with _ | ⟨y, r1⟩
            · simp [hv] at h
            · rw [ihV _ _ _ hv]
              simp only [hv] at h ⊢
              rcases hs1 : skipSpace r1 with _ | ⟨c1, rest1⟩
              · simp [hs1] at h
              · simp only [hs1] at h ⊢
                split_ifs at h ⊢ with h44 h125
                · rcases hm : scanMembers lim fuel depth (skipSpace rest1) with _ | ⟨ys, r'⟩
                  · simp [hm] at h
                  · rw [ihM _ _ _ hm]
                    simpa [hm] using h
                · exact h

theorem scanValue_mono {lim fuel fuel' depth : Nat} {s : List Nat} {x : JSON × List Nat}
    (hf : fuel ≤ fuel') (h : scanValue lim fuel depth s = some x) :
    scanValue lim fuel' depth s = some x := by
  induction hf with
  | refl => exact h
  | step _ ih => exact (scan_mono lim _).1 _ _ _ ih

theorem scanElems_mono {lim fuel fuel' depth : Nat} {s : List Nat} {x : List JSON × List Nat}
    (hf : fuel ≤ fuel') (h : scanElems lim fuel depth s = some x) :
    scanElems lim fuel' depth s = some x := by
  induction hf with
  | refl => exact h
  | step _ ih => exact (scan_mono lim _).2.1 _ _ _ ih

theorem scanMembers_mono {lim fuel fuel' depth : Nat} {s : List Nat}
    {x : List (List Nat × JSON) × List Nat}
    (hf : fuel ≤ fuel') (h : scanMembers lim fuel depth s = some x) :
    scanMembers lim fuel' depth s = some x := by
  induction hf with
  | refl => exact h
  | step _ ih => exact (scan_mono lim _).2.2 _ _ _ ih

/-! ### What a scan consumes -/

theorem skipSpace_length (s : List Nat) : (skipSpace s).length ≤ s.length := by
  induction s with
  | nil => simp [skipSpace]
  | cons a s ih =>
    simp only [skipSpace]
    split
    · simp only [List.length_cons]; omega
    · simp

theorem skipSpace_cons_length {s : List Nat} {c : Nat} {r : List Nat}
    (h : skipSpace s = c :: r) : r.length < s.length := by
  have := skipSpace_length s
  rw [h] at this
  simpa using this

theorem skipDigits_length (s : List Nat) : (skipDigits s).length ≤ s.length := by
  induction s with
  | nil => simp [skipDigits]
  | cons a s ih =>
    simp only [skipDigits]
    split
    · simp only [List.length_cons]; omega
    · simp

theorem scanString_length : ∀ (k : Nat) (keep : Bool) (s x r : List Nat),
    scanString k keep s = some (x, r) → r.length < s.length := by
  intro k keep s
  induction k, keep, s using scanString.induct with
  | case1 k keep => intro x r h; simp [scanString_nil] at h
  | case2 k c rest ih =>
    intro x r h
    simp only [scanString_succ, if_true] at h
    obtain ⟨y, hy, -⟩ := consBytes_eq_some h
    have := ih _ _ hy
    simp only [List.length_cons]; omega
  | case3 k keep c rest hk ih =>
    intro x r h
    cases keep with
    | true => exact absurd rfl hk
    | false =>
      simp only [scanString_succ, Bool.false_eq_true, if_false] at h
      have := ih _ _ h
      simp only [List.length_cons]; omega
  | case4 keep rest =>
    intro x r h
    simp only [scanString_zero, if_true, Option.some.injEq, Prod.mk.injEq] at h
    simp [← h.2]
  | case5 keep hne =>
    intro x r h
    simp [scanString_zero] at h
  | case6 keep h1 h2 h3 h4 rest2 hg hne =>
    intro x r h
    simp [scanString_zero, hg] at h
  | case7 keep h1 h2 h3 h4 rest2 rr hg hsur rr1 hlow hne ih =>
    intro x r h
    simp only [scanString_zero, hg, hsur, hlow] at h
    simp only [show ¬ (92 = 34) by decide, if_false, if_true, and_self] at h
    obtain ⟨y, hy, -⟩ := consBytes_eq_some h
    have := ih _ _ hy
    simp only [List.length_cons]; omega
  | case8 keep h1 h2 h3 h4 rest2 rr hg hsur hlow hne ih =>
    intro x r h
    simp only [scanString_zero, hg, hsur, hlow] at h
    simp only [show ¬ (92 = 34) by decide, if_false, if_true, and_self] at h
    obtain ⟨y, hy, -⟩ := consBytes_eq_some h
    have := ih _ _ hy
    simp only [List.length_cons]; omega
  | case9 keep h1 h2 h3 h4 rest2 rr hg hsur hne ih =>
    intro x r h
    simp only [scanString_zero, hg, hsur] at h
    simp only [show ¬ (92 = 34) by decide, if_false, if_true] at h
    obtain ⟨y, hy, -⟩ := consBytes_eq_some h
    have := ih _ _ hy
    simp only [List.length_cons]; omega
  | case10 keep cs hcs hne =>
    intro x r h
    rcases cs with _ | ⟨a, _ | ⟨b, _ | ⟨c, _ | ⟨d, cs⟩⟩⟩⟩
    · simp [scanString_zero] at h
    · simp [scanString_zero] at h
    · simp [scanString_zero] at h
    · simp [scanString_zero] at h
    · exact absurd rfl (hcs a b c d cs)
  | case11 keep c cs hc b hb hne ih =>
    intro x r h
    simp only [scanString_zero, hc, hb] at h
    simp only [show ¬ (92 = 34) by decide, if_false, if_true] at h
    obtain ⟨y, hy, -⟩ := consBytes_eq_some h
    have := ih _ _ hy
    simp only [List.length_cons]; omega
  | case12 keep c cs hc hb hne =>
    intro x r h
    simp [scanString_zero, hc, hb] at h
  | case13 keep c rest h34 h92 h32 =>
    intro x r h
    simp [scanString_zero, h34, h92, h32] at h
  | case14 keep c rest h34 h92 h32 h128 ih =>
    intro x r h
    simp only [scanString_zero, h34, h92, h32, h128, if_false, if_true] at h
    obtain ⟨y, hy, -⟩ := consBytes_eq_some h
    have := ih _ _ hy
    simp only [List.length_cons]; omega
  | case15 keep c rest h34 h92 h32 h128 hr ih =>
    intro x r h
    simp only [scanString_zero, h34, h92, h32, h128, if_false, hr] at h
    obtain ⟨y, hy, -⟩ := consBytes_eq_some h
    have := ih _ _ hy
    simp only [List.length_cons]; omega
  | case16 keep c rest h34 h92 h32 h128 n hr ih =>
    intro x r h
    simp only [scanString_zero, h34, h92, h32, h128, if_false, hr] at h
    obtain ⟨y, hy, -⟩ := consBytes_eq_some h
    have := ih _ _ hy
    simp only [List.length_cons]; omega

theorem scanExp_length {s r : List Nat} (h : scanExp s = some r) : r.length < s.length := by
  unfold scanExp at h
  rcases s with _ | ⟨c, cs⟩
  · simp at h
  · by_cases hc : c = 43 ∨ c = 45
    · simp only [hc, if_true] at h
      rcases cs with _ | ⟨d, ds⟩
      · simp at h
      · simp only at h
        split_ifs at h
        simp only [Option.some.injEq] at h
        have := skipDigits_length ds
        rw [h] at this
        simp only [List.length_cons]; omega
    · simp only [hc, if_false] at h
      split_ifs at h
      simp only [Option.some.injEq] at h
      have := skipDigits_length cs
      rw [h] at this
      simp only [List.length_cons]; omega

theorem scanFrac_length {s r : List Nat} (h : scanFrac s = some r) : r.length ≤ s.length := by
  unfold scanFrac at h
  rcases s with _ | ⟨c, cs⟩
  · simp only [Option.some.injEq] at h; subst h; simp
  · simp only at h
    by_cases h46 : c = 46
    · simp only [h46, if_true] at h
      rcases cs with _ | ⟨d, ds⟩
      · simp at h
      · simp only at h
        split_ifs at h
        have hl := skipDigits_length ds
        rcases hsd : skipDigits ds with _ | ⟨e, es⟩
        · rw [hsd] at h
          simp only [Option.some.injEq] at h
          subst h; simp
        · rw [hsd] at h hl
          simp only [List.length_cons] at hl ⊢
          simp only at h
          split_ifs at h
          · have := scanExp_length h
            omega
          · simp only [Option.some.injEq] at h
            subst h
            simp only [List.length_cons]; omega
    · simp only [h46, if_false] at h
      split_ifs at h
      · have := scanExp_length h
        simp only [List.length_cons]; omega
      · simp only [Option.some.injEq] at h
        subst h; simp

theorem scanInt_length {s r : List Nat} (h : scanInt s = some r) : r.length < s.length := by
  unfold scanInt at h
  rcases s with _ | ⟨c, cs⟩
  · simp at h
  · simp only at h
    split_ifs at h
    · have := scanFrac_length h
      simp only [List.length_cons]; omega
    · have := scanFrac_length h
      have := skipDigits_length cs
      simp only [List.length_cons]; omega

theorem expect_length {lit s r : List Nat} (h : expect lit s = some r) :
    r.length ≤ s.length := by
  induction lit generalizing s with
  | nil => cases s <;> simp_all [expect]
  | cons l ls ih =>
    rcases s with _ | ⟨c, s⟩
    · simp [expect] at h
    · simp only [expect] at h
      split_ifs at h
      have := ih h
      simp only [List.length_cons]; omega


/-- A successful scan consumes input, and succeeds with the same result with any fuel that is at
least the number of bytes it consumes. -/
theorem scan_fuel (lim : Nat) : ∀ fuel : Nat,
    (∀ depth s j r, scanValue lim fuel depth s = some (j, r) →
        r.length < s.length ∧
          ∀ f, s.length - r.length ≤ f → scanValue lim f depth s = some (j, r)) ∧
      (∀ depth s xs r, scanElems lim fuel depth s = some (xs, r) →
        r.length < s.length ∧
          ∀ f, s.length - r.length ≤ f → scanElems lim f depth s = some (xs, r)) ∧
      (∀ depth s ms r, scanMembers lim fuel depth s = some (ms, r) →
        r.length < s.length ∧
          ∀ f, s.length - r.length ≤ f → scanMembers lim f depth s = some (ms, r)) := by
  intro fuel
  induction fuel with
  | zero => simp [scanValue, scanElems, scanMembers]
  | succ fuel ih =>
    obtain ⟨ihV, ihE, ihM⟩ := ih
    refine ⟨?_, ?_, ?_⟩
    · intro depth s j r h
      rw [scanValue] at h
      rcases hs : skipSpace s with _ | ⟨c, rest⟩
      · simp [hs] at h
      · have hl := skipSpace_cons_length hs
        simp only [hs] at h
        have key : r.length < s.length →
            (∀ k, s.length - r.length ≤ k + 1 → scanValue lim (k + 1) depth s = some (j, r)) →
            r.length < s.length ∧
              ∀ f, s.length - r.length ≤ f → scanValue lim f depth s = some (j, r) := by
          intro h1 h2
          refine ⟨h1, fun f hf => ?_⟩
          obtain ⟨k, rfl⟩ : ∃ k, f = k + 1 := ⟨f - 1, by omega⟩
          exact h2 k hf
        by_cases h123 : c = 123
        · simp only [h123, if_true] at h
          split_ifs at h with hdd
          rcases hs1 : skipSpace rest with _ | ⟨c1, rest1⟩
          · simp [hs1] at h
          · have hl1 := skipSpace_cons_length hs1
            simp only [hs1] at h
            split_ifs at h with h125
            · simp only [Option.some.injEq, Prod.mk.injEq] at h
              obtain ⟨rfl, rfl⟩ := h
              refine key (by omega) (fun k _ => ?_)
              rw [scanValue]
              simp [hs, h123, hdd, hs1, h125]
            · rcases hm : scanMembers lim fuel (depth + 1) (c1 :: rest1) with _ | ⟨ms, r'⟩
              · simp [hm] at h
              · simp only [hm, Option.some.injEq, Prod.mk.injEq] at h
                obtain ⟨rfl, rfl⟩ := h
                obtain ⟨hlm, hfm⟩ := ihM _ _ _ _ hm
                simp only [List.length_cons] at hlm hfm
                refine key (by omega) (fun k hk => ?_)
                rw [scanValue]
                simp [hs, h123, hdd, hs1, h125, hfm k (by omega)]
        · simp only [h123, if_false] at h
          by_cases h91 : c = 91
          · simp only [h91, if_true] at h
            split_ifs at h with hdd
            rcases hs1 : skipSpace rest with _ | ⟨c1, rest1⟩
            · simp [hs1] at h
            · have hl1 := skipSpace_cons_length hs1
              simp only [hs1] at h
              split_ifs at h with h93
              · simp only [Option.some.injEq, Prod.mk.injEq] at h
                obtain ⟨rfl, rfl⟩ := h
                refine key (by omega) (fun k _ => ?_)
                rw [scanValue]
                simp [hs, h91, hdd, hs1, h93]
              · rcases hm : scanElems lim fuel (depth + 1) (c1 :: rest1) with _ | ⟨ms, r'⟩
                · simp [hm] at h
                · simp only [hm, Option.some.injEq, Prod.mk.injEq] at h
                  obtain ⟨rfl, rfl⟩ := h
                  obtain ⟨hlm, hfm⟩ := ihE _ _ _ _ hm
                  simp only [List.length_cons] at hlm hfm
                  refine key (by omega) (fun k hk => ?_)
                  rw [scanValue]
                  simp [hs, h91, hdd, hs1, h93, hfm k (by omega)]
          · simp only [h91, if_false] at h
            have hlen : r.length < s.length := by
              split_ifs at h with h34 h45 hdig h116 h102 h110
              · rcases hm : scanString 0 true rest with _ | ⟨x, r'⟩
                · simp [hm] at h
                · simp only [hm, Option.some.injEq, Prod.mk.injEq] at h
                  have := scanString_length _ _ _ _ _ hm
                  rw [← h.2]; omega
              · rcases hm : scanInt rest with _ | r'
                · simp [hm] at h
                · simp only [hm, Option.some.injEq, Prod.mk.injEq] at h
                  have := scanInt_length hm
                  rw [← h.2]; omega
              · rcases hm : scanInt (c :: rest) with _ | r'
                · simp [hm] at h
                · simp only [hm, Option.some.injEq, Prod.mk.injEq] at h
                  have := scanInt_length hm
                  simp only [List.length_cons] at this
                  rw [← h.2]; omega
              · rcases hm : expect [114, 117, 101] rest with _ | r'
                · simp [hm] at h
                · simp only [hm, Option.some.injEq, Prod.mk.injEq] at h
                  have := expect_length hm
                  rw [← h.2]; omega
              · rcases hm : expect [97, 108, 115, 101] rest with _ | r'
                · simp [hm] at h
                · simp only [hm, Option.some.injEq, Prod.mk.injEq] at h
                  have := expect_length hm
                  rw [← h.2]; omega
              · rcases hm : expect [117, 108, 108] rest with _ | r'
                · simp [hm] at h
                · simp only [hm, Option.some.injEq, Prod.mk.injEq] at h
                  have := expect_length hm
                  rw [← h.2]; omega
            refine key hlen (fun k _ => ?_)
            rw [scanValue]
            simp only [hs, h123, h91, if_false]
            exact h
    · intro depth s xs r h
      rw [scanElems] at h
      rcases hv : scanValue lim fuel depth s with _ | ⟨x, r1⟩
      · simp [hv] at h
      · simp only [hv] at h
        obtain ⟨hlv, hfv⟩ := ihV _ _ _ _ hv
        rcases hs : skipSpace r1 with _ | ⟨c, rest⟩
        · simp [hs] at h
        · have hl := skipSpace_cons_length hs
          simp only [hs] at h
          split_ifs at h with h44 h93
          · rcases hm : scanElems lim fuel depth rest with _ | ⟨ys, r'⟩
            · simp [hm] at h
            · simp only [hm, Option.some.injEq, Prod.mk.injEq] at h
              obtain ⟨rfl, rfl⟩ := h
              obtain ⟨hlm, hfm⟩ := ihE _ _ _ _ hm
              refine ⟨by omega, fun f hf => ?_⟩
              obtain ⟨k, rfl⟩ : ∃ k, f = k + 1 := ⟨f - 1, by omega⟩
              rw [scanElems]
              simp [hfv k (by omega), hs, h44, hfm k (by omega)]
          · simp only [Option.some.injEq, Prod.mk.injEq] at h
            obtain ⟨rfl, rfl⟩ := h
            refine ⟨by omega, fun f hf => ?_⟩
            obtain ⟨k, rfl⟩ : ∃ k, f = k + 1 := ⟨f - 1, by omega⟩
            rw [scanElems]
            simp [hfv k (by omega), hs, h44, h93]
    · intro depth s ms r h
      rw [scanMembers_succ] at h
      rcases s with _ | ⟨q, s1⟩
      · simp at h
      · simp only at h
        split_ifs at h with hq
        rcases hk : scanString 0 true s1 with _ | ⟨key, r0⟩
        · simp [hk] at h
        · have hlk := scanString_length _ _ _ _ _ hk
          simp only [hk] at h
          rcases hs : skipSpace r0 with _ | ⟨c, rest⟩
          · simp [hs] at h
          · have hl := skipSpace_cons_length hs
            simp only [hs] at h
            split_ifs at h with h58
            rcases hv : scanValue lim fuel depth rest with _ | ⟨x, r1⟩
            · simp [hv] at h
            · simp only [hv] at h
              obtain ⟨hlv, hfv⟩ := ihV _ _ _ _ hv
              rcases hs1 : skipSpace r1 with _ | ⟨c1, rest1⟩
              · simp [hs1] at h
              · have hl1 := skipSpace_cons_length hs1
                simp only [hs1] at h
                simp only [List.length_cons]
                split_ifs at h with h44 h125
                · rcases hm : scanMembers lim fuel depth (skipSpace rest1) with _ | ⟨ys, r'⟩
                  · simp [hm] at h
                  · simp only [hm, Option.some.injEq, Prod.mk.injEq] at h
                    obtain ⟨rfl, rfl⟩ := h
                    obtain ⟨hlm, hfm⟩ := ihM _ _ _ _ hm
                    have := skipSpace_length rest1
                    refine ⟨by omega, fun f hf => ?_⟩
                    obtain ⟨k, rfl⟩ : ∃ k, f = k + 1 := ⟨f - 1, by omega⟩
                    rw [scanMembers_succ]
                    simp [hq, hk, hs, h58, hfv k (by omega), hs1, h44, hfm k (by omega)]
                · simp only [Option.some.injEq, Prod.mk.injEq] at h
                  obtain ⟨rfl, rfl⟩ := h
                  refine ⟨by omega, fun f hf => ?_⟩
                  obtain ⟨k, rfl⟩ : ∃ k, f = k + 1 := ⟨f - 1, by omega⟩
                  rw [scanMembers_succ]
                  simp [hq, hk, hs, h58, hfv k (by omega), hs1, h44, h125]

/-! ## The decoder never returns the size error -/

theorem NoMax_none : NoMax none := by simp [NoMax]

theorem NoMax_firstErr {a b : Option Err} (ha : NoMax a) (hb : NoMax b) : NoMax (firstErr a b) := by
  cases a <;> simp_all [firstErr, NoMax]

theorem NoMax_valueString (j : JSON) (old : List Nat) : NoMax (valueString j old).2 := by
  cases j <;> simp [valueString, NoMax]

theorem NoMax_objectPackage (ms : List (List Nat × JSON)) :
    ∀ p, NoMax (objectPackage ms p).2 := by
  induction ms with
  | nil => intro p; simp [objectPackage, NoMax]
  | cons kv ms ih =>
    intro p
    obtain ⟨k, v⟩ := kv
    simp only [objectPackage]
    apply NoMax_firstErr _ (ih _)
    split
    · exact NoMax_valueString _ _
    · exact NoMax_valueString _ _
    · simp [NoMax]

theorem NoMax_valuePackage (j : JSON) (old : Option PackageConstraint) :
    NoMax (valuePackage j old).2 := by
  cases j <;> simp [valuePackage, NoMax_none, NoMax_objectPackage] <;> simp [NoMax]

theorem NoMax_objectGVK (ms : List (List Nat × JSON)) :
    ∀ p, NoMax (objectGVK ms p).2 := by
  induction ms with
  | nil => intro p; simp [objectGVK, NoMax]
  | cons kv ms ih =>
    intro p
    obtain ⟨k, v⟩ := kv
    simp only [objectGVK]
    apply NoMax_firstErr _ (ih _)
    split
    · exact NoMax_valueString _ _
    · exact NoMax_valueString _ _
    · exact NoMax_valueString _ _
    · simp [NoMax]

theorem NoMax_valueGVK (j : JSON) (old : Option GVKConstraint) :
    NoMax (valueGVK j old).2 := by
  cases j <;> simp [valueGVK, NoMax_none, NoMax_objectGVK] <;> simp [NoMax]

mutual
theorem NoMax_valueConstraint : ∀ (j : JSON) (c : ConstraintMem), NoMax (valueConstraint j c).2
  | JSON.null, c => by simp [valueConstraint, NoMax]
  | JSON.bool _, c => by simp [valueConstraint, NoMax]
  | JSON.num, c => by simp [valueConstraint, NoMax]
  | JSON.str _, c => by simp [valueConstraint, NoMax]
  | JSON.arr _, c => by simp [valueConstraint, NoMax]
  | JSON.obj ms, c => by
    simp only [valueConstraint]
    exact NoMax_objectConstraint ms c
theorem NoMax_objectConstraint : ∀ (ms : List (List Nat × JSON)) (c : ConstraintMem),
    NoMax (objectConstraint ms c).2
  | [], c => by simp [objectConstraint, NoMax]
  | (k, v) :: ms, ConstraintMem.mk m p g a y n => by
    simp only [objectConstraint]
    split
    · exact NoMax_firstErr (NoMax_valueString _ _) (NoMax_objectConstraint ms _)
    · exact NoMax_firstErr (NoMax_valuePackage _ _) (NoMax_objectConstraint ms _)
    · exact NoMax_firstErr (NoMax_valueGVK _ _) (NoMax_objectConstraint ms _)
    · exact NoMax_firstErr (NoMax_valueCompound v _) (NoMax_objectConstraint ms _)
    · exact NoMax_firstErr (NoMax_valueCompound v _) (NoMax_objectConstraint ms _)
    · exact NoMax_firstErr (NoMax_valueCompound v _) (NoMax_objectConstraint ms _)
    · dsimp only
      exact NoMax_firstErr (by simp [NoMax]) (NoMax_objectConstraint ms _)
theorem NoMax_valueCompound : ∀ (j : JSON) (old : Option CompoundMem),
    NoMax (valueCompound j old).2
  | JSON.null, c => by simp [valueCompound, NoMax]
  | JSON.bool _, c => by simp [valueCompound, NoMax]
  | JSON.num, c => by simp [valueCompound, NoMax]
  | JSON.str _, c => by simp [valueCompound, NoMax]
  | JSON.arr _, c => by simp [valueCompound, NoMax]
  | JSON.obj ms, c => by
    simp only [valueCompound]
    exact NoMax_objectCompound ms _
theorem NoMax_objectCompound : ∀ (ms : List (List Nat × JSON)) (old : CompoundMem),
    NoMax (objectCompound ms old).2
  | [], c => by simp [objectCompound, NoMax]
  | (k, v) :: ms, CompoundMem.mk cs spare => by
    simp only [objectCompound]
    split
    · exact NoMax_firstErr (NoMax_valueSlice v _ _) (NoMax_objectCompound ms _)
    · dsimp only
      exact NoMax_firstErr (by simp [NoMax]) (NoMax_objectCompound ms _)
theorem NoMax_valueSlice : ∀ (j : JSON) (old : Option (List ConstraintMem))
    (spare : List ConstraintMem), NoMax (valueSlice j old spare).2
  | JSON.null, c, _ => by simp [valueSlice, NoMax]
  | JSON.bool _, c, _ => by simp [valueSlice, NoMax]
  | JSON.num, c, _ => by simp [valueSlice, NoMax]
  | JSON.str _, c, _ => by simp [valueSlice, NoMax]
  | JSON.obj _, c, _ => by simp [valueSlice, NoMax]
  | JSON.arr xs, c, _ => by
    simp only [valueSlice]
    exact NoMax_arrayElems xs _
theorem NoMax_arrayElems : ∀ (xs : List JSON) (olds : List ConstraintMem),
    NoMax (arrayElems xs olds).2
  | [], c => by simp [arrayElems, NoMax]
  | x :: xs, olds => by
    simp only [arrayElems]
    exact NoMax_firstErr (NoMax_valueConstraint x _) (NoMax_arrayElems xs _)
end

theorem NoMax_Decode (v : List Nat) : NoMax (Decode v).2 := by
  unfold Decode
  split
  · simp [NoMax]
  · exact NoMax_valueConstraint _ _


/-! ## What follows the first value is not read -/

theorem maxConstraintSize_eq : maxConstraintSize = 131072 := by decide

theorem readValue_eq_some {v : List Nat} {j : JSON} (h : readValue v = some j) :
    ∃ r, scanValue maxNestingDepth (v.length + 1) 0 v = some (j, r) := by
  unfold readValue at h
  split at h
  · next j' r heq =>
    simp only [Option.some.injEq] at h
    subst h
    exact ⟨r, heq⟩
  · simp at h

theorem readValue_of_scan {v : List Nat} {f lim d : Nat} {j : JSON} {r : List Nat}
    (hd : lim ≤ d + maxNestingDepth)
    (h : scanValue lim f d v = some (j, r)) : readValue v = some j := by
  have h1 := ((scan_fuel lim f).1 _ _ _ _ h).2 (v.length + 1) (by omega)
  have h2 := (scan_depth lim maxNestingDepth (v.length + 1)).1 d 0 v _ (by omega) h1
  simp [readValue, h2]

theorem Parse_of_small {v : List Nat} (h : v.length ≤ maxConstraintSize) :
    Parse v = Decode v := by
  unfold Parse
  rw [if_neg (by omega)]

theorem valueConstraint_num (c : ConstraintMem) :
    (valueConstraint JSON.num c).2 = some Err.unmarshalType := by
  simp [valueConstraint]

/-- The input after an accepted document is ignored. -/
theorem Decode_append {d : List Nat} (t : List Nat) (h : (Decode d).2 = none) :
    Decode (d ++ t) = Decode d := by
  unfold Decode at h ⊢
  rcases hr : readValue d with _ | j
  · simp [hr] at h
  · simp only [hr] at h ⊢
    obtain ⟨r, hs⟩ := readValue_eq_some hr
    have hnum : j = JSON.num → r ≠ [] ∨ NumStop t := by
      rintro rfl
      rw [valueConstraint_num] at h
      simp at h
    have h1 := (scan_append maxNestingDepth t _).1 _ _ _ _ hs hnum
    rw [readValue_of_scan (by omega) h1]

/-- Bytes after an accepted document change nothing, as long as the size limit holds. -/
theorem Parse_append {d : List Nat} (t : List Nat) (hacc : (Parse d).2 = none)
    (hsize : (d ++ t).length ≤ 131072) : Parse (d ++ t) = Parse d := by
  have hd : d.length ≤ maxConstraintSize := by
    rw [maxConstraintSize_eq]
    simp only [List.length_append] at hsize
    omega
  rw [Parse_of_small hd] at hacc ⊢
  rw [Parse_of_small (by rw [maxConstraintSize_eq]; exact hsize), Decode_append t hacc]

/-! ## Unknown keys -/

theorem lookupField_lt {names : List (List Nat)} {key : List Nat} {i : Nat}
    (h : lookupField names key = some i) : i < names.length := by
  unfold lookupField at h
  split_ifs at h with h1 h2
  · simp only [Option.some.injEq] at h; omega
  · simp only [Option.some.injEq] at h; omega

theorem firstErr_ne_none_left {a b : Option Err} (h : a ≠ none) : firstErr a b ≠ none := by
  cases a <;> simp_all [firstErr]

theorem firstErr_ne_none_right {a b : Option Err} (h : b ≠ none) : firstErr a b ≠ none := by
  cases a <;> simp_all [firstErr]

theorem firstErr_eq_none {a b : Option Err} : firstErr a b = none ↔ a = none ∧ b = none := by
  cases a <;> simp [firstErr]

theorem objectPackage_unknown (ms : List (List Nat × JSON)) :
    ∀ p, ms.any (fun kv => (lookupField packageFields kv.1).isNone) = true →
      (objectPackage ms p).2 ≠ none := by
  induction ms with
  | nil => intro p h; simp at h
  | cons kv ms ih =>
    intro p h
    obtain ⟨k, v⟩ := kv
    simp only [List.any_cons, Bool.or_eq_true] at h
    simp only [objectPackage]
    rcases h with h | h
    · apply firstErr_ne_none_left
      rcases hl : lookupField packageFields k with _ | i
      · simp
      · simp [hl] at h
    · exact firstErr_ne_none_right (ih _ h)

theorem valuePackage_unknown (v : JSON) (old : Option PackageConstraint)
    (h : leafUnknown lookupField packageFields v = true) : (valuePackage v old).2 ≠ none := by
  cases v <;> simp [leafUnknown] at h
  simp only [valuePackage]
  exact objectPackage_unknown _ _ (by simpa using h)

theorem objectGVK_unknown (ms : List (List Nat × JSON)) :
    ∀ p, ms.any (fun kv => (lookupField gvkFields kv.1).isNone) = true →
      (objectGVK ms p).2 ≠ none := by
  induction ms with
  | nil => intro p h; simp at h
  | cons kv ms ih =>
    intro p h
    obtain ⟨k, v⟩ := kv
    simp only [List.any_cons, Bool.or_eq_true] at h
    simp only [objectGVK]
    rcases h with h | h
    · apply firstErr_ne_none_left
      rcases hl : lookupField gvkFields k with _ | i
      · simp
      · simp [hl] at h
    · exact firstErr_ne_none_right (ih _ h)

theorem valueGVK_unknown (v : JSON) (old : Option GVKConstraint)
    (h : leafUnknown lookupField gvkFields v = true) : (valueGVK v old).2 ≠ none := by
  cases v <;> simp [leafUnknown] at h
  simp only [valueGVK]
  exact objectGVK_unknown _ _ (by simpa using h)

mutual
theorem valueConstraint_unknown : ∀ (j : JSON) (c : ConstraintMem),
    constraintUnknown lookupField j = true → (valueConstraint j c).2 ≠ none
  | JSON.null, c => by simp [constraintUnknown]
  | JSON.bool _, c => by simp [constraintUnknown]
  | JSON.num, c => by simp [constraintUnknown]
  | JSON.str _, c => by simp [constraintUnknown]
  | JSON.arr _, c => by simp [constraintUnknown]
  | JSON.obj ms, c => by
    intro h
    simp only [constraintUnknown] at h
    simp only [valueConstraint]
    exact objectConstraint_unknown ms c h
theorem objectConstraint_unknown : ∀ (ms : List (List Nat × JSON)) (c : ConstraintMem),
    membersUnknown lookupField ms = true → (objectConstraint ms c).2 ≠ none
  | [], c => by simp [membersUnknown]
  | (k, v) :: ms, ConstraintMem.mk m p g a y n => by
    intro h
    simp only [membersUnknown, Bool.or_eq_true] at h
    simp only [objectConstraint]
    rcases hl : lookupField constraintFields k with _ | i
    · dsimp only
      exact firstErr_ne_none_left (by simp)
    · have hlt := lookupField_lt hl
      have hlen : constraintFields.length = 6 := rfl
      rw [hl] at h
      rcases h with h | h
      · match i, hlt, h with
        | 0, _, h => simp at h
        | 1, _, h => exact firstErr_ne_none_left (valuePackage_unknown _ _ h)
        | 2, _, h => exact firstErr_ne_none_left (valueGVK_unknown _ _ h)
        | 3, _, h => exact firstErr_ne_none_left (valueCompound_unknown v _ h)
        | 4, _, h => exact firstErr_ne_none_left (valueCompound_unknown v _ h)
        | 5, _, h => exact firstErr_ne_none_left (valueCompound_unknown v _ h)
        | n + 6, hlt, _ => exact absurd hlt (by omega)
      · match i, hlt with
        | 0, _ => exact firstErr_ne_none_right (objectConstraint_unknown ms _ h)
        | 1, _ => exact firstErr_ne_none_right (objectConstraint_unknown ms _ h)
        | 2, _ => exact firstErr_ne_none_right (objectConstraint_unknown ms _ h)
        | 3, _ => exact firstErr_ne_none_right (objectConstraint_unknown ms _ h)
        | 4, _ => exact firstErr_ne_none_right (objectConstraint_unknown ms _ h)
        | 5, _ => exact firstErr_ne_none_right (objectConstraint_unknown ms _ h)
        | n + 6, hlt => exact absurd hlt (by omega)
theorem valueCompound_unknown : ∀ (j : JSON) (old : Option CompoundMem),
    compoundUnknown lookupField j = true → (valueCompound j old).2 ≠ none
  | JSON.null, c => by simp [compoundUnknown]
  | JSON.bool _, c => by simp [compoundUnknown]
  | JSON.num, c => by simp [compoundUnknown]
  | JSON.str _, c => by simp [compoundUnknown]
  | JSON.arr _, c => by simp [compoundUnknown]
  | JSON.obj ms, c => by
    intro h
    simp only [compoundUnknown] at h
    simp only [valueCompound]
    exact objectCompound_unknown ms _ h
theorem objectCompound_unknown : ∀ (ms : List (List Nat × JSON)) (old : CompoundMem),
    compoundMembersUnknown lookupField ms = true → (objectCompound ms old).2 ≠ none
  | [], c => by simp [compoundMembersUnknown]
  | (k, v) :: ms, CompoundMem.mk cs spare => by
    intro h
    simp only [compoundMembersUnknown, Bool.or_eq_true] at h
    simp only [objectCompound]
    rcases hl : lookupField compoundFields k with _ | i
    · dsimp only
      exact firstErr_ne_none_left (by simp)
    · have hlt := lookupField_lt hl
      have hlen : compoundFields.length = 1 := rfl
      have hi : i = 0 := by omega
      subst hi
      rw [hl] at h
      rcases h with h | h
      · exact firstErr_ne_none_left (valueSlice_unknown v _ _ h)
      · exact firstErr_ne_none_right (objectCompound_unknown ms _ h)
theorem valueSlice_unknown : ∀ (j : JSON) (old : Option (List ConstraintMem))
    (spare : List ConstraintMem),
    sliceUnknown lookupField j = true → (valueSlice j old spare).2 ≠ none
  | JSON.null, c, _ => by simp [sliceUnknown]
  | JSON.bool _, c, _ => by simp [sliceUnknown]
  | JSON.num, c, _ => by simp [sliceUnknown]
  | JSON.str _, c, _ => by simp [sliceUnknown]
  | JSON.obj _, c, _ => by simp [sliceUnknown]
  | JSON.arr xs, c, _ => by
    intro h
    simp only [sliceUnknown] at h
    simp only [valueSlice]
    exact arrayElems_unknown xs _ h
theorem arrayElems_unknown : ∀ (xs : List JSON) (olds : List ConstraintMem),
    elemsUnknown lookupField xs = true → (arrayElems xs olds).2 ≠ none
  | [], c => by simp [elemsUnknown]
  | x :: xs, olds => by
    intro h
    simp only [elemsUnknown, Bool.or_eq_true] at h
    simp only [arrayElems]
    rcases h with h | h
    · exact firstErr_ne_none_left (valueConstraint_unknown x _ h)
    · exact firstErr_ne_none_right (arrayElems_unknown xs _ h)
end

/-! ## Strings: what `Marshal` writes, the scanner reads back -/

theorem quoteBody_nil (k : Nat) (keep : Bool) : quoteBody k keep [] = [] := by
  cases k <;> simp [quoteBody]

theorem quoteBody_succ (k : Nat) (keep : Bool) (c : Nat) (rest : List Nat) :
    quoteBody (k + 1) keep (c :: rest) =
      if keep then c :: quoteBody k keep rest else quoteBody k keep rest := by
  rw [quoteBody.eq_def] <;> rfl

theorem quoteBody_zero (keep : Bool) (c : Nat) (rest : List Nat) :
    quoteBody 0 keep (c :: rest) =
      if c < 128 then quoteByte c ++ quoteBody 0 true rest
      else
        match runeLen c rest with
        | 0 => [92, 117, 102, 102, 102, 100] ++ quoteBody 0 true rest
        | n + 1 =>
          if isLineSep c rest then
            [92, 117, 50, 48, 50, hexDigit (rest.tail.headD 0 % 16)] ++ quoteBody 2 false rest
          else c :: quoteBody n true rest := by
  rw [quoteBody.eq_def] <;> rfl

theorem quoteBody_zero_keep (keep : Bool) (s : List Nat) :
    quoteBody 0 keep s = quoteBody 0 true s := by
  cases s with
  | nil => simp [quoteBody_nil]
  | cons c rest => rw [quoteBody_zero, quoteBody_zero]

theorem validString_succ (k c : Nat) (rest : List Nat) :
    validString (k + 1) (c :: rest) = validString k rest := by
  rw [validString.eq_def] <;> rfl

theorem validString_zero (c : Nat) (rest : List Nat) :
    validString 0 (c :: rest) =
      if c < 128 then validString 0 rest
      else
        match runeLen c rest with
        | 0 => false
        | n + 1 => validString n rest := by
  rw [validString.eq_def] <;> rfl

theorem hexVal_hexDigit {n : Nat} (h : n < 16) : hexVal (hexDigit n) = some n := by
  interval_cases n <;> decide

theorem getu4_byte {c : Nat} (h : c < 128) :
    getu4 48 48 (hexDigit (c / 16)) (hexDigit (c % 16)) = some c := by
  have h1 : hexVal 48 = some 0 := by decide
  have h2 := hexVal_hexDigit (n := c / 16) (by omega)
  have h3 := hexVal_hexDigit (n := c % 16) (by omega)
  simp only [getu4, h1, h2, h3, Option.some.injEq]
  omega

/-- An ASCII byte, quoted by the encoder, unquotes to itself. -/
theorem scanString_quoteByte {c : Nat} (hc : c < 128) {X y q : List Nat}
    (h : scanString 0 true X = some (y, q)) :
    scanString 0 true (quoteByte c ++ X) = some (c :: y, q) := by
  unfold quoteByte
  split_ifs with h1 h2 h3 h4 h5
  · rcases h1 with rfl | rfl <;>
      simp [scanString_zero, unescape, h, consBytes]
  · subst h2; simp [scanString_zero, unescape, h, consBytes]
  · subst h3; simp [scanString_zero, unescape, h, consBytes]
  · subst h4; simp [scanString_zero, unescape, h, consBytes]
  · have hg := getu4_byte hc
    have hl : lowSurrogate c X = none ∨ True := Or.inr trivial
    simp only [List.cons_append, List.nil_append, scanString_zero, hg]
    simp only [show ¬ (92 = 34) by decide, if_false, if_true]
    rw [if_neg (by omega)]
    simp [encodeRune, hc, h, consBytes]
  · simp only [List.cons_append, List.nil_append, scanString_zero]
    rw [if_neg (by omega), if_neg (by omega), if_neg (by omega), if_pos hc]
    simp [h, consBytes]

theorem runeLen_quoteBody {c : Nat} {rest : List Nat} {n : Nat} (t : List Nat)
    (h : runeLen c rest = n + 1) : runeLen c (quoteBody n true rest ++ t) = n + 1 := by
  unfold runeLen at h ⊢
  by_cases h1 : 194 ≤ c ∧ c ≤ 223
  · simp only [h1, and_self, if_true] at h ⊢
    rcases rest with _ | ⟨b1, r⟩
    · simp at h
    · simp only at h
      split_ifs at h with hb
      obtain rfl : n = 1 := by omega
      simp [quoteBody_succ, hb]
  · by_cases h2 : 224 ≤ c ∧ c ≤ 239
    · simp only [h1, h2, and_self, if_true, if_false] at h ⊢
      rcases rest with _ | ⟨b1, _ | ⟨b2, r⟩⟩
      · simp at h
      · simp at h
      · simp only at h
        split_ifs at h with hb
        obtain rfl : n = 2 := by omega
        simp [quoteBody_succ, hb]
    · by_cases h3 : 240 ≤ c ∧ c ≤ 244
      · simp only [h1, h2, h3, and_self, if_true, if_false] at h ⊢
        rcases rest with _ | ⟨b1, _ | ⟨b2, _ | ⟨b3, r⟩⟩⟩
        · simp at h
        · simp at h
        · simp at h
        · simp only at h
          split_ifs at h with hb
          obtain rfl : n = 3 := by omega
          simp [quoteBody_succ, hb]
      · simp [h1, h2, h3] at h

theorem runeLen_pos_ge {c : Nat} {rest : List Nat} {n : Nat} (h : runeLen c rest = n + 1) :
    194 ≤ c := by
  unfold runeLen at h
  split_ifs at h <;> omega

theorem isLineSep_spec {c : Nat} {rest : List Nat} (h : isLineSep c rest = true) :
    c = 226 ∧ ∃ b2 r, rest = 128 :: b2 :: r ∧ (b2 = 168 ∨ b2 = 169) := by
  unfold isLineSep at h
  rcases rest with _ | ⟨b1, _ | ⟨b2, r⟩⟩
  · simp at h
  · simp at h
  · simp only [Bool.and_eq_true, decide_eq_true_eq, Bool.or_eq_true] at h
    obtain ⟨⟨rfl, rfl⟩, hb⟩ := h
    exact ⟨rfl, b2, r, rfl, hb⟩

/-- The body of a valid UTF-8 string, as the encoder writes it, is read back as the string. -/
theorem scanString_quoteBody (q : List Nat) : ∀ (s : List Nat) (k : Nat),
    validString k s = true →
      scanString k true (quoteBody k true s ++ 34 :: q) = some (s, q) ∧
        scanString 0 true (quoteBody k false s ++ 34 :: q) = some (s.drop k, q) := by
  intro s
  induction s with
  | nil =>
    intro k h
    cases k with
    | zero => simp [quoteBody_nil, scanString_zero]
    | succ k => simp [validString] at h
  | cons c rest ih =>
    intro k h
    cases k with
    | succ k =>
      rw [validString_succ] at h
      obtain ⟨ih1, ih2⟩ := ih k h
      constructor
      · simp [quoteBody_succ, scanString_succ, ih1, consBytes]
      · simpa [quoteBody_succ] using ih2
    | zero =>
      have main : scanString 0 true (quoteBody 0 true (c :: rest) ++ 34 :: q)
          = some (c :: rest, q) := by
        rw [validString_zero] at h
        rw [quoteBody_zero]
        by_cases hc : c < 128
        · simp only [hc, if_true] at h ⊢
          rw [List.append_assoc]
          exact scanString_quoteByte hc (ih 0 h).1
        · simp only [hc, if_false] at h ⊢
          rcases hr : runeLen c rest with _ | n
          · simp [hr] at h
          · simp only [hr] at h ⊢
            have hge := runeLen_pos_ge hr
            by_cases hls : isLineSep c rest = true
            · obtain ⟨rfl, b2, r, rfl, hb⟩ := isLineSep_spec hls
              have hn : n = 2 := by
                simp only [runeLen] at hr
                simp at hr
                split_ifs at hr <;> omega
              subst hn
              have ih2 := (ih 2 h).2
              simp only [hls, if_true, List.cons_append, List.nil_append, scanString_zero,
                List.tail_cons, List.headD_cons]
              rcases hb with rfl | rfl
              · simp only [show getu4 50 48 50 (hexDigit (168 % 16)) = some 8232 by decide]
                simp only [show ¬ (92 = 34) by decide, if_false, if_true]
                rw [if_neg (by omega), ih2]
                simp [encodeRune, consBytes]
              · simp only [show getu4 50 48 50 (hexDigit (169 % 16)) = some 8233 by decide]
                simp only [show ¬ (92 = 34) by decide, if_false, if_true]
                rw [if_neg (by omega), ih2]
                simp [encodeRune, consBytes]
            · simp only [hls, Bool.false_eq_true, if_false, List.cons_append, scanString_zero]
              rw [if_neg (by omega), if_neg (by omega), if_neg (by omega), if_neg (by omega)]
              simp only [runeLen_quoteBody (34 :: q) hr, (ih n h).1]
              simp [consBytes]
      constructor
      · exact main
      · rw [quoteBody_zero_keep]
        simpa using main

/-- A valid UTF-8 string, as `encodeState.string` writes it, is read back as the string. -/
theorem scanString_marshalString {s : List Nat} (h : validString 0 s = true) (q : List Nat) :
    scanString 0 true ((marshalString s).tail ++ q) = some (s, q) := by
  have := (scanString_quoteBody q s 0 h).1
  simpa [marshalString] using this

/-! ## Reading back what the encoder writes -/

theorem skipSpace_cons_of_not_space {c : Nat} (r : List Nat) (h : isSpace c = false) :
    skipSpace (c :: r) = c :: r := by
  simp [skipSpace, h]

theorem skipSpace_append_nil {w : List Nat} (t : List Nat) (h : skipSpace w = []) :
    skipSpace (w ++ t) = skipSpace t := by
  induction w with
  | nil => rfl
  | cons a w ih =>
    simp only [skipSpace, List.cons_append] at h ⊢
    split_ifs at h ⊢ with ha
    exact ih h

theorem skipSpace_idem (s : List Nat) : skipSpace (skipSpace s) = skipSpace s := by
  induction s with
  | nil => rfl
  | cons a s ih =>
    simp only [skipSpace]
    split_ifs with ha
    · exact ih
    · simp [skipSpace, ha]

theorem scanValue_skipSpace (lim f d : Nat) (s : List Nat) :
    scanValue lim f d (skipSpace s) = scanValue lim f d s := by
  cases f with
  | zero => simp [scanValue]
  | succ f => rw [scanValue, scanValue, skipSpace_idem]

theorem scanElems_skipSpace (lim f d : Nat) (s : List Nat) :
    scanElems lim f d (skipSpace s) = scanElems lim f d s := by
  cases f with
  | zero => simp [scanElems]
  | succ f => rw [scanElems, scanElems, scanValue_skipSpace]

theorem scanValue_head {lim f d : Nat} {s : List Nat} {x : JSON × List Nat}
    (h : scanValue lim f d s = some x) : ∃ c r, skipSpace s = c :: r ∧ c ≠ 93 := by
  cases f with
  | zero => simp [scanValue] at h
  | succ f =>
    rw [scanValue] at h
    rcases hs : skipSpace s with _ | ⟨c, rest⟩
    · simp [hs] at h
    · refine ⟨c, rest, rfl, ?_⟩
      rintro rfl
      simp [hs, isDigit] at h

theorem scanElems_head {lim f d : Nat} {s : List Nat} {x : List JSON × List Nat}
    (h : scanElems lim f d s = some x) : ∃ c r, skipSpace s = c :: r ∧ c ≠ 93 := by
  cases f with
  | zero => simp [scanElems] at h
  | succ f =>
    rw [scanElems] at h
    rcases hv : scanValue lim f d s with _ | y
    · simp [hv] at h
    · exact scanValue_head hv

theorem NumStop_nil : NumStop [] := by
  intro c r h
  simp at h

theorem NumStop_cons {c : Nat} (r : List Nat)
    (h : isDigit c = false ∧ c ≠ 46 ∧ c ≠ 101 ∧ c ≠ 69) : NumStop (c :: r) := by
  intro c' r' h'
  simp only [List.cons.injEq] at h'
  rw [← h'.1]
  exact h

theorem NumStop_comma (r : List Nat) : NumStop (44 :: r) := NumStop_cons r (by decide)

theorem NumStop_bracket (r : List Nat) : NumStop (93 :: r) := NumStop_cons r (by decide)

theorem NumStop_brace (r : List Nat) : NumStop (125 :: r) := NumStop_cons r (by decide)

theorem scanString_plainKey : ∀ (n : List Nat), plainKey n = true → ∀ X,
    scanString 0 true (n ++ 34 :: X) = some (n, X) := by
  intro n
  induction n with
  | nil => intro _ X; simp [scanString_zero]
  | cons c n ih =>
    intro h X
    simp only [plainKey, List.all_cons, Bool.and_eq_true, decide_eq_true_eq] at h
    obtain ⟨⟨h1, h2, h3⟩, h4⟩ := h
    simp only [List.cons_append, scanString_zero]
    rw [if_neg (by omega), if_neg h3, if_neg (by omega), if_pos h2, ih h4 X]
    rfl

theorem Reads_string (lim d : Nat) {s : List Nat} (h : validString 0 s = true) :
    Reads lim d (marshalString s) (JSON.str s) := by
  refine ⟨1, [], rfl, fun f hf R _ => ?_⟩
  obtain ⟨k, rfl⟩ : ∃ k, f = k + 1 := ⟨f - 1, by omega⟩
  have hq := (scanString_quoteBody R s 0 h).1
  rw [scanValue]
  simp [marshalString, skipSpace, isSpace, hq]

theorem Reads_null (lim d : Nat) : Reads lim d (ascii "null") JSON.null := by
  refine ⟨1, [], rfl, fun f hf R _ => ?_⟩
  obtain ⟨k, rfl⟩ : ∃ k, f = k + 1 := ⟨f - 1, by omega⟩
  rw [scanValue]
  simp [ascii, skipSpace, isSpace, isDigit, expect]

/-- The members that the encoder writes for a struct are read back one by one. -/
theorem scanMembers_fields {lim d : Nat} : ∀ (fs : List (List Nat × List Nat))
    (js : List (List Nat × JSON)), List.Forall₂ (FieldReads lim d) fs js → fs ≠ [] →
    ∀ first : Bool, ∃ F, ∀ f, F ≤ f → ∀ R,
      scanMembers lim f d ((marshalMembers first fs).tail ++ 125 :: R) = some (js, R) := by
  intro fs js hrel
  induction hrel with
  | nil => intro h; exact absurd rfl h
  | @cons fd md fs js hd tl ih =>
    intro _ first
    obtain ⟨n, t⟩ := fd
    obtain ⟨n', j⟩ := md
    obtain ⟨hn, hplain, F1, w, hw, hread⟩ := hd
    simp only at hn hplain hread
    subst hn
    rcases fs with _ | ⟨g, fs'⟩
    · cases tl
      refine ⟨F1 + 1, fun f hf R => ?_⟩
      obtain ⟨k, rfl⟩ : ∃ k, f = k + 1 := ⟨f - 1, by omega⟩
      have h1 := hread k (by omega) (125 :: R) (NumStop_brace R)
      have h2 : skipSpace (w ++ 125 :: R) = 125 :: R := by
        rw [skipSpace_append_nil _ hw]; rfl
      rw [scanMembers_succ]
      simp only [marshalMembers, List.tail_cons, List.cons_append, List.append_assoc,
        List.append_nil, List.nil_append, if_true]
      rw [scanString_plainKey n hplain]
      simp only [skipSpace_cons_of_not_space _ (show isSpace 58 = false by decide), if_true,
        h1, h2]
      simp
    · obtain ⟨F2, hF2⟩ := ih (by simp) false
      refine ⟨max F1 F2 + 1, fun f hf R => ?_⟩
      obtain ⟨k, rfl⟩ : ∃ k, f = k + 1 := ⟨f - 1, by omega⟩
      obtain ⟨gn, gt⟩ := g
      have h3 := hF2 k (by omega) R
      simp only [marshalMembers, List.tail_cons, List.cons_append, List.append_assoc,
        Bool.false_eq_true, if_false] at h3
      have h1 := hread k (by omega)
        (44 :: 34 :: (gn ++ 34 :: 58 :: (gt ++ (marshalMembers false fs' ++ 125 :: R))))
        (NumStop_comma _)
      have h2 : skipSpace (w ++
          44 :: 34 :: (gn ++ 34 :: 58 :: (gt ++ (marshalMembers false fs' ++ 125 :: R))))
          = 44 :: 34 :: (gn ++ 34 :: 58 :: (gt ++ (marshalMembers false fs' ++ 125 :: R))) := by
        rw [skipSpace_append_nil _ hw]; rfl
      rw [scanMembers_succ]
      simp only [marshalMembers, List.tail_cons, List.cons_append, List.append_assoc,
        Bool.false_eq_true, if_false, if_true]
      rw [scanString_plainKey n hplain]
      simp only [skipSpace_cons_of_not_space _ (show isSpace 58 = false by decide), if_true,
        h1, h2, skipSpace_cons_of_not_space _ (show isSpace 34 = false by decide), h3]

theorem Reads_struct {lim d : Nat} (hd : d + 1 ≤ lim) {fs : List (List Nat × List Nat)}
    {js : List (List Nat × JSON)} (h : List.Forall₂ (FieldReads lim (d + 1)) fs js) :
    Reads lim d (marshalStruct fs) (JSON.obj js) := by
  rcases fs with _ | ⟨fd, fs⟩
  · cases h
    refine ⟨1, [], rfl, fun f hf R _ => ?_⟩
    obtain ⟨k, rfl⟩ : ∃ k, f = k + 1 := ⟨f - 1, by omega⟩
    rw [scanValue]
    simp [marshalStruct, skipSpace, isSpace, hd]
  · obtain ⟨F, hF⟩ := scanMembers_fields _ _ h (by simp) true
    refine ⟨F + 1, [], rfl, fun f hf R _ => ?_⟩
    obtain ⟨k, rfl⟩ : ∃ k, f = k + 1 := ⟨f - 1, by omega⟩
    have h1 := hF k (by omega) R
    obtain ⟨n, t⟩ := fd
    simp only [marshalMembers, List.tail_cons, List.cons_append, List.append_assoc] at h1
    rw [scanValue]
    simp only [marshalStruct, marshalMembers, if_true, List.cons_append, List.append_assoc,
      List.nil_append, List.singleton_append,
      skipSpace_cons_of_not_space _ (show isSpace 123 = false by decide),
      skipSpace_cons_of_not_space _ (show isSpace 34 = false by decide), hd]
    simp [h1]

/-- The elements that the encoder writes for an array are read back one by one. -/
theorem scanElems_docs {lim d : Nat} : ∀ (ts : List (List Nat)) (js : List JSON),
    List.Forall₂ (Reads lim d) ts js → ts ≠ [] →
    ∃ F, ∀ f, F ≤ f → ∀ R, scanElems lim f d (joinDocs ts ++ 93 :: R) = some (js, R) := by
  intro ts js hrel
  induction hrel with
  | nil => intro h; exact absurd rfl h
  | @cons t j ts js hd tl ih =>
    intro _
    obtain ⟨F1, w, hw, hread⟩ := hd
    rcases ts with _ | ⟨t2, ts'⟩
    · cases tl
      refine ⟨F1 + 1, fun f hf R => ?_⟩
      obtain ⟨k, rfl⟩ : ∃ k, f = k + 1 := ⟨f - 1, by omega⟩
      have h1 := hread k (by omega) (93 :: R) (NumStop_bracket R)
      have h2 : skipSpace (w ++ 93 :: R) = 93 :: R := by
        rw [skipSpace_append_nil _ hw]; rfl
      rw [scanElems]
      simp [joinDocs, h1, h2]
    · obtain ⟨F2, hF2⟩ := ih (by simp)
      refine ⟨max F1 F2 + 1, fun f hf R => ?_⟩
      obtain ⟨k, rfl⟩ : ∃ k, f = k + 1 := ⟨f - 1, by omega⟩
      have h3 := hF2 k (by omega) R
      have h1 := hread k (by omega) (44 :: (joinDocs (t2 :: ts') ++ 93 :: R)) (NumStop_comma _)
      have h2 : skipSpace (w ++ 44 :: (joinDocs (t2 :: ts') ++ 93 :: R))
          = 44 :: (joinDocs (t2 :: ts') ++ 93 :: R) := by
        rw [skipSpace_append_nil _ hw]; rfl
      rw [scanElems]
      simp only [joinDocs, List.append_assoc, List.cons_append, h1, h2, if_true, h3]

theorem Reads_array {lim d : Nat} (hd : d + 1 ≤ lim) {ts : List (List Nat)} {js : List JSON}
    (h : List.Forall₂ (Reads lim (d + 1)) ts js) :
    Reads lim d (91 :: (joinDocs ts ++ [93])) (JSON.arr js) := by
  rcases ts with _ | ⟨t, ts⟩
  · cases h
    refine ⟨1, [], rfl, fun f hf R _ => ?_⟩
    obtain ⟨k, rfl⟩ : ∃ k, f = k + 1 := ⟨f - 1, by omega⟩
    rw [scanValue]
    simp [joinDocs, skipSpace, isSpace, hd]
  · obtain ⟨F, hF⟩ := scanElems_docs _ _ h (by simp)
    refine ⟨F + 1, [], rfl, fun f hf R _ => ?_⟩
    obtain ⟨k, rfl⟩ : ∃ k, f = k + 1 := ⟨f - 1, by omega⟩
    have h1 := hF k (by omega) R
    obtain ⟨c, r, hs, hc⟩ := scanElems_head h1
    have h2 : scanElems lim k (d + 1) (c :: r) = some (js, R) := by
      rw [← hs, scanElems_skipSpace, h1]
    rw [scanValue]
    simp only [List.cons_append, List.append_assoc, List.singleton_append,
      skipSpace_cons_of_not_space _ (show isSpace 91 = false by decide)]
    simp [hd, hs, hc, h2]

/-! ## Reading back the encoding of a `Constraint` -/

theorem depthMembers_append (a b : List (List Nat × JSON)) :
    depthMembers (a ++ b) = max (depthMembers a) (depthMembers b) := by
  induction a with
  | nil => simp [depthMembers]
  | cons kv a ih =>
    obtain ⟨k, v⟩ := kv
    rw [List.cons_append, depthMembers, depthMembers, ih, Nat.max_assoc]

theorem FieldReads_mk {lim d : Nat} (n : List Nat) {t : List Nat} {j : JSON}
    (hk : plainKey n = true) (hr : Reads lim d t j) : FieldReads lim d (n, t) (n, j) :=
  ⟨rfl, hk, hr⟩

theorem Forall₂_append {α β : Type} {R : α → β → Prop} {a c : List α} {b d : List β}
    (h1 : List.Forall₂ R a b) (h2 : List.Forall₂ R c d) : List.Forall₂ R (a ++ c) (b ++ d) := by
  induction h1 with
  | nil => exact h2
  | cons hd _ ih => exact List.Forall₂.cons hd ih

theorem marshalElems_false (cs : List Constraint) (c : Constraint) :
    marshalElems false (c :: cs) = 44 :: joinDocs ((c :: cs).map marshalConstraint) := by
  induction cs generalizing c with
  | nil => simp [marshalElems, joinDocs]
  | cons c2 cs ih =>
    rw [marshalElems, ih]
    simp [joinDocs]

theorem marshalElems_true (cs : List Constraint) :
    marshalElems true cs = joinDocs (cs.map marshalConstraint) := by
  cases cs with
  | nil => simp [marshalElems, joinDocs]
  | cons c cs =>
    cases cs with
    | nil => simp [marshalElems, joinDocs]
    | cons c2 cs =>
      rw [marshalElems, marshalElems_false]
      simp [joinDocs]

theorem Reads_package (lim d : Nat) (hd : d + 1 ≤ lim) {p : PackageConstraint}
    (h : validPackage p = true) : Reads lim d (marshalPackage p) (packageJSON p) := by
  simp only [validPackage, Bool.and_eq_true] at h
  exact Reads_struct hd
    (List.Forall₂.cons (FieldReads_mk _ (by decide) (Reads_string _ _ h.1))
      (List.Forall₂.cons (FieldReads_mk _ (by decide) (Reads_string _ _ h.2)) List.Forall₂.nil))

theorem Reads_gvk (lim d : Nat) (hd : d + 1 ≤ lim) {g : GVKConstraint}
    (h : validGVK g = true) : Reads lim d (marshalGVK g) (gvkJSON g) := by
  simp only [validGVK, Bool.and_eq_true] at h
  exact Reads_struct hd
    (List.Forall₂.cons (FieldReads_mk _ (by decide) (Reads_string _ _ h.1.1))
      (List.Forall₂.cons (FieldReads_mk _ (by decide) (Reads_string _ _ h.1.2))
        (List.Forall₂.cons (FieldReads_mk _ (by decide) (Reads_string _ _ h.2)) List.Forall₂.nil)))

theorem Reads_omitPackage (lim d : Nat) {p : Option PackageConstraint}
    (h : p.all validPackage = true)
    (hd : d + depthMembers (omitEmptyJSON (ascii "package") (p.map packageJSON)) ≤ lim) :
    List.Forall₂ (FieldReads lim d) (omitEmpty (ascii "package") (p.map marshalPackage))
      (omitEmptyJSON (ascii "package") (p.map packageJSON)) := by
  cases p with
  | none => exact List.Forall₂.nil
  | some pc =>
    simp only [Option.map_some', omitEmptyJSON, depthMembers, packageJSON, depthJSON] at hd
    simp only [Option.all_some] at h
    exact List.Forall₂.cons (FieldReads_mk _ (by decide) (Reads_package lim d (by omega) h)) List.Forall₂.nil

theorem Reads_omitGVK (lim d : Nat) {g : Option GVKConstraint}
    (h : g.all validGVK = true)
    (hd : d + depthMembers (omitEmptyJSON (ascii "gvk") (g.map gvkJSON)) ≤ lim) :
    List.Forall₂ (FieldReads lim d) (omitEmpty (ascii "gvk") (g.map marshalGVK))
      (omitEmptyJSON (ascii "gvk") (g.map gvkJSON)) := by
  cases g with
  | none => exact List.Forall₂.nil
  | some gc =>
    simp only [Option.map_some', omitEmptyJSON, depthMembers, gvkJSON, depthJSON] at hd
    simp only [Option.all_some] at h
    exact List.Forall₂.cons (FieldReads_mk _ (by decide) (Reads_gvk lim d (by omega) h)) List.Forall₂.nil

mutual
theorem Reads_constraint : ∀ (c : Constraint) (lim d : Nat), validConstraint c = true →
    d + depthJSON (constraintJSON c) ≤ lim → Reads lim d (marshalConstraint c) (constraintJSON c)
  | Constraint.mk m p g a y n, lim, d => by
    intro hv hd
    simp only [validConstraint, Bool.and_eq_true] at hv
    obtain ⟨hm, hp, hg, ha, hy, hn⟩ := hv
    simp only [constraintJSON, depthJSON, depthMembers, depthMembers_append] at hd
    simp only [marshalConstraint, constraintJSON]
    refine Reads_struct (by omega) (List.Forall₂.cons (FieldReads_mk _ (by decide) (Reads_string _ _ hm)) ?_)
    refine Forall₂_append (Reads_omitPackage lim (d + 1) hp (by omega)) ?_
    refine Forall₂_append (Reads_omitGVK lim (d + 1) hg (by omega)) ?_
    refine Forall₂_append (Reads_field (ascii "all") a lim (d + 1) (by decide) ha (by omega)) ?_
    exact Forall₂_append (Reads_field (ascii "any") y lim (d + 1) (by decide) hy (by omega))
      (Reads_field (ascii "none") n lim (d + 1) (by decide) hn (by omega))
theorem Reads_field : ∀ (name : List Nat) (a : Option CompoundConstraint) (lim d : Nat),
    plainKey name = true → validField a = true → d + depthMembers (fieldJSON name a) ≤ lim →
    List.Forall₂ (FieldReads lim d) (marshalField name a) (fieldJSON name a)
  | name, none, lim, d => by
    intro _ _ _
    simp only [marshalField, fieldJSON]
    exact List.Forall₂.nil
  | name, some cc, lim, d => by
    intro hk hv hd
    simp only [validField] at hv
    simp only [fieldJSON, depthMembers] at hd
    simp only [marshalField, fieldJSON]
    exact List.Forall₂.cons (FieldReads_mk _ hk (Reads_compound cc lim d hv (by omega))) List.Forall₂.nil
theorem Reads_compound : ∀ (cc : CompoundConstraint) (lim d : Nat), validCompound cc = true →
    d + depthJSON (compoundJSON cc) ≤ lim → Reads lim d (marshalCompound cc) (compoundJSON cc)
  | CompoundConstraint.mk cs, lim, d => by
    intro hv hd
    simp only [validCompound] at hv
    simp only [compoundJSON, depthJSON, depthMembers] at hd
    simp only [marshalCompound, compoundJSON]
    exact Reads_struct (by omega)
      (List.Forall₂.cons (FieldReads_mk _ (by decide) (Reads_slice cs lim (d + 1) hv (by omega)))
        List.Forall₂.nil)
theorem Reads_slice : ∀ (cs : Option (List Constraint)) (lim d : Nat), validSlice cs = true →
    d + depthJSON (sliceJSON cs) ≤ lim → Reads lim d (marshalSlice cs) (sliceJSON cs)
  | none, lim, d => by
    intro _ _
    simp only [marshalSlice, sliceJSON]
    exact Reads_null lim d
  | some l, lim, d => by
    intro hv hd
    simp only [validSlice] at hv
    simp only [sliceJSON, depthJSON] at hd
    simp only [marshalSlice, sliceJSON, marshalElems_true]
    exact Reads_array (by omega) (Reads_elems l lim (d + 1) hv (by omega))
theorem Reads_elems : ∀ (l : List Constraint) (lim d : Nat), validElems l = true →
    d + depthElems (elemsJSON l) ≤ lim →
    List.Forall₂ (Reads lim d) (l.map marshalConstraint) (elemsJSON l)
  | [], lim, d => by
    intro _ _
    simp only [List.map_nil, elemsJSON]
    exact List.Forall₂.nil
  | c :: cs, lim, d => by
    intro hv hd
    simp only [validElems, Bool.and_eq_true] at hv
    simp only [elemsJSON, depthElems] at hd
    simp only [List.map_cons, elemsJSON]
    exact List.Forall₂.cons (Reads_constraint c lim d hv.1 (by omega))
      (Reads_elems cs lim d hv.2 (by omega))
end

/-! ## The scanner's depth limit -/

/-- A value that the scanner accepts at depth `d` does not nest deeper than the limit. -/
theorem scan_depth_bound (lim : Nat) : ∀ fuel : Nat,
    (∀ d s j r, scanValue lim fuel d s = some (j, r) →
        depthJSON j ≠ 0 → d + depthJSON j ≤ lim) ∧
      (∀ d s xs r, scanElems lim fuel d s = some (xs, r) →
        depthElems xs ≠ 0 → d + depthElems xs ≤ lim) ∧
      (∀ d s ms r, scanMembers lim fuel d s = some (ms, r) →
        depthMembers ms ≠ 0 → d + depthMembers ms ≤ lim) := by
  intro fuel
  induction fuel with
  | zero => simp [scanValue, scanElems, scanMembers]
  | succ fuel ih =>
    obtain ⟨ihV, ihE, ihM⟩ := ih
    refine ⟨?_, ?_, ?_⟩
    · intro d s j r h hne
      rw [scanValue] at h
      rcases hs : skipSpace s with _ | ⟨c, rest⟩
      · simp [hs] at h
      · simp only [hs] at h
        by_cases h123 : c = 123
        · simp only [h123, if_true] at h
          split_ifs at h with hdd
          rcases hs1 : skipSpace rest with _ | ⟨c1, rest1⟩
          · simp [hs1] at h
          · simp only [hs1] at h
            split_ifs at h with h125
            · simp only [Option.some.injEq, Prod.mk.injEq] at h
              rw [← h.1]
              simp only [depthJSON, depthMembers]
              omega
            · rcases hm : scanMembers lim fuel (d + 1) (c1 :: rest1) with _ | ⟨ms, r'⟩
              · simp [hm] at h
              · simp only [hm, Option.some.injEq, Prod.mk.injEq] at h
                have := ihM _ _ _ _ hm
                rw [← h.1]
                simp only [depthJSON]
                omega
        · simp only [h123, if_false] at h
          by_cases h91 : c = 91
          · simp only [h91, if_true] at h
            split_ifs at h with hdd
            rcases hs1 : skipSpace rest with _ | ⟨c1, rest1⟩
            · simp [hs1] at h
            · simp only [hs1] at h
              split_ifs at h with h93
              · simp only [Option.some.injEq, Prod.mk.injEq] at h
                rw [← h.1]
                simp only [depthJSON, depthElems]
                omega
              · rcases hm : scanElems lim fuel (d + 1) (c1 :: rest1) with _ | ⟨ms, r'⟩
                · simp [hm] at h
                · simp only [hm, Option.some.injEq, Prod.mk.injEq] at h
                  have := ihE _ _ _ _ hm
                  rw [← h.1]
                  simp only [depthJSON]
                  omega
          · simp only [h91, if_false] at h
            exfalso
            apply hne
            split_ifs at h with h34 h45 hdig h116 h102 h110
            · rcases hm : scanString 0 true rest with _ | ⟨x, r'⟩
              · simp [hm] at h
              · simp only [hm, Option.some.injEq, Prod.mk.injEq] at h
                rw [← h.1]; rfl
            · rcases hm : scanInt rest with _ | r'
              · simp [hm] at h
              · simp only [hm, Option.some.injEq, Prod.mk.injEq] at h
                rw [← h.1]; rfl
            · rcases hm : scanInt (c :: rest) with _ | r'
              · simp [hm] at h
              · simp only [hm, Option.some.injEq, Prod.mk.injEq] at h
                rw [← h.1]; rfl
            · rcases hm : expect [114, 117, 101] rest with _ | r'
              · simp [hm] at h
              · simp only [hm, Option.some.injEq, Prod.mk.injEq] at h
                rw [← h.1]; rfl
            · rcases hm : expect [97, 108, 115, 101] rest with _ | r'
              · simp [hm] at h
              · simp only [hm, Option.some.injEq, Prod.mk.injEq] at h
                rw [← h.1]; rfl
            · rcases hm : expect [117, 108, 108] rest with _ | r'
              · simp [hm] at h
              · simp only [hm, Option.some.injEq, Prod.mk.injEq] at h
                rw [← h.1]; rfl
    · intro d s xs r h hne
      rw [scanElems] at h
      rcases hv : scanValue lim fuel d s with _ | ⟨x, r1⟩
      · simp [hv] at h
      · simp only [hv] at h
        have h1 := ihV _ _ _ _ hv
        rcases hs : skipSpace r1 with _ | ⟨c, rest⟩
        · simp [hs] at h
        · simp only [hs] at h
          split_ifs at h with h44 h93
          · rcases hm : scanElems lim fuel d rest with _ | ⟨ys, r'⟩
            · simp [hm] at h
            · simp only [hm, Option.some.injEq, Prod.mk.injEq] at h
              have h2 := ihE _ _ _ _ hm
              rw [← h.1] at hne ⊢
              simp only [depthElems] at hne ⊢
              omega
          · simp only [Option.some.injEq, Prod.mk.injEq] at h
            rw [← h.1] at hne ⊢
            simp only [depthElems] at hne ⊢
            omega
    · intro d s ms r h hne
      rw [scanMembers_succ] at h
      rcases s with _ | ⟨q, s1⟩
      · simp at h
      · simp only at h
        split_ifs at h with hq
        rcases hk : scanString 0 true s1 with _ | ⟨key, r0⟩
        · simp [hk] at h
        · simp only [hk] at h
          rcases hs : skipSpace r0 with _ | ⟨c, rest⟩
          · simp [hs] at h
          · simp only [hs] at h
            split_ifs at h with h58
            rcases hv : scanValue lim fuel d rest with _ | ⟨x, r1⟩
            · simp [hv] at h
            · simp only [hv] at h
              have h1 := ihV _ _ _ _ hv
              rcases hs1 : skipSpace r1 with _ | ⟨c1, rest1⟩
              · simp [hs1] at h
              · simp only [hs1] at h
                split_ifs at h with h44 h125
                · rcases hm : scanMembers lim fuel d (skipSpace rest1) with _ | ⟨ys, r'⟩
                  · simp [hm] at h
                  · simp only [hm, Option.some.injEq, Prod.mk.injEq] at h
                    have h2 := ihM _ _ _ _ hm
                    rw [← h.1] at hne ⊢
                    simp only [depthMembers] at hne ⊢
                    omega
                · simp only [Option.some.injEq, Prod.mk.injEq] at h
                  rw [← h.1] at hne ⊢
                  simp only [depthMembers] at hne ⊢
                  omega

/-! ## Decoding the JSON value of a `Constraint` -/

theorem firstErr_none_left (e : Option Err) : firstErr none e = e := by
  cases e <;> rfl

theorem firstErr_assoc (a b c : Option Err) :
    firstErr a (firstErr b c) = firstErr (firstErr a b) c := by
  cases a <;> cases b <;> rfl

mutual
theorem value_constraintMem : ∀ c : Constraint, (constraintMem c).value = c
  | Constraint.mk m p g a y n => by
    simp only [constraintMem, ConstraintMem.value, fieldValue_fieldMem]
theorem fieldValue_fieldMem : ∀ a : Option CompoundConstraint, fieldValue (fieldMem a) = a
  | none => by simp only [fieldMem, fieldValue]
  | some cc => by simp only [fieldMem, fieldValue, compoundValue_compoundMem cc]
theorem compoundValue_compoundMem : ∀ cc : CompoundConstraint,
    compoundValue (compoundMem cc) = cc
  | CompoundConstraint.mk cs => by
    simp only [compoundMem, compoundValue, sliceValue_sliceMem cs]
theorem sliceValue_sliceMem : ∀ cs : Option (List Constraint), sliceValue (sliceMem cs) = cs
  | none => by simp only [sliceMem, sliceValue]
  | some l => by simp only [sliceMem, sliceValue, elemsValue_elemsMem l]
theorem elemsValue_elemsMem : ∀ l : List Constraint, elemsValue (elemsMem l) = l
  | [] => by simp only [elemsMem, elemsValue]
  | c :: l => by
    simp only [elemsMem, elemsValue, value_constraintMem c, elemsValue_elemsMem l]
end

theorem objectConstraint_append : ∀ (a b : List (List Nat × JSON)) (c : ConstraintMem),
    objectConstraint (a ++ b) c =
      ((objectConstraint b (objectConstraint a c).1).1,
        firstErr (objectConstraint a c).2 (objectConstraint b (objectConstraint a c).1).2) := by
  intro a
  induction a with
  | nil => intro b c; simp [objectConstraint, firstErr_none_left]
  | cons kv a ih =>
    intro b c
    obtain ⟨k, v⟩ := kv
    obtain ⟨m, p, g, x, y, n⟩ := c
    simp only [List.cons_append, objectConstraint]
    split <;> simp only [List.append_eq, ih, firstErr_assoc]

theorem objectConstraint_message (m m0 : List Nat) (p : Option PackageConstraint)
    (g : Option GVKConstraint) (a y n : Option CompoundMem) :
    objectConstraint [(ascii "message", JSON.str m)] (ConstraintMem.mk m0 p g a y n) =
      (ConstraintMem.mk m p g a y n, none) := by
  have h : lookupField constraintFields (ascii "message") = some 0 := by decide
  simp [objectConstraint, h, valueString, firstErr]

theorem valuePackage_packageJSON (pc : PackageConstraint) :
    valuePackage (packageJSON pc) none = (some pc, none) := by
  have h0 : lookupField packageFields (ascii "name") = some 0 := by decide
  have h1 : lookupField packageFields (ascii "versionRange") = some 1 := by decide
  simp [valuePackage, packageJSON, objectPackage, h0, h1, valueString, firstErr,
    PackageConstraint.zero]

theorem valueGVK_gvkJSON (gc : GVKConstraint) :
    valueGVK (gvkJSON gc) none = (some gc, none) := by
  have h0 : lookupField gvkFields (ascii "group") = some 0 := by decide
  have h1 : lookupField gvkFields (ascii "kind") = some 1 := by decide
  have h2 : lookupField gvkFields (ascii "version") = some 2 := by decide
  simp [valueGVK, gvkJSON, objectGVK, h0, h1, h2, valueString, firstErr, GVKConstraint.zero]

theorem objectConstraint_package (m : List Nat) (p : Option PackageConstraint)
    (g : Option GVKConstraint) (a y n : Option CompoundMem) :
    objectConstraint (omitEmptyJSON (ascii "package") (p.map packageJSON))
        (ConstraintMem.mk m none g a y n) = (ConstraintMem.mk m p g a y n, none) := by
  have h : lookupField constraintFields (ascii "package") = some 1 := by decide
  cases p with
  | none => simp [omitEmptyJSON, objectConstraint]
  | some pc =>
    simp [omitEmptyJSON, objectConstraint, h, valuePackage_packageJSON, firstErr]

theorem objectConstraint_gvk (m : List Nat) (p : Option PackageConstraint)
    (g : Option GVKConstraint) (a y n : Option CompoundMem) :
    objectConstraint (omitEmptyJSON (ascii "gvk") (g.map gvkJSON))
        (ConstraintMem.mk m p none a y n) = (ConstraintMem.mk m p g a y n, none) := by
  have h : lookupField constraintFields (ascii "gvk") = some 2 := by decide
  cases g with
  | none => simp [omitEmptyJSON, objectConstraint]
  | some gc =>
    simp [omitEmptyJSON, objectConstraint, h, valueGVK_gvkJSON, firstErr]

theorem objectConstraint_all (m : List Nat) (p : Option PackageConstraint)
    (g : Option GVKConstraint) (a : Option CompoundConstraint) (y n : Option CompoundMem)
    (ha : ∀ cc, a = some cc →
      valueCompound (compoundJSON cc) none = (some (compoundMem cc), none)) :
    objectConstraint (fieldJSON (ascii "all") a) (ConstraintMem.mk m p g none y n) =
      (ConstraintMem.mk m p g (fieldMem a) y n, none) := by
  have h : lookupField constraintFields (ascii "all") = some 3 := by decide
  cases a with
  | none => simp [fieldJSON, objectConstraint, fieldMem]
  | some cc =>
    simp [fieldJSON, objectConstraint, h, ha cc rfl, firstErr, fieldMem]

theorem objectConstraint_any (m : List Nat) (p : Option PackageConstraint)
    (g : Option GVKConstraint) (y : Option CompoundConstraint) (a n : Option CompoundMem)
    (hy : ∀ cc, y = some cc →
      valueCompound (compoundJSON cc) none = (some (compoundMem cc), none)) :
    objectConstraint (fieldJSON (ascii "any") y) (ConstraintMem.mk m p g a none n) =
      (ConstraintMem.mk m p g a (fieldMem y) n, none) := by
  have h : lookupField constraintFields (ascii "any") = some 4 := by decide
  cases y with
  | none => simp [fieldJSON, objectConstraint, fieldMem]
  | some cc =>
    simp [fieldJSON, objectConstraint, h, hy cc rfl, firstErr, fieldMem]

theorem objectConstraint_none (m : List Nat) (p : Option PackageConstraint)
    (g : Option GVKConstraint) (n : Option CompoundConstraint) (a y : Option CompoundMem)
    (hn : ∀ cc, n = some cc →
      valueCompound (compoundJSON cc) none = (some (compoundMem cc), none)) :
    objectConstraint (fieldJSON (ascii "none") n) (ConstraintMem.mk m p g a y none) =
      (ConstraintMem.mk m p g a y (fieldMem n), none) := by
  have h : lookupField constraintFields (ascii "none") = some 5 := by decide
  cases n with
  | none => simp [fieldJSON, objectConstraint, fieldMem]
  | some cc =>
    simp [fieldJSON, objectConstraint, h, hn cc rfl, firstErr, fieldMem]

mutual
theorem valueConstraint_constraintJSON : ∀ (c : Constraint),
    valueConstraint (constraintJSON c) ConstraintMem.zero = (constraintMem c, none)
  | Constraint.mk m p g a y n => by
    have ha := valueCompound_field a
    have hy := valueCompound_field y
    have hn := valueCompound_field n
    simp only [constraintJSON, valueConstraint, ConstraintMem.zero, constraintMem]
    rw [← List.singleton_append, objectConstraint_append, objectConstraint_message,
      objectConstraint_append, objectConstraint_package,
      objectConstraint_append, objectConstraint_gvk,
      objectConstraint_append, objectConstraint_all m p g a none none ha,
      objectConstraint_append, objectConstraint_any m p g y (fieldMem a) none hy,
      objectConstraint_none m p g n (fieldMem a) (fieldMem y) hn]
    rfl
theorem valueCompound_field : ∀ (a : Option CompoundConstraint) (cc : CompoundConstraint),
    a = some cc → valueCompound (compoundJSON cc) none = (some (compoundMem cc), none)
  | none, cc => by intro h; simp at h
  | some cc', cc => by
    intro h
    simp only [Option.some.injEq] at h
    subst h
    exact valueCompound_compoundJSON cc'
theorem valueCompound_compoundJSON : ∀ (cc : CompoundConstraint),
    valueCompound (compoundJSON cc) none = (some (compoundMem cc), none)
  | CompoundConstraint.mk cs => by
    have h : lookupField compoundFields (ascii "constraints") = some 0 := by decide
    simp [compoundJSON, valueCompound, objectCompound, h, valueSlice_sliceJSON cs, firstErr,
      CompoundMem.zero, compoundMem]
theorem valueSlice_sliceJSON : ∀ (cs : Option (List Constraint)),
    valueSlice (sliceJSON cs) none [] = (CompoundMem.mk (sliceMem cs) [], none)
  | none => by simp [sliceJSON, valueSlice, sliceMem]
  | some l => by
    simp [sliceJSON, valueSlice, arrayElems_elemsJSON l, sliceMem]
theorem arrayElems_elemsJSON : ∀ (l : List Constraint),
    arrayElems (elemsJSON l) [] = ((elemsMem l, []), none)
  | [] => by simp [elemsJSON, arrayElems, elemsMem]
  | c :: cs => by
    simp [elemsJSON, arrayElems, valueConstraint_constraintJSON c, arrayElems_elemsJSON cs,
      firstErr, elemsMem]
end

/-! ## `Parse` after `Marshal` -/

theorem Decode_Marshal {c : Constraint} (hv : validConstraint c = true)
    (hd : nesting c ≤ maxNestingDepth) : Decode (Marshal c) = (c, none) := by
  obtain ⟨F, w, _, hread⟩ := Reads_constraint c maxNestingDepth 0 hv (by simpa [nesting] using hd)
  have h1 := hread F (Nat.le_refl F) [] NumStop_nil
  rw [List.append_nil] at h1
  have h2 : readValue (Marshal c) = some (constraintJSON c) :=
    readValue_of_scan (by omega) h1
  unfold Decode
  rw [h2]
  simp only [valueConstraint_constraintJSON c, value_constraintMem]

theorem readValue_Marshal_deep {c : Constraint} (hv : validConstraint c = true)
    (hd : maxNestingDepth < nesting c) : readValue (Marshal c) = none := by
  rcases hr : readValue (Marshal c) with _ | j
  · rfl
  · exfalso
    obtain ⟨r, hs⟩ := readValue_eq_some hr
    have hb := (scan_depth_bound maxNestingDepth _).1 _ _ _ _ hs
    have hs' := (scan_depth maxNestingDepth (nesting c) _).1 0 0 _ _ (by omega) hs
    obtain ⟨F, w, _, hread⟩ := Reads_constraint c (nesting c) 0 hv (by simp [nesting])
    have h1 := hread (max F ((Marshal c).length + 1)) (Nat.le_max_left _ _) [] NumStop_nil
    rw [List.append_nil] at h1
    have h2 := scanValue_mono (Nat.le_max_right F ((Marshal c).length + 1)) hs'
    have h3 : some (constraintJSON c, w ++ []) = some (j, r) := h1.symm.trans h2
    simp only [Option.some.injEq, Prod.mk.injEq] at h3
    have h2 := h3
    rw [← h2.1] at hb
    simp only [nesting] at hd
    have := hb (by omega)
    omega

theorem Decode_Marshal_deep {c : Constraint} (hv : validConstraint c = true)
    (hd : maxNestingDepth < nesting c) : Decode (Marshal c) = (Constraint.zero, some Err.scan) := by
  unfold Decode
  rw [readValue_Marshal_deep hv hd]

/-! ## The trees `deep n` -/

theorem validConstraint_deep (n : Nat) : validConstraint (deep n) = true := by
  induction n with
  | zero => decide
  | succ n ih =>
    simp [deep, validConstraint, validField, validCompound, validSlice, validElems, ih,
      validString]

theorem nesting_deep (n : Nat) : nesting (deep n) = 3 * n + 1 := by
  unfold nesting
  induction n with
  | zero => decide
  | succ n ih =>
    simp only [deep, constraintJSON, depthJSON, depthMembers, depthElems, fieldJSON,
      compoundJSON, sliceJSON, elemsJSON, omitEmptyJSON, Option.map_none', List.nil_append,
      List.append_nil, ih]
    omega

theorem length_Marshal_deep (n : Nat) : (Marshal (deep n)).length = 39 * n + 14 := by
  unfold Marshal
  induction n with
  | zero => decide
  | succ n ih =>
    simp only [deep, marshalConstraint, marshalField, marshalCompound, marshalSlice,
      marshalElems, omitEmpty, Option.map_none', List.nil_append, List.append_nil,
      marshalStruct, marshalMembers, marshalString, quoteBody_nil, List.length_cons,
      List.length_append, List.length_nil, if_true, ih,
      show (ascii "message").length = 7 by decide, show (ascii "all").length = 3 by decide,
      show (ascii "constraints").length = 11 by decide]
    omega

theorem constraintShaped_deep (n : Nat) : constraintShaped (constraintJSON (deep n)) = true := by
  induction n with
  | zero => decide
  | succ n ih =>
    have h1 : (ascii "message" = ascii "message") = True := by simp
    have h2 : ascii "all" ≠ ascii "message" := by decide
    have h3 : ascii "all" ≠ ascii "package" := by decide
    have h4 : ascii "all" ≠ ascii "gvk" := by decide
    simp [deep, constraintJSON, fieldJSON, compoundJSON, sliceJSON, elemsJSON, omitEmptyJSON,
      constraintShaped, membersShaped, compoundShaped, compoundMembersShaped, sliceShaped,
      elemsShaped, isStr, ih, h2, h3, h4]

theorem quoteBody_replicate (n : Nat) :
    quoteBody 0 true (List.replicate n 97) = List.replicate n 97 := by
  induction n with
  | zero => rfl
  | succ n ih =>
    rw [List.replicate_succ, quoteBody_zero, if_pos (by decide), ih]
    rfl

theorem length_Marshal_message (m : List Nat) :
    (Marshal (Constraint.mk m none none none none none)).length
      = (quoteBody 0 true m).length + 14 := by
  simp only [Marshal, marshalConstraint, marshalField, omitEmpty, Option.map_none',
    List.nil_append, List.append_nil, marshalStruct, marshalMembers, marshalString,
    List.length_cons, List.length_append, List.length_nil, if_true,
    show (ascii "message").length = 7 by decide]
  omega

/-- The round trip, within the three limits. -/
theorem Parse_Marshal_of_valid {c : Constraint} (hv : validConstraint c = true)
    (hsize : (Marshal c).length ≤ 131072) (hdepth : nesting c ≤ 10000) :
    Parse (Marshal c) = (c, none) := by
  rw [Parse_of_small (by rw [maxConstraintSize_eq]; exact hsize)]
  exact Decode_Marshal hv hdepth

/-- Beyond the depth limit of the scanner the round trip fails. -/
theorem Parse_Marshal_of_deep {c : Constraint} (hv : validConstraint c = true)
    (hsize : (Marshal c).length ≤ 131072) (hdepth : 10000 < nesting c) :
    Parse (Marshal c) = (Constraint.zero, some Err.scan) := by
  rw [Parse_of_small (by rw [maxConstraintSize_eq]; exact hsize)]
  exact Decode_Marshal_deep hv hdepth

theorem Parse_Marshal_deep_ok : Parse (Marshal (deep 3333)) = (deep 3333, none) :=
  Parse_Marshal_of_valid (validConstraint_deep _)
    (by have := length_Marshal_deep 3333; omega) (by have := nesting_deep 3333; omega)

theorem Parse_Marshal_deep_fail :
    Parse (Marshal (deep 3334)) = (Constraint.zero, some Err.scan) :=
  Parse_Marshal_of_deep (validConstraint_deep _)
    (by have := length_Marshal_deep 3334; omega) (by have := nesting_deep 3334; omega)

/-! ## Documents within the depth limit -/

/-- A successful scan succeeds with the same result under every limit that the nesting of
the value respects. -/
theorem scan_lower (lim lim' : Nat) : ∀ fuel : Nat,
    (∀ d s j r, scanValue lim fuel d s = some (j, r) → d + depthJSON j ≤ lim' →
        scanValue lim' fuel d s = some (j, r)) ∧
      (∀ d s xs r, scanElems lim fuel d s = some (xs, r) → d + depthElems xs ≤ lim' →
        scanElems lim' fuel d s = some (xs, r)) ∧
      (∀ d s ms r, scanMembers lim fuel d s = some (ms, r) → d + depthMembers ms ≤ lim' →
        scanMembers lim' fuel d s = some (ms, r)) := by
  intro fuel
  induction fuel with
  | zero => simp [scanValue, scanElems, scanMembers]
  | succ fuel ih =>
    obtain ⟨ihV, ihE, ihM⟩ := ih
    refine ⟨?_, ?_, ?_⟩
    · intro d s j r h hd
      rw [scanValue] at h ⊢
      rcases hs : skipSpace s with _ | ⟨c, rest⟩
      · simp [hs] at h
      · simp only [hs] at h ⊢
        by_cases h123 : c = 123
        · simp only [h123, if_true] at h ⊢
          by_cases hdd : d + 1 ≤ lim
          · simp only [hdd, if_true] at h
            rcases hs1 : skipSpace rest with _ | ⟨c1, rest1⟩
            · simp [hs1] at h
            · simp only [hs1] at h ⊢
              by_cases h125 : c1 = 125
              · simp only [h125, if_true, Option.some.injEq, Prod.mk.injEq] at h ⊢
                rw [← h.1] at hd
                simp only [depthJSON, depthMembers] at hd
                rw [if_pos (by omega)]
                simpa using h
              · simp only [h125, if_false] at h ⊢
                rcases hm : scanMembers lim fuel (d + 1) (c1 :: rest1) with _ | ⟨ms, r'⟩
                · simp [hm] at h
                · simp only [hm, Option.some.injEq, Prod.mk.injEq] at h
                  rw [← h.1] at hd
                  simp only [depthJSON] at hd
                  rw [if_pos (by omega), ihM _ _ _ _ hm (by omega)]
                  simpa using h
          · simp [hdd] at h
        · simp only [h123, if_false] at h ⊢
          by_cases h91 : c = 91
          · simp only [h91, if_true] at h ⊢
            by_cases hdd : d + 1 ≤ lim
            · simp only [hdd, if_true] at h
              rcases hs1 : skipSpace rest with _ | ⟨c1, rest1⟩
              · simp [hs1] at h
              · simp only [hs1] at h ⊢
                by_cases h93 : c1 = 93
                · simp only [h93, if_true, Option.some.injEq, Prod.mk.injEq] at h ⊢
                  rw [← h.1] at hd
                  simp only [depthJSON, depthElems] at hd
                  rw [if_pos (by omega)]
                  simpa using h
                · simp only [h93, if_false] at h ⊢
                  rcases hm : scanElems lim fuel (d + 1) (c1 :: rest1) with _ | ⟨ms, r'⟩
                  · simp [hm] at h
                  · simp only [hm, Option.some.injEq, Prod.mk.injEq] at h
                    rw [← h.1] at hd
                    simp only [depthJSON] at hd
                    rw [if_pos (by omega), ihE _ _ _ _ hm (by omega)]
                    simpa using h
            · simp [hdd] at h
          · simp only [h91, if_false] at h ⊢
            exact h
    · intro d s xs r h hd
      rw [scanElems] at h ⊢
      rcases hv : scanValue lim fuel d s with _ | ⟨y, r1⟩
      · simp [hv] at h
      · simp only [hv] at h
        rcases hs : skipSpace r1 with _ | ⟨c, rest⟩
        · simp [hs] at h
        · simp only [hs] at h
          by_cases h44 : c = 44
          · simp only [h44, if_true] at h
            rcases hm : scanElems lim fuel d rest with _ | ⟨ys, r'⟩
            · simp [hm] at h
            · simp only [hm, Option.some.injEq, Prod.mk.injEq] at h
              rw [← h.1] at hd
              simp only [depthElems] at hd
              rw [ihV _ _ _ _ hv (by omega)]
              simp only [hs, h44, if_true]
              rw [ihE _ _ _ _ hm (by omega)]
              simpa using h
          · simp only [h44, if_false] at h
            by_cases h93 : c = 93
            · simp only [h93, if_true, Option.some.injEq, Prod.mk.injEq] at h
              rw [← h.1] at hd
              simp only [depthElems] at hd
              rw [ihV _ _ _ _ hv (by omega)]
              simp only [hs, h93]
              simpa using h
            · simp [h93] at h
    · intro d s ms r h hd
      rw [scanMembers_succ] at h ⊢
      rcases s with _ | ⟨q, s1⟩
      · simp at h
      · simp only at h ⊢
        split_ifs at h ⊢ with hq
        rcases hk : scanString 0 true s1 with _ | ⟨key, r0⟩
        · simp [hk] at h
        · simp only [hk] at h ⊢
          rcases hs : skipSpace r0 with _ | ⟨c, rest⟩
          · simp [hs] at h
          · simp only [hs] at h ⊢
            split_ifs at h ⊢ with h58
            rcases hv : scanValue lim fuel d rest with _ | ⟨y, r1⟩
            · simp [hv] at h
            · simp only [hv] at h
              rcases hs1 : skipSpace r1 with _ | ⟨c1, rest1⟩
              · simp [hs1] at h
              · simp only [hs1] at h
                by_cases h44 : c1 = 44
                · simp only [h44, if_true] at h
                  rcases hm : scanMembers lim fuel d (skipSpace rest1) with _ | ⟨ys, r'⟩
                  · simp [hm] at h
                  · simp only [hm, Option.some.injEq, Prod.mk.injEq] at h
                    rw [← h.1] at hd
                    simp only [depthMembers] at hd
                    rw [ihV _ _ _ _ hv (by omega)]
                    simp only [hs1, h44, if_true]
                    rw [ihM _ _ _ _ hm (by omega)]
                    simpa using h
                · simp only [h44, if_false] at h
                  by_cases h125 : c1 = 125
                  · simp only [h125, if_true, Option.some.injEq, Prod.mk.injEq] at h
                    rw [← h.1] at hd
                    simp only [depthMembers] at hd
                    rw [ihV _ _ _ _ hv (by omega)]
                    simp only [hs1, h125]
                    simpa using h
                  · simp [h125] at h

theorem document_eq_some {v : List Nat} {j : JSON} (h : document v = some j) :
    ∃ r, skipSpace r = [] ∧ scanValue v.length (v.length + 1) 0 v = some (j, r) := by
  unfold document at h
  split at h
  · next j' r heq =>
    split_ifs at h with hr
    simp only [Option.some.injEq] at h
    subst h
    exact ⟨r, hr, heq⟩
  · simp at h

/-- The scanner of the decoder reads a document that respects its depth limit. -/
theorem readValue_of_document {v : List Nat} {j : JSON} (h : document v = some j)
    (hd : depthJSON j ≤ maxNestingDepth) : readValue v = some j := by
  obtain ⟨r, _, hs⟩ := document_eq_some h
  have h1 := (scan_lower v.length maxNestingDepth _).1 _ _ _ _ hs (by omega)
  simp [readValue, h1]

/-- The scanner of the decoder rejects a document that nests deeper than its limit. -/
theorem readValue_of_deep_document {v : List Nat} {j : JSON} (h : document v = some j)
    (hd : maxNestingDepth < depthJSON j) : readValue v = none := by
  obtain ⟨r, _, hs⟩ := document_eq_some h
  rcases hr : readValue v with _ | j'
  · rfl
  · exfalso
    obtain ⟨r', hs'⟩ := readValue_eq_some hr
    have hb := (scan_depth_bound maxNestingDepth _).1 _ _ _ _ hs'
    have hb2 := (scan_depth_bound v.length _).1 _ _ _ _ hs (by omega)
    have hs2 := (scan_depth maxNestingDepth v.length _).1 0 0 _ _ (by omega) hs'
    have h3 : some (j', r') = some (j, r) := hs2.symm.trans hs
    simp only [Option.some.injEq, Prod.mk.injEq] at h3
    rw [h3.1] at hb
    have := hb (by omega)
    omega

theorem document_Marshal {c : Constraint} (hv : validConstraint c = true)
    (hd : nesting c ≤ (Marshal c).length) :
    document (Marshal c) = some (constraintJSON c) := by
  obtain ⟨F, w, hw, hread⟩ :=
    Reads_constraint c (Marshal c).length 0 hv (by simpa [nesting] using hd)
  have h1 := hread F (Nat.le_refl F) [] NumStop_nil
  rw [List.append_nil, List.append_nil] at h1
  have h1' : scanValue (Marshal c).length F 0 (Marshal c) = some (constraintJSON c, w) := h1
  have h2 := ((scan_fuel _ F).1 _ _ _ _ h1').2 ((Marshal c).length + 1) (by omega)
  have h3 : scanValue (Marshal c).length ((Marshal c).length + 1) 0 (Marshal c) =
      some (constraintJSON c, w) := h2
  simp [document, h3, hw]

theorem document_Marshal_deep (n : Nat) :
    document (Marshal (deep n)) = some (constraintJSON (deep n)) :=
  document_Marshal (validConstraint_deep n)
    (by have h1 := length_Marshal_deep n; have h2 := nesting_deep n; omega)

/-! ## Well-shaped documents -/

theorem valueString_shaped {v : JSON} (h : isStr v = true) (old : List Nat) :
    (valueString v old).2 = none := by
  cases v <;> simp [isStr] at h
  rfl

theorem objectPackage_shaped (ms : List (List Nat × JSON)) :
    ∀ p, ms.all (fun kv => decide (kv.1 ∈ packageFields) && isStr kv.2) = true →
      (objectPackage ms p).2 = none := by
  induction ms with
  | nil => intro p _; rfl
  | cons kv ms ih =>
    intro p h
    obtain ⟨k, v⟩ := kv
    simp only [List.all_cons, Bool.and_eq_true, decide_eq_true_eq] at h
    obtain ⟨⟨hk, hv⟩, hms⟩ := h
    simp only [objectPackage, firstErr_eq_none]
    refine ⟨?_, ih _ hms⟩
    simp only [packageFields, List.mem_cons, List.mem_singleton, List.not_mem_nil,
      or_false] at hk
    rcases hk with rfl | rfl
    · rw [show lookupField packageFields (ascii "name") = some 0 by decide]
      exact valueString_shaped hv _
    · rw [show lookupField packageFields (ascii "versionRange") = some 1 by decide]
      exact valueString_shaped hv _

theorem valuePackage_shaped {v : JSON} (h : leafShaped packageFields v = true)
    (old : Option PackageConstraint) :
    (valuePackage v old).2 = none ∧ (valuePackage v old).1.isSome = true := by
  cases v <;> simp [leafShaped] at h
  simp only [valuePackage, Option.isSome_some, and_true]
  exact objectPackage_shaped _ _ (by simpa using h)

theorem objectGVK_shaped (ms : List (List Nat × JSON)) :
    ∀ p, ms.all (fun kv => decide (kv.1 ∈ gvkFields) && isStr kv.2) = true →
      (objectGVK ms p).2 = none := by
  induction ms with
  | nil => intro p _; rfl
  | cons kv ms ih =>
    intro p h
    obtain ⟨k, v⟩ := kv
    simp only [List.all_cons, Bool.and_eq_true, decide_eq_true_eq] at h
    obtain ⟨⟨hk, hv⟩, hms⟩ := h
    simp only [objectGVK, firstErr_eq_none]
    refine ⟨?_, ih _ hms⟩
    simp only [gvkFields, List.mem_cons, List.mem_singleton, List.not_mem_nil,
      or_false] at hk
    rcases hk with rfl | rfl | rfl
    · rw [show lookupField gvkFields (ascii "group") = some 0 by decide]
      exact valueString_shaped hv _
    · rw [show lookupField gvkFields (ascii "kind") = some 1 by decide]
      exact valueString_shaped hv _
    · rw [show lookupField gvkFields (ascii "version") = some 2 by decide]
      exact valueString_shaped hv _

theorem valueGVK_shaped {v : JSON} (h : leafShaped gvkFields v = true)
    (old : Option GVKConstraint) :
    (valueGVK v old).2 = none ∧ (valueGVK v old).1.isSome = true := by
  cases v <;> simp [leafShaped] at h
  simp only [valueGVK, Option.isSome_some, and_true]
  exact objectGVK_shaped _ _ (by simpa using h)

/-- What `membersShaped` says of one member. -/
theorem memberShaped_cases {k : List Nat} {v : JSON}
    (h : (if k = ascii "message" then isStr v
      else if k = ascii "package" then leafShaped packageFields v
      else if k = ascii "gvk" then leafShaped gvkFields v
      else if k = ascii "all" ∨ k = ascii "any" ∨ k = ascii "none" then compoundShaped v
      else false) = true) :
    (k = ascii "message" ∧ isStr v = true) ∨
      (k = ascii "package" ∧ leafShaped packageFields v = true) ∨
      (k = ascii "gvk" ∧ leafShaped gvkFields v = true) ∨
      (k = ascii "all" ∧ compoundShaped v = true) ∨
      (k = ascii "any" ∧ compoundShaped v = true) ∨
      (k = ascii "none" ∧ compoundShaped v = true) := by
  split_ifs at h with h1 h2 h3 h4
  · exact Or.inl ⟨h1, h⟩
  · exact Or.inr (Or.inl ⟨h2, h⟩)
  · exact Or.inr (Or.inr (Or.inl ⟨h3, h⟩))
  · rcases h4 with h4 | h4 | h4
    · exact Or.inr (Or.inr (Or.inr (Or.inl ⟨h4, h⟩)))
    · exact Or.inr (Or.inr (Or.inr (Or.inr (Or.inl ⟨h4, h⟩))))
    · exact Or.inr (Or.inr (Or.inr (Or.inr (Or.inr ⟨h4, h⟩))))

theorem lookup_message : lookupField constraintFields (ascii "message") = some 0 := by decide
theorem lookup_package : lookupField constraintFields (ascii "package") = some 1 := by decide
theorem lookup_gvk : lookupField constraintFields (ascii "gvk") = some 2 := by decide
theorem lookup_all : lookupField constraintFields (ascii "all") = some 3 := by decide
theorem lookup_any : lookupField constraintFields (ascii "any") = some 4 := by decide
theorem lookup_none : lookupField constraintFields (ascii "none") = some 5 := by decide
theorem lookup_constraints : lookupField compoundFields (ascii "constraints") = some 0 := by
  decide

mutual
theorem valueConstraint_shaped : ∀ (j : JSON) (c : ConstraintMem),
    constraintShaped j = true → (valueConstraint j c).2 = none
  | JSON.null, c => by simp [constraintShaped]
  | JSON.bool _, c => by simp [constraintShaped]
  | JSON.num, c => by simp [constraintShaped]
  | JSON.str _, c => by simp [constraintShaped]
  | JSON.arr _, c => by simp [constraintShaped]
  | JSON.obj ms, c => by
    intro h
    simp only [constraintShaped] at h
    simp only [valueConstraint]
    exact objectConstraint_shaped ms c h
theorem objectConstraint_shaped : ∀ (ms : List (List Nat × JSON)) (c : ConstraintMem),
    membersShaped ms = true → (objectConstraint ms c).2 = none
  | [], c => by simp [objectConstraint]
  | (k, v) :: ms, ConstraintMem.mk m p g a y n => by
    intro h
    simp only [membersShaped, Bool.and_eq_true] at h
    obtain ⟨hkv, hms⟩ := h
    rcases memberShaped_cases hkv with ⟨rfl, hv⟩ | ⟨rfl, hv⟩ | ⟨rfl, hv⟩ | ⟨rfl, hv⟩ |
      ⟨rfl, hv⟩ | ⟨rfl, hv⟩
    · simp only [objectConstraint, lookup_message, firstErr_eq_none]
      exact ⟨valueString_shaped hv _, objectConstraint_shaped ms _ hms⟩
    · simp only [objectConstraint, lookup_package, firstErr_eq_none]
      exact ⟨(valuePackage_shaped hv _).1, objectConstraint_shaped ms _ hms⟩
    · simp only [objectConstraint, lookup_gvk, firstErr_eq_none]
      exact ⟨(valueGVK_shaped hv _).1, objectConstraint_shaped ms _ hms⟩
    · simp only [objectConstraint, lookup_all, firstErr_eq_none]
      exact ⟨valueCompound_shaped v _ hv, objectConstraint_shaped ms _ hms⟩
    · simp only [objectConstraint, lookup_any, firstErr_eq_none]
      exact ⟨valueCompound_shaped v _ hv, objectConstraint_shaped ms _ hms⟩
    · simp only [objectConstraint, lookup_none, firstErr_eq_none]
      exact ⟨valueCompound_shaped v _ hv, objectConstraint_shaped ms _ hms⟩
theorem valueCompound_shaped : ∀ (j : JSON) (old : Option CompoundMem),
    compoundShaped j = true → (valueCompound j old).2 = none
  | JSON.null, c => by simp [compoundShaped]
  | JSON.bool _, c => by simp [compoundShaped]
  | JSON.num, c => by simp [compoundShaped]
  | JSON.str _, c => by simp [compoundShaped]
  | JSON.arr _, c => by simp [compoundShaped]
  | JSON.obj ms, c => by
    intro h
    simp only [compoundShaped] at h
    simp only [valueCompound]
    exact objectCompound_shaped ms _ h
theorem objectCompound_shaped : ∀ (ms : List (List Nat × JSON)) (old : CompoundMem),
    compoundMembersShaped ms = true → (objectCompound ms old).2 = none
  | [], c => by simp [objectCompound]
  | (k, v) :: ms, CompoundMem.mk cs spare => by
    intro h
    simp only [compoundMembersShaped, Bool.and_eq_true, decide_eq_true_eq] at h
    obtain ⟨⟨rfl, hv⟩, hms⟩ := h
    simp only [objectCompound, lookup_constraints, firstErr_eq_none]
    exact ⟨valueSlice_shaped v _ _ hv, objectCompound_shaped ms _ hms⟩
theorem valueSlice_shaped : ∀ (j : JSON) (old : Option (List ConstraintMem))
    (spare : List ConstraintMem), sliceShaped j = true → (valueSlice j old spare).2 = none
  | JSON.null, c, _ => by simp [sliceShaped]
  | JSON.bool _, c, _ => by simp [sliceShaped]
  | JSON.num, c, _ => by simp [sliceShaped]
  | JSON.str _, c, _ => by simp [sliceShaped]
  | JSON.obj _, c, _ => by simp [sliceShaped]
  | JSON.arr xs, c, _ => by
    intro h
    simp only [sliceShaped] at h
    simp only [valueSlice]
    exact arrayElems_shaped xs _ h
theorem arrayElems_shaped : ∀ (xs : List JSON) (olds : List ConstraintMem),
    elemsShaped xs = true → (arrayElems xs olds).2 = none
  | [], c => by simp [arrayElems]
  | x :: xs, olds => by
    intro h
    simp only [elemsShaped, Bool.and_eq_true] at h
    simp only [arrayElems, firstErr_eq_none]
    exact ⟨valueConstraint_shaped x _ h.1, arrayElems_shaped xs _ h.2⟩
end

theorem fieldValue_isSome (a : Option CompoundMem) : (fieldValue a).isSome = a.isSome := by
  cases a <;> simp [fieldValue]

theorem valueCompound_isSome {v : JSON} (h : compoundShaped v = true)
    (old : Option CompoundMem) : (fieldValue (valueCompound v old).1).isSome = true := by
  cases v <;> simp [compoundShaped] at h
  simp [valueCompound, fieldValue]

/-- The variants that decoding well-shaped members populates are those that were populated
and those of the keys. -/
theorem objectConstraint_populated : ∀ (ms : List (List Nat × JSON)) (c : ConstraintMem),
    membersShaped ms = true →
    (((objectConstraint ms c).1.value.Package.isSome = true ↔
        c.value.Package.isSome = true ∨ ascii "package" ∈ ms.map Prod.fst) ∧
      ((objectConstraint ms c).1.value.GVK.isSome = true ↔
        c.value.GVK.isSome = true ∨ ascii "gvk" ∈ ms.map Prod.fst) ∧
      ((objectConstraint ms c).1.value.All.isSome = true ↔
        c.value.All.isSome = true ∨ ascii "all" ∈ ms.map Prod.fst) ∧
      ((objectConstraint ms c).1.value.Any.isSome = true ↔
        c.value.Any.isSome = true ∨ ascii "any" ∈ ms.map Prod.fst) ∧
      ((objectConstraint ms c).1.value.None.isSome = true ↔
        c.value.None.isSome = true ∨ ascii "none" ∈ ms.map Prod.fst)) := by
  intro ms
  induction ms with
  | nil => intro c _; simp [objectConstraint]
  | cons kv ms ih =>
    intro c h
    obtain ⟨k, v⟩ := kv
    obtain ⟨m, p, g, a, y, n⟩ := c
    simp only [membersShaped, Bool.and_eq_true] at h
    obtain ⟨hkv, hms⟩ := h
    rcases memberShaped_cases hkv with ⟨rfl, hv⟩ | ⟨rfl, hv⟩ | ⟨rfl, hv⟩ | ⟨rfl, hv⟩ |
      ⟨rfl, hv⟩ | ⟨rfl, hv⟩
    · have := ih (ConstraintMem.mk (valueString v m).1 p g a y n) hms
      simp only [objectConstraint, lookup_message, List.map_cons, List.mem_cons]
      simpa [ConstraintMem.value, Constraint.Package, Constraint.GVK, Constraint.All,
        Constraint.Any, Constraint.None, show ascii "package" ≠ ascii "message" by decide,
        show ascii "gvk" ≠ ascii "message" by decide,
        show ascii "all" ≠ ascii "message" by decide,
        show ascii "any" ≠ ascii "message" by decide,
        show ascii "none" ≠ ascii "message" by decide] using this
    · have := ih (ConstraintMem.mk m (valuePackage v p).1 g a y n) hms
      simp only [objectConstraint, lookup_package, List.map_cons, List.mem_cons]
      simpa [ConstraintMem.value, Constraint.Package, Constraint.GVK, Constraint.All,
        Constraint.Any, Constraint.None, (valuePackage_shaped hv p).2,
        show ascii "gvk" ≠ ascii "package" by decide,
        show ascii "all" ≠ ascii "package" by decide,
        show ascii "any" ≠ ascii "package" by decide,
        show ascii "none" ≠ ascii "package" by decide] using this
    · have := ih (ConstraintMem.mk m p (valueGVK v g).1 a y n) hms
      simp only [objectConstraint, lookup_gvk, List.map_cons, List.mem_cons]
      simpa [ConstraintMem.value, Constraint.Package, Constraint.GVK, Constraint.All,
        Constraint.Any, Constraint.None, (valueGVK_shaped hv g).2,
        show ascii "package" ≠ ascii "gvk" by decide,
        show ascii "all" ≠ ascii "gvk" by decide,
        show ascii "any" ≠ ascii "gvk" by decide,
        show ascii "none" ≠ ascii "gvk" by decide] using this
    · have := ih (ConstraintMem.mk m p g (valueCompound v a).1 y n) hms
      simp only [objectConstraint, lookup_all, List.map_cons, List.mem_cons]
      simpa [ConstraintMem.value, Constraint.Package, Constraint.GVK, Constraint.All,
        Constraint.Any, Constraint.None, valueCompound_isSome hv,
        show ascii "package" ≠ ascii "all" by decide,
        show ascii "gvk" ≠ ascii "all" by decide,
        show ascii "any" ≠ ascii "all" by decide,
        show ascii "none" ≠ ascii "all" by decide] using this
    · have := ih (ConstraintMem.mk m p g a (valueCompound v y).1 n) hms
      simp only [objectConstraint, lookup_any, List.map_cons, List.mem_cons]
      simpa [ConstraintMem.value, Constraint.Package, Constraint.GVK, Constraint.All,
        Constraint.Any, Constraint.None, valueCompound_isSome hv,
        show ascii "package" ≠ ascii "any" by decide,
        show ascii "gvk" ≠ ascii "any" by decide,
        show ascii "all" ≠ ascii "any" by decide,
        show ascii "none" ≠ ascii "any" by decide] using this
    · have := ih (ConstraintMem.mk m p g a y (valueCompound v n).1) hms
      simp only [objectConstraint, lookup_none, List.map_cons, List.mem_cons]
      simpa [ConstraintMem.value, Constraint.Package, Constraint.GVK, Constraint.All,
        Constraint.Any, Constraint.None, valueCompound_isSome hv,
        show ascii "package" ≠ ascii "none" by decide,
        show ascii "gvk" ≠ ascii "none" by decide,
        show ascii "all" ≠ ascii "none" by decide,
        show ascii "any" ≠ ascii "none" by decide] using this

/-! ## A list of documents under a compound key -/

/-- A document is read at any depth under any limit that leaves room for its nesting. -/
theorem Reads_of_document {t : List Nat} {j : JSON} {lim d : Nat} (h : document t = some j)
    (hd : d + depthJSON j ≤ lim) : Reads lim d t j := by
  obtain ⟨r, hr, hs⟩ := document_eq_some h
  have h1 := (scan_lower t.length (depthJSON j) _).1 _ _ _ _ hs (by omega)
  have h2 := (scan_depth (depthJSON j) lim _).1 0 d _ _ (by omega) h1
  refine ⟨t.length + 1, r, hr, fun f hf R hR => ?_⟩
  exact (scan_append lim R f).1 _ _ _ _ (scanValue_mono hf h2) (fun _ => Or.inr hR)

/-- What is read with the whole text as the limit is a document. -/
theorem document_of_Reads {t : List Nat} {j : JSON} (h : Reads t.length 0 t j) :
    document t = some j := by
  obtain ⟨F, w, hw, hread⟩ := h
  have h1 := hread F (Nat.le_refl F) [] NumStop_nil
  rw [List.append_nil, List.append_nil] at h1
  have h2 := ((scan_fuel _ F).1 _ _ _ _ h1).2 (t.length + 1) (by omega)
  simp [document, h2, hw]

/-- The decoder decodes the value of a document that respects the depth limit. -/
theorem Parse_of_document {v : List Nat} {j : JSON} (hsize : v.length ≤ 131072)
    (h : document v = some j) (hd : depthJSON j ≤ maxNestingDepth) :
    Parse v = ((valueConstraint j ConstraintMem.zero).1.value,
      (valueConstraint j ConstraintMem.zero).2) := by
  rw [Parse_of_small (by rw [maxConstraintSize_eq]; exact hsize)]
  unfold Decode
  rw [readValue_of_document h hd]

/-- The scanner rejects a document that nests deeper than the limit. -/
theorem Parse_of_deep_document {v : List Nat} {j : JSON} (hsize : v.length ≤ 131072)
    (h : document v = some j) (hd : maxNestingDepth < depthJSON j) :
    Parse v = (Constraint.zero, some Err.scan) := by
  rw [Parse_of_small (by rw [maxConstraintSize_eq]; exact hsize)]
  unfold Decode
  rw [readValue_of_deep_document h hd]

theorem wrapDocs_eq (k : List Nat) (ds : List (List Nat)) :
    wrapDocs k ds =
      marshalStruct [(k, marshalStruct [(ascii "constraints", 91 :: (joinDocs ds ++ [93]))])] := by
  have e1 : ascii "\x7b\"" = [123, 34] := by decide
  have e2 : ascii "\":\x7b\"constraints\":[" = 34 :: 58 :: 123 :: 34 :: (ascii "constraints" ++
      [34, 58, 91]) := by decide
  have e3 : ascii "]\x7d\x7d" = [93, 125, 125] := by decide
  simp only [wrapDocs, marshalStruct, marshalMembers, e1, e2, e3, if_true, List.cons_append,
    List.append_assoc, List.nil_append, List.append_nil, List.singleton_append]

theorem depthJSON_wrapJSON (k : List Nat) (js : List JSON) :
    depthJSON (wrapJSON k js) = depthElems js + 3 := by
  simp [wrapJSON, depthJSON, depthMembers]

theorem length_wrapDocs (k : List Nat) (ds : List (List Nat)) :
    (wrapDocs k ds).length = k.length + (joinDocs ds).length + 23 := by
  have e1 : (ascii "\x7b\"").length = 2 := by decide
  have e2 : (ascii "\":\x7b\"constraints\":[").length = 18 := by decide
  have e3 : (ascii "]\x7d\x7d").length = 3 := by decide
  simp only [wrapDocs, List.length_append, e1, e2, e3]
  omega

theorem Reads_wrapDocs {lim : Nat} {k : List Nat} (hk : plainKey k = true)
    {ds : List (List Nat)} {js : List JSON} (h : List.Forall₂ (Reads lim 3) ds js)
    (hd : 3 ≤ lim) : Reads lim 0 (wrapDocs k ds) (wrapJSON k js) := by
  rw [wrapDocs_eq]
  exact Reads_struct (by omega) (List.Forall₂.cons
    (FieldReads_mk k hk (Reads_struct (by omega) (List.Forall₂.cons
      (FieldReads_mk _ (by decide) (Reads_array (by omega) h)) List.Forall₂.nil)))
    List.Forall₂.nil)

/-- Into a fresh slice every element is decoded as into a zero `Constraint`, and nothing is
left over. -/
theorem arrayElems_fresh : ∀ js : List JSON,
    arrayElems js [] = ((js.map (fun j => (valueConstraint j ConstraintMem.zero).1), []),
      (js.map (fun j => (valueConstraint j ConstraintMem.zero).2)).foldr firstErr none)
  | [] => by simp [arrayElems]
  | j :: js => by
    simp only [arrayElems, List.headD_nil, List.tail_nil, arrayElems_fresh js, List.map_cons,
      List.foldr_cons]

theorem elemsValue_map {α : Type} (f : α → ConstraintMem) : ∀ l : List α,
    elemsValue (l.map f) = l.map (fun x => (f x).value)
  | [] => by simp [elemsValue]
  | x :: l => by simp [elemsValue, elemsValue_map f l]

theorem foldr_firstErr_eq_none (es : List (Option Err)) :
    es.foldr firstErr none = none ↔ ∀ e ∈ es, e = none := by
  induction es with
  | nil => simp
  | cons e es ih => simp [List.foldr_cons, firstErr_eq_none, ih]

theorem compoundKey_cases {k : List Nat}
    (hk : k = ascii "all" ∨ k = ascii "any" ∨ k = ascii "none") : plainKey k = true := by
  rcases hk with rfl | rfl | rfl <;> decide

theorem firstErr_none_right (e : Option Err) : firstErr e none = e := by
  cases e <;> rfl

/-- Decoding the value of `wrapDocs k ds` into a zero `Constraint`. -/
theorem valueConstraint_wrapJSON {k : List Nat}
    (hk : k = ascii "all" ∨ k = ascii "any" ∨ k = ascii "none") (js : List JSON) :
    ((valueConstraint (wrapJSON k js) ConstraintMem.zero).1.value,
        (valueConstraint (wrapJSON k js) ConstraintMem.zero).2) =
      (compoundOnly k (elemsValue (arrayElems js []).1.1), (arrayElems js []).2) := by
  rcases hk with rfl | rfl | rfl
  · simp only [wrapJSON, valueConstraint, objectConstraint, ConstraintMem.zero, lookup_all,
      valueCompound, objectCompound, lookup_constraints, valueSlice, CompoundMem.zero,
      firstErr_none_right, compoundOnly, Option.getD_none, List.append_nil, if_true,
      ConstraintMem.value, fieldValue, compoundValue, sliceValue,
      if_neg (show ascii "all" ≠ ascii "any" by decide),
      if_neg (show ascii "all" ≠ ascii "none" by decide)]
  · simp only [wrapJSON, valueConstraint, objectConstraint, ConstraintMem.zero, lookup_any,
      valueCompound, objectCompound, lookup_constraints, valueSlice, CompoundMem.zero,
      firstErr_none_right, compoundOnly, Option.getD_none, List.append_nil, if_true,
      ConstraintMem.value, fieldValue, compoundValue, sliceValue,
      if_neg (show ascii "any" ≠ ascii "all" by decide),
      if_neg (show ascii "any" ≠ ascii "none" by decide)]
  · simp only [wrapJSON, valueConstraint, objectConstraint, ConstraintMem.zero, lookup_none,
      valueCompound, objectCompound, lookup_constraints, valueSlice, CompoundMem.zero,
      firstErr_none_right, compoundOnly, Option.getD_none, List.append_nil, if_true,
      ConstraintMem.value, fieldValue, compoundValue, sliceValue,
      if_neg (show ascii "none" ≠ ascii "all" by decide),
      if_neg (show ascii "none" ≠ ascii "any" by decide)]

/-- The values of a list of documents. -/
theorem exists_values {P : List Nat → JSON → Prop} : ∀ (ds : List (List Nat)),
    (∀ d ∈ ds, ∃ j, P d j) → ∃ js, List.Forall₂ P ds js
  | [], _ => ⟨[], List.Forall₂.nil⟩
  | d :: ds, h => by
    obtain ⟨j, hj⟩ := h d (List.mem_cons_self _ _)
    obtain ⟨js, hjs⟩ := exists_values ds (fun x hx => h x (List.mem_cons_of_mem _ hx))
    exact ⟨j :: js, List.Forall₂.cons hj hjs⟩

theorem joinDocs_length_le : ∀ (ds : List (List Nat)), ∀ d ∈ ds, d.length ≤ (joinDocs ds).length
  | [], _, h => by simp at h
  | [x], d, h => by
    simp only [List.mem_singleton] at h
    subst h
    simp [joinDocs]
  | x :: y :: ds, d, h => by
    simp only [joinDocs, List.length_append, List.length_cons]
    rcases List.mem_cons.mp h with rfl | h
    · omega
    · have := joinDocs_length_le (y :: ds) d h
      omega

/-- Parse of `wrapDocs k ds`, for documents that nest at most three levels less than the
scanner admits. -/
theorem Parse_wrapDocs_of_values {k : List Nat}
    (hk : k = ascii "all" ∨ k = ascii "any" ∨ k = ascii "none") {ds : List (List Nat)}
    {js : List JSON}
    (hdocs : List.Forall₂ (fun d j => document d = some j ∧ depthJSON j + 3 ≤ maxNestingDepth)
      ds js)
    (hsize : (wrapDocs k ds).length ≤ 131072) :
    Parse (wrapDocs k ds) = (compoundOnly k (ds.map (fun d => (Parse d).1)),
      (ds.map (fun d => (Parse d).2)).foldr firstErr none) := by
  have hlen : ∀ d ∈ ds, d.length ≤ 131072 := by
    intro d hd
    have h1 := joinDocs_length_le ds d hd
    have h2 := length_wrapDocs k ds
    omega
  have hreads : List.Forall₂ (Reads maxNestingDepth 3) ds js := by
    clear hlen hsize
    induction hdocs with
    | nil => exact List.Forall₂.nil
    | cons h _ ih => exact List.Forall₂.cons (Reads_of_document h.1 (by omega)) ih
  have hparse : ds.map Parse = js.map (fun j => ((valueConstraint j ConstraintMem.zero).1.value,
      (valueConstraint j ConstraintMem.zero).2)) := by
    clear hreads hsize
    induction hdocs with
    | nil => rfl
    | @cons d j ds' js' h _ ih =>
      rw [List.map_cons, List.map_cons,
        Parse_of_document (hlen d (List.mem_cons_self _ _)) h.1 (by omega),
        ih (fun x hx => hlen x (List.mem_cons_of_mem _ hx))]
  obtain ⟨F, w, _, hread⟩ :=
    Reads_wrapDocs (compoundKey_cases hk) hreads (show 3 ≤ maxNestingDepth by decide)
  have h1 := hread F (Nat.le_refl F) [] NumStop_nil
  rw [List.append_nil] at h1
  have h2 : readValue (wrapDocs k ds) = some (wrapJSON k js) := readValue_of_scan (by omega) h1
  rw [Parse_of_small (by rw [maxConstraintSize_eq]; exact hsize)]
  unfold Decode
  rw [h2]
  simp only [valueConstraint_wrapJSON hk, arrayElems_fresh, elemsValue_map]
  have e1 : ds.map (fun d => (Parse d).1) =
      js.map (fun j => (valueConstraint j ConstraintMem.zero).1.value) := by
    have := congrArg (List.map Prod.fst) hparse
    simpa [List.map_map, Function.comp_def] using this
  have e2 : ds.map (fun d => (Parse d).2) =
      js.map (fun j => (valueConstraint j ConstraintMem.zero).2) := by
    have := congrArg (List.map Prod.snd) hparse
    simpa [List.map_map, Function.comp_def] using this
  rw [e1, e2]

theorem depthElems_singleton (j : JSON) : depthElems [j] = depthJSON j := by
  simp [depthElems]

/-- Under a compound key a document is rejected when the three levels of the wrapping take it
beyond the depth limit. -/
theorem Parse_wrapDocs_of_deep {k : List Nat}
    (hk : k = ascii "all" ∨ k = ascii "any" ∨ k = ascii "none") {c : Constraint}
    (hv : validConstraint c = true) (hsize : (Marshal c).length + 27 ≤ 131072)
    (hd : maxNestingDepth < nesting c + 3) (hn : nesting c + 3 ≤ (Marshal c).length) :
    (wrapDocs k [Marshal c]).length ≤ 131072 ∧
      document (wrapDocs k [Marshal c]) = some (wrapJSON k [constraintJSON c]) ∧
      Parse (wrapDocs k [Marshal c]) = (Constraint.zero, some Err.scan) := by
  have hklen : k.length ≤ 4 := by
    rcases hk with rfl | rfl | rfl <;> decide
  have h2 := length_wrapDocs k [Marshal c]
  simp only [joinDocs] at h2
  have hlen : (wrapDocs k [Marshal c]).length ≤ 131072 := by omega
  simp only [nesting] at hn hd
  have hdoc : document (wrapDocs k [Marshal c]) = some (wrapJSON k [constraintJSON c]) := by
    apply document_of_Reads
    exact Reads_wrapDocs (compoundKey_cases hk)
      (List.Forall₂.cons (Reads_constraint _ _ 3 hv (by omega)) List.Forall₂.nil) (by omega)
  refine ⟨hlen, hdoc, Parse_of_deep_document hlen hdoc ?_⟩
  rw [depthJSON_wrapJSON, depthElems_singleton]
  omega

/-- A tree of 10000 levels is accepted alone and rejected under a compound key. -/
theorem Parse_wrapDocs_deep {k : List Nat}
    (hk : k = ascii "all" ∨ k = ascii "any" ∨ k = ascii "none") :
    (wrapDocs k [Marshal (deep 3333)]).length ≤ 131072 ∧
      document (wrapDocs k [Marshal (deep 3333)]) =
        some (wrapJSON k [constraintJSON (deep 3333)]) ∧
      Parse (wrapDocs k [Marshal (deep 3333)]) = (Constraint.zero, some Err.scan) :=
  Parse_wrapDocs_of_deep hk (validConstraint_deep _)
    (by have := length_Marshal_deep 3333; omega)
    (by have := nesting_deep 3333; simp only [maxNestingDepth]; omega)
    (by have h1 := length_Marshal_deep 3333; have h2 := nesting_deep 3333; omega)

theorem constraintShaped_wrapJSON {k : List Nat}
    (hk : k = ascii "all" ∨ k = ascii "any" ∨ k = ascii "none") {j : JSON}
    (h : constraintShaped j = true) : constraintShaped (wrapJSON k [j]) = true := by
  have e1 : ascii "all" ≠ ascii "message" ∧ ascii "all" ≠ ascii "package" ∧
      ascii "all" ≠ ascii "gvk" := by decide
  have e2 : ascii "any" ≠ ascii "message" ∧ ascii "any" ≠ ascii "package" ∧
      ascii "any" ≠ ascii "gvk" := by decide
  have e3 : ascii "none" ≠ ascii "message" ∧ ascii "none" ≠ ascii "package" ∧
      ascii "none" ≠ ascii "gvk" := by decide
  rcases hk with rfl | rfl | rfl
  · simp only [wrapJSON, constraintShaped, membersShaped, compoundShaped, compoundMembersShaped,
      sliceShaped, elemsShaped, h, if_neg e1.1, if_neg e1.2.1, if_neg e1.2.2, true_or, if_true,
      decide_True, Bool.and_self]
  · simp only [wrapJSON, constraintShaped, membersShaped, compoundShaped, compoundMembersShaped,
      sliceShaped, elemsShaped, h, if_neg e2.1, if_neg e2.2.1, if_neg e2.2.2, true_or, or_true,
      if_true, decide_True, Bool.and_self]
  · simp only [wrapJSON, constraintShaped, membersShaped, compoundShaped, compoundMembersShaped,
      sliceShaped, elemsShaped, h, if_neg e3.1, if_neg e3.2.1, if_neg e3.2.2, or_true, if_true,
      decide_True, Bool.and_self]

/-- C1: `Parse v` returns `ErrMaxConstraintSizeExceeded` if and only if `v` is longer than 131072
bytes, and then the result is the zero `Constraint` with that error whatever `v` contains; an
input of exactly 131072 bytes is therefore never rejected for its size. -/
theorem Parse_size_limit (v : List Nat) :
    ((Parse v).2 = some Err.ErrMaxConstraintSizeExceeded ↔ 131072 < v.length) ∧
      (131072 < v.length →
        Parse v = (Constraint.zero, some Err.ErrMaxConstraintSizeExceeded)) := by
  have hmax : maxConstraintSize = 131072 := by decide
  unfold Parse
  rw [hmax]
  by_cases h : v.length > 131072
  · simp [h]
  · simp only [h, if_false, false_implies, and_true, iff_false]
    exact NoMax_Decode v

/-- C10: `Parse` decodes only the first JSON value of its input.  For every input `d` that
`Parse` accepts (in particular every accepted JSON object document) and every byte sequence `t`
such that `d` followed by `t` is at most 131072 bytes long, `Parse (d ++ t)` succeeds and returns
the same `Constraint` as `Parse d`, whatever `t` contains. -/
theorem Parse_ignores_trailing (d t : List Nat) (hacc : (Parse d).2 = none)
    (hsize : (d ++ t).length ≤ 131072) :
    (Parse (d ++ t)).2 = none ∧ (Parse (d ++ t)).1 = (Parse d).1 := by
  rw [Parse_append t hacc hsize]
  exact ⟨hacc, rfl⟩

/-- C10 at the document `{"message":"m"}` followed by `}{"x":1`. -/
theorem Parse_ignores_trailing_witness :
    (Parse (ascii "\x7b\"message\":\"m\"\x7d")).2 = none ∧
      (ascii "\x7b\"message\":\"m\"\x7d" ++ ascii "\x7d\x7b\"x\":1").length ≤ 131072 ∧
      (Parse (ascii "\x7b\"message\":\"m\"\x7d" ++ ascii "\x7d\x7b\"x\":1")).2 = none ∧
      (Parse (ascii "\x7b\"message\":\"m\"\x7d" ++ ascii "\x7d\x7b\"x\":1")).1
        = (Parse (ascii "\x7b\"message\":\"m\"\x7d")).1 :=
  ⟨by decide, by decide,
    Parse_ignores_trailing (ascii "\x7b\"message\":\"m\"\x7d") (ascii "\x7d\x7b\"x\":1") (by decide)
      (by decide)⟩

/-- C6 (the code departs from its comment): `maxConstraintSize` is `2 << 16 = 131072`, not the
64Kb of its comment, and the input of 65537 bytes made of `{}` followed by 65535 spaces is not
rejected with `ErrMaxConstraintSizeExceeded`: `Parse` returns the zero `Constraint` and no
error. -/
theorem Parse_accepts_above_64K :
    maxConstraintSize = 131072 ∧
      (ascii "\x7b\x7d" ++ List.replicate 65535 32).length = 65537 ∧
      Parse (ascii "\x7b\x7d" ++ List.replicate 65535 32) = (Constraint.zero, none) := by
  have hlen : (ascii "\x7b\x7d" ++ List.replicate 65535 32).length = 65537 := by
    rw [List.length_append, List.length_replicate]
    rfl
  have h0 : Parse (ascii "\x7b\x7d") = (Constraint.zero, none) := by rfl
  have := Parse_append (d := ascii "\x7b\x7d") (List.replicate 65535 32) (by rw [h0])
    (by rw [hlen]; decide)
  exact ⟨by decide, hlen, by rw [this, h0]⟩

/-- C2 as stated fails: the document `{"Message":""}` is within the size limit, its top-level
object carries the key `Message`, which is none of `message`, `package`, `gvk`, `all`, `any`,
`none`, and `Parse` accepts it: `encoding/json` matches keys to field names without regard to
case. -/
theorem Parse_accepts_other_case :
    (ascii "\x7b\"Message\":\"\"\x7d").length ≤ 131072 ∧
      readValue (ascii "\x7b\"Message\":\"\"\x7d") = some (JSON.obj [(ascii "Message", JSON.str [])]) ∧
      constraintUnknown lookupExact (JSON.obj [(ascii "Message", JSON.str [])]) = true ∧
      (Parse (ascii "\x7b\"Message\":\"\"\x7d")).2 = none :=
  ⟨by decide, rfl, by decide, by decide⟩

/-- C2 amended: for every input whose first JSON value has, at the position of a constraint
node, of a package or gvk leaf or of an all, any or none object, an object with a key that
matches none of the names recognised there, not even case-insensitively (`lookupField`),
`Parse` returns a non-nil error. -/
theorem Parse_rejects_unknown_key (v : List Nat) (j : JSON) (hdoc : readValue v = some j)
    (hkey : constraintUnknown lookupField j = true) : (Parse v).2 ≠ none := by
  unfold Parse
  split_ifs
  · simp
  · unfold Decode
    rw [hdoc]
    exact valueConstraint_unknown j _ hkey

/-- C2 amended at a document whose gvk leaf, two levels down, carries the key `plural`. -/
theorem Parse_rejects_unknown_key_witness :
    readValue (ascii "\x7b\"all\":\x7b\"constraints\":[\x7b\"gvk\":\x7b\"Group\":\"g\",\"plural\":\"p\"\x7d\x7d]\x7d\x7d")
        = some (JSON.obj [(ascii "all", JSON.obj [(ascii "constraints",
            JSON.arr [JSON.obj [(ascii "gvk",
              JSON.obj [(ascii "Group", JSON.str (ascii "g")),
                (ascii "plural", JSON.str (ascii "p"))])]])])]) ∧
      (Parse (ascii
        "\x7b\"all\":\x7b\"constraints\":[\x7b\"gvk\":\x7b\"Group\":\"g\",\"plural\":\"p\"\x7d\x7d]\x7d\x7d")).2
          ≠ none :=
  ⟨rfl, Parse_rejects_unknown_key _ _ rfl (by decide)⟩

/-- C3 as stated fails, in three ways.  A message that is not valid UTF-8 (the byte `FF`) comes
back as `U+FFFD`; a tree whose encoding is longer than 131072 bytes (a message of 131072
letters `a`) is rejected for its size; and the tree of 3334 nested `all` constraints, whose
encoding is within the size limit, is rejected by the scanner of `encoding/json`, which admits
10000 nested arrays and objects and no more. -/
theorem Parse_Marshal_not_round_trip :
    Parse (Marshal (Constraint.mk [255] none none none none none))
        = (Constraint.mk [239, 191, 189] none none none none none, none) ∧
      Parse (Marshal (Constraint.mk [255] none none none none none))
        ≠ (Constraint.mk [255] none none none none none, none) ∧
      Parse (Marshal (Constraint.mk (List.replicate 131072 97) none none none none none))
        = (Constraint.zero, some Err.ErrMaxConstraintSizeExceeded) ∧
      (Marshal (deep 3334)).length ≤ 131072 ∧
      Parse (Marshal (deep 3334)) = (Constraint.zero, some Err.scan) := by
  have h1 : Parse (Marshal (Constraint.mk [255] none none none none none))
      = (Constraint.mk [239, 191, 189] none none none none none, none) := by rfl
  refine ⟨h1, ?_, ?_, ?_, Parse_Marshal_deep_fail⟩
  · rw [h1]
    intro h
    simp only [Prod.mk.injEq, Constraint.mk.injEq] at h
    exact absurd h.1.1 (by decide)
  · have hlen := length_Marshal_message (List.replicate 131072 97)
    rw [quoteBody_replicate, List.length_replicate] at hlen
    unfold Parse
    rw [if_pos (by rw [hlen, maxConstraintSize_eq]; omega)]
  · have := length_Marshal_deep 3334
    omega

/-- C3 amended: for every `Constraint` tree `c` whose strings are valid UTF-8, whose encoding
is at most 131072 bytes long and nests at most 10000 arrays and objects, parsing the encoding
of `c` succeeds and returns a tree equal to `c`. -/
theorem Parse_Marshal_round_trip (c : Constraint) (hvalid : validConstraint c = true)
    (hsize : (Marshal c).length ≤ 131072) (hdepth : nesting c ≤ 10000) :
    Parse (Marshal c) = (c, none) :=
  Parse_Marshal_of_valid hvalid hsize hdepth

set_option maxRecDepth 100000

/-- C3 amended at a tree with a package leaf and, under `any`, a gvk leaf and an empty `none`;
the message holds a quote, `<`, a line feed and the two-byte rune `U+00E9`. -/
theorem Parse_Marshal_round_trip_witness :
    Parse (Marshal (Constraint.mk [34, 60, 10, 195, 169]
        (some ⟨ascii "etcd", ascii ">=1.0.0"⟩) none none
        (some (CompoundConstraint.mk (some [
          Constraint.mk [] none (some ⟨ascii "g", ascii "K", ascii "v1"⟩) none none
            (some (CompoundConstraint.mk (some [])))])))
        none))
      = (Constraint.mk [34, 60, 10, 195, 169]
        (some ⟨ascii "etcd", ascii ">=1.0.0"⟩) none none
        (some (CompoundConstraint.mk (some [
          Constraint.mk [] none (some ⟨ascii "g", ascii "K", ascii "v1"⟩) none none
            (some (CompoundConstraint.mk (some [])))])))
        none, none) :=
  Parse_Marshal_round_trip _ (by decide) (by decide) (by decide)

/-- C5 as stated fails at the depth limit of `encoding/json`.  The document
`{"any":{"constraints":[D]}}`, `D` being the encoding of 3333 nested `all` constraints, is within
the size limit, its top-level object gives a well-shaped value for exactly the key `any`, and
`Parse` rejects it: the document nests 10003 arrays and objects, the scanner admits 10000. -/
theorem Parse_rejects_deep_variant :
    (wrapDocs (ascii "any") [Marshal (deep 3333)]).length ≤ 131072 ∧
      document (wrapDocs (ascii "any") [Marshal (deep 3333)])
        = some (wrapJSON (ascii "any") [constraintJSON (deep 3333)]) ∧
      constraintShaped (wrapJSON (ascii "any") [constraintJSON (deep 3333)]) = true ∧
      keysOf (wrapJSON (ascii "any") [constraintJSON (deep 3333)]) = [ascii "any"] ∧
      Parse (wrapDocs (ascii "any") [Marshal (deep 3333)]) = (Constraint.zero, some Err.scan) :=
  have h := Parse_wrapDocs_deep (Or.inr (Or.inl rfl))
  ⟨h.1, h.2.1, constraintShaped_wrapJSON (Or.inr (Or.inl rfl)) (constraintShaped_deep 3333), rfl,
    h.2.2⟩

/-- C5 amended: `Parse` does not check how many variants a node populates.  For every JSON
document `v` of at most 131072 bytes that nests at most 10000 arrays and objects and whose
value `j` is well shaped (an object whose keys are among `message`, `package`, `gvk`, `all`,
`any`, `none`, each with a well-shaped value), `Parse` returns no error, and each of the five
variants is populated in the result exactly when its key is among the keys of the top-level
object, however many these are; with no key at all the result is the zero `Constraint`. -/
theorem Parse_accepts_any_variants (v : List Nat) (j : JSON) (hsize : v.length ≤ 131072)
    (hdoc : document v = some j) (hdepth : depthJSON j ≤ 10000)
    (hshape : constraintShaped j = true) :
    (Parse v).2 = none ∧
      ((Parse v).1.Package.isSome = true ↔ ascii "package" ∈ keysOf j) ∧
      ((Parse v).1.GVK.isSome = true ↔ ascii "gvk" ∈ keysOf j) ∧
      ((Parse v).1.All.isSome = true ↔ ascii "all" ∈ keysOf j) ∧
      ((Parse v).1.Any.isSome = true ↔ ascii "any" ∈ keysOf j) ∧
      ((Parse v).1.None.isSome = true ↔ ascii "none" ∈ keysOf j) ∧
      (keysOf j = [] → (Parse v).1 = Constraint.zero) := by
  rw [Parse_of_document hsize hdoc hdepth]
  refine ⟨valueConstraint_shaped j _ hshape, ?_⟩
  cases j <;> simp only [constraintShaped, Bool.false_eq_true] at hshape
  rename_i ms
  have h := objectConstraint_populated ms ConstraintMem.zero hshape
  simp only [valueConstraint, keysOf]
  refine ⟨?_, ?_, ?_, ?_, ?_, ?_⟩
  · simpa [ConstraintMem.zero, ConstraintMem.value, fieldValue, Constraint.Package,
      Constraint.GVK, Constraint.All, Constraint.Any, Constraint.None] using h.1
  · simpa [ConstraintMem.zero, ConstraintMem.value, fieldValue, Constraint.Package,
      Constraint.GVK, Constraint.All, Constraint.Any, Constraint.None] using h.2.1
  · simpa [ConstraintMem.zero, ConstraintMem.value, fieldValue, Constraint.Package,
      Constraint.GVK, Constraint.All, Constraint.Any, Constraint.None] using h.2.2.1
  · simpa [ConstraintMem.zero, ConstraintMem.value, fieldValue, Constraint.Package,
      Constraint.GVK, Constraint.All, Constraint.Any, Constraint.None] using h.2.2.2.1
  · simpa [ConstraintMem.zero, ConstraintMem.value, fieldValue, Constraint.Package,
      Constraint.GVK, Constraint.All, Constraint.Any, Constraint.None] using h.2.2.2.2
  · intro hk
    rw [List.map_eq_nil_iff] at hk
    subst hk
    rfl

/-- C5 amended at the document `{"package":{},"gvk":{"kind":"K"}}`, which populates two
variants. -/
theorem Parse_accepts_any_variants_witness :
    (Parse (ascii "\x7b\"package\":\x7b\x7d,\"gvk\":\x7b\"kind\":\"K\"\x7d\x7d")).2 = none ∧
      ((Parse (ascii "\x7b\"package\":\x7b\x7d,\"gvk\":\x7b\"kind\":\"K\"\x7d\x7d")).1.Package.isSome
          = true ↔
        ascii "package" ∈ keysOf (JSON.obj [(ascii "package", JSON.obj []),
          (ascii "gvk", JSON.obj [(ascii "kind", JSON.str (ascii "K"))])])) ∧
      ((Parse (ascii "\x7b\"package\":\x7b\x7d,\"gvk\":\x7b\"kind\":\"K\"\x7d\x7d")).1.GVK.isSome
          = true ↔
        ascii "gvk" ∈ keysOf (JSON.obj [(ascii "package", JSON.obj []),
          (ascii "gvk", JSON.obj [(ascii "kind", JSON.str (ascii "K"))])])) :=
  have h := Parse_accepts_any_variants
    (ascii "\x7b\"package\":\x7b\x7d,\"gvk\":\x7b\"kind\":\"K\"\x7d\x7d")
    (JSON.obj [(ascii "package", JSON.obj []),
      (ascii "gvk", JSON.obj [(ascii "kind", JSON.str (ascii "K"))])])
    (by decide) rfl (by decide) (by decide)
  ⟨h.1, h.2.1, h.2.2.1⟩

/-- C4 as stated fails at the depth limit of `encoding/json`.  The encoding `D` of 3333 nested
`all` constraints is a JSON document that nests 10000 arrays and objects, and `Parse` accepts
it; the document `{"all":{"constraints":[D]}}` is within the size limit and `Parse` rejects it,
because it nests 10003 arrays and objects and the scanner admits 10000. -/
theorem Parse_rejects_wrapped_accepted :
    (wrapDocs (ascii "all") [Marshal (deep 3333)]).length ≤ 131072 ∧
      document (Marshal (deep 3333)) = some (constraintJSON (deep 3333)) ∧
      (∀ d ∈ [Marshal (deep 3333)], (Parse d).2 = none) ∧
      (Parse (wrapDocs (ascii "all") [Marshal (deep 3333)])).2 ≠ none := by
  have h := Parse_wrapDocs_deep (Or.inl rfl)
  refine ⟨h.1, document_Marshal_deep 3333, ?_, ?_⟩
  · intro d hd
    rw [List.mem_singleton] at hd
    rw [hd, Parse_Marshal_deep_ok]
  · rw [h.2.2]
    simp

/-- C4 amended: decoding is recursive and order preserving.  For every compound key `k` among
`all`, `any`, `none` and every list of JSON documents `d1, ..., dn`, each nesting at most 9997
arrays and objects, such that the document `{"k":{"constraints":[d1,...,dn]}}` is at most 131072
bytes long (and so nests at most 10000 arrays and objects): `Parse` succeeds on that document if
and only if it succeeds on each `di` alone, and then the result has an empty message, only the
variant `k` populated, and the sub-constraints `Parse d1, ..., Parse dn` in this order. -/
theorem Parse_compound_recursive (k : List Nat) (ds : List (List Nat))
    (hk : k = ascii "all" ∨ k = ascii "any" ∨ k = ascii "none")
    (hdocs : ∀ d ∈ ds, ∃ j, document d = some j ∧ depthJSON j + 3 ≤ 10000)
    (hsize : (wrapDocs k ds).length ≤ 131072) :
    ((Parse (wrapDocs k ds)).2 = none ↔ ∀ d ∈ ds, (Parse d).2 = none) ∧
      ((Parse (wrapDocs k ds)).2 = none →
        (Parse (wrapDocs k ds)).1 = compoundOnly k (ds.map (fun d => (Parse d).1))) := by
  obtain ⟨js, hjs⟩ := exists_values ds hdocs
  rw [Parse_wrapDocs_of_values hk hjs hsize]
  refine ⟨?_, fun _ => rfl⟩
  simp only [foldr_firstErr_eq_none, List.mem_map]
  constructor
  · intro h d hd
    exact h _ ⟨d, hd, rfl⟩
  · rintro h e ⟨d, hd, rfl⟩
    exact h d hd

/-- C4 amended at the key `any` and the documents `{"message":"a"}` and `null`. -/
theorem Parse_compound_recursive_witness :
    ((Parse (wrapDocs (ascii "any") [ascii "\x7b\"message\":\"a\"\x7d", ascii "null"])).2 = none ↔
        ∀ d ∈ [ascii "\x7b\"message\":\"a\"\x7d", ascii "null"], (Parse d).2 = none) ∧
      ((Parse (wrapDocs (ascii "any") [ascii "\x7b\"message\":\"a\"\x7d", ascii "null"])).2 = none →
        (Parse (wrapDocs (ascii "any") [ascii "\x7b\"message\":\"a\"\x7d", ascii "null"])).1 =
          compoundOnly (ascii "any")
            ([ascii "\x7b\"message\":\"a\"\x7d", ascii "null"].map (fun d => (Parse d).1))) :=
  Parse_compound_recursive (ascii "any") [ascii "\x7b\"message\":\"a\"\x7d", ascii "null"]
    (Or.inr (Or.inl rfl))
    (by
      intro d hd
      simp only [List.mem_cons, List.mem_singleton, List.not_mem_nil, or_false] at hd
      rcases hd with rfl | rfl
      · exact ⟨JSON.obj [(ascii "message", JSON.str (ascii "a"))], rfl, by decide⟩
      · exact ⟨JSON.null, rfl, by decide⟩)
    (by decide)

end Constraints

namespace Resolver
open Constraints

/-! ## The resolver test helpers -/

/-- `RequireStepsEqual` passes exactly when the two lists have the same members. -/
theorem RequireStepsEqual_iff {α : Type} [DecidableEq α] (expectedSteps steps : List α) :
    RequireStepsEqual expectedSteps steps = true ↔ ∀ x, x ∈ expectedSteps ↔ x ∈ steps := by
  simp only [RequireStepsEqual, Contains, Bool.and_eq_true, List.all_eq_true, decide_eq_true_eq]
  constructor
  · rintro ⟨h1, h2⟩ x
    exact ⟨h1 x, h2 x⟩
  · intro h
    exact ⟨fun x hx => (h x).1 hx, fun x hx => (h x).2 hx⟩

/-- C9 (the code departs from its comment): `RequireStepsEqual` passes on the expected list
`[1, 1]` and the list `[1]`, which `require.ElementsMatch` rejects because the element occurs
twice in one list and once in the other. -/
theorem RequireStepsEqual_multiplicity :
    RequireStepsEqual [1, 1] [1] = true ∧ ElementsMatch [1, 1] [1] = false := by
  decide

theorem GVKType_ne_PackageType : GVKType ≠ PackageType := by decide

theorem bundle_opts_properties (gs : List Property) (hgs : ∀ p ∈ gs, p.Typ ≠ PackageType) :
    ∀ (opts : List Opt) (b : Bundle),
      b.Properties = gs ++ [packageNameToProperty b.PackageName b.Version] →
      ((opts.map Opt.toBundleOpt).foldl (fun b f => f b) b).Properties =
          gs ++ [packageNameToProperty b.PackageName (finalVersion b.Version opts)] ∧
        ((opts.map Opt.toBundleOpt).foldl (fun b f => f b) b).Version
          = finalVersion b.Version opts := by
  intro opts
  induction opts with
  | nil => intro b hb; exact ⟨hb, rfl⟩
  | cons o os ih =>
    intro b hb
    cases o with
    | skipRange s =>
      simpa [Opt.toBundleOpt, withSkipRange, finalVersion] using
        ih { b with SkipRange := s } (by simpa using hb)
    | skips l =>
      simpa [Opt.toBundleOpt, withSkips, finalVersion] using
        ih { b with Skips := l } (by simpa using hb)
    | version v =>
      have hmap : List.map (fun p => if p.Typ = PackageType then packageNameToProperty b.PackageName v else p) gs = gs := by
        conv_rhs => rw [← List.map_id gs]
        apply List.map_congr_left
        intro p hp
        simp [hgs p hp]
      have := ih (withVersion v b) (by
        simp only [withVersion, hb, List.map_append, hmap]
        simp [packageNameToProperty])
      simpa [Opt.toBundleOpt, finalVersion, withVersion] using this


theorem apiSetToProperties_getD (crds apis : APISet) :
    (apiSetToProperties crds apis false).getD [] =
      crds.map (fun a => (⟨GVKType, marshalGVKProperty a.Group a.Kind a.Version⟩ : Property))
        ++ apis.map (fun a => ⟨GVKType, marshalGVKProperty a.Group a.Kind a.Version⟩) := by
  unfold apiSetToProperties
  simp only [Bool.false_eq_true, if_false, List.append_nil]
  split
  · next h =>
    rw [List.length_eq_zero] at h
    simp [h]
  · rfl

theorem apiSetToDependencies_getD (crds apis : APISet) :
    (apiSetToDependencies crds apis).getD [] =
      crds.map (fun a => (⟨GVKType, marshalGVKProperty a.Group a.Kind a.Version⟩ : Dependency))
        ++ apis.map (fun a => ⟨GVKType, marshalGVKProperty a.Group a.Kind a.Version⟩) := by
  unfold apiSetToDependencies
  split
  · next h =>
    have h1 : crds = [] := List.length_eq_zero.mp (by omega)
    have h2 : apis = [] := List.length_eq_zero.mp (by omega)
    simp [h1, h2]
  · dsimp only
    split
    · next h =>
      rw [List.length_eq_zero] at h
      simp [h]
    · rfl

theorem apiSetToDependencies_eq_none (crds apis : APISet) :
    apiSetToDependencies crds apis = none ↔ crds = [] ∧ apis = [] := by
  unfold apiSetToDependencies
  constructor
  · intro h
    split at h
    · next h0 =>
      exact ⟨List.length_eq_zero.mp (by omega), List.length_eq_zero.mp (by omega)⟩
    · dsimp only at h
      split at h
      · next h0 h1 =>
        simp only [List.length_append, List.length_map] at h1
        omega
      · simp at h
  · rintro ⟨rfl, rfl⟩
    simp

/-- The value written for a key of valid UTF-8 strings carries the triple of the key. -/
theorem carriedGVK_marshalGVKProperty {a : APIKey} (h : validKey a = true) :
    carriedGVK (marshalGVKProperty a.Group a.Kind a.Version) =
      some (a.Group, a.Version, a.Kind) := by
  have hlen : 0 + 1 ≤ (marshalGVK ⟨a.Group, a.Kind, a.Version⟩).length := by
    simp [marshalGVK, marshalStruct, marshalMembers]
  have hr := Reads_gvk (marshalGVK ⟨a.Group, a.Kind, a.Version⟩).length 0 hlen
    (show validGVK ⟨a.Group, a.Kind, a.Version⟩ = true from h)
  have hdoc : document (marshalGVKProperty a.Group a.Kind a.Version) =
      some (gvkJSON ⟨a.Group, a.Kind, a.Version⟩) := document_of_Reads hr
  have hdepth : depthJSON (gvkJSON ⟨a.Group, a.Kind, a.Version⟩) ≤ maxNestingDepth := by
    simp [gvkJSON, depthJSON, depthMembers, maxNestingDepth]
  simp only [carriedGVK, hdoc, hdepth, if_true, valueGVK_gvkJSON]

/-- The members of the lists that `bundle` builds from the required sets. -/
theorem mem_getD_apiSetToDependencies (crds apis : APISet) (d : Dependency) :
    d ∈ (apiSetToDependencies crds apis).getD [] ↔
      ∃ a ∈ crds ++ apis, d = ⟨GVKType, marshalGVKProperty a.Group a.Kind a.Version⟩ := by
  rw [apiSetToDependencies_getD, ← List.map_append, List.mem_map]
  constructor
  · rintro ⟨a, ha, rfl⟩
    exact ⟨a, ha, rfl⟩
  · rintro ⟨a, ha, rfl⟩
    exact ⟨a, ha, rfl⟩

theorem mem_getD_apiSetToProperties (crds apis : APISet) (p : Property) :
    p ∈ (apiSetToProperties crds apis false).getD [] ↔
      ∃ a ∈ crds ++ apis, p = ⟨GVKType, marshalGVKProperty a.Group a.Kind a.Version⟩ := by
  rw [apiSetToProperties_getD, ← List.map_append, List.mem_map]
  constructor
  · rintro ⟨a, ha, rfl⟩
    exact ⟨a, ha, rfl⟩
  · rintro ⟨a, ha, rfl⟩
    exact ⟨a, ha, rfl⟩

theorem mem_apiSetToGVK (crds apis : APISet) (k : GroupVersionKind) :
    k ∈ apiSetToGVK crds apis ↔
      ∃ a ∈ crds ++ apis, k = ⟨a.Group, a.Version, a.Kind, a.Plural⟩ := by
  unfold apiSetToGVK
  rw [← List.map_append, List.mem_map]
  constructor
  · rintro ⟨a, ha, rfl⟩
    exact ⟨a, ha, rfl⟩
  · rintro ⟨a, ha, rfl⟩
    exact ⟨a, ha, rfl⟩

/-- C7 as stated fails for a key that is not valid UTF-8.  With the one required CRD of group
`FF` (one byte), version `v1` and kind `K`, `RequiredApis` holds the triple of the key, the one
dependency is of the GVK type and carries the triple whose group is `U+FFFD`, which `Marshal`
writes for the invalid byte, and no dependency carries the triple of the key. -/
theorem bundle_api_triples_differ :
    (∃ k ∈ (bundle (ascii "a") (ascii "p") (ascii "c") [] []
        [⟨[255], ascii "v1", ascii "K", ascii "ks"⟩] [] [] []).RequiredApis,
        ([255], ascii "v1", ascii "K") = (k.Group, k.Version, k.Kind)) ∧
      (bundle (ascii "a") (ascii "p") (ascii "c") [] []
        [⟨[255], ascii "v1", ascii "K", ascii "ks"⟩] [] [] []).Dependencies =
        some [⟨GVKType, marshalGVKProperty [255] (ascii "K") (ascii "v1")⟩] ∧
      carriedGVK (marshalGVKProperty [255] (ascii "K") (ascii "v1")) =
        some ([239, 191, 189], ascii "v1", ascii "K") ∧
      ¬ ∃ d ∈ ((bundle (ascii "a") (ascii "p") (ascii "c") [] []
        [⟨[255], ascii "v1", ascii "K", ascii "ks"⟩] [] [] []).Dependencies).getD [],
        d.Typ = GVKType ∧ carriedGVK d.Value = some ([255], ascii "v1", ascii "K") := by
  decide

/-- C7 amended: for every call of `bundle` with no options on API sets whose keys have a
group, a version and a kind that are valid UTF-8, the two encodings of the bundle's APIs agree.
The keys of `RequiredApis` are exactly those of `requiredCRDs` together with
`requiredAPIServices`, and the `{group, version, kind}` triples carried by the GVK-type
dependencies are exactly the triples of these keys; the keys of `ProvidedApis` are exactly those
of `providedCRDs` together with `providedAPIServices`, and the triples carried by the GVK-type
properties are exactly the triples of these keys; every GVK-type dependency and property
carries a triple; and `Dependencies` is nil exactly when both required sets are empty. -/
theorem bundle_api_triples_agree (name pkg channel replaces : List Nat)
    (providedCRDs requiredCRDs providedAPIServices requiredAPIServices : APISet)
    (hprovided : ∀ a ∈ providedCRDs ++ providedAPIServices, validKey a = true)
    (hrequired : ∀ a ∈ requiredCRDs ++ requiredAPIServices, validKey a = true) :
    (∀ k : GroupVersionKind,
      k ∈ (bundle name pkg channel replaces providedCRDs requiredCRDs providedAPIServices
          requiredAPIServices []).RequiredApis ↔
        ∃ a ∈ requiredCRDs ++ requiredAPIServices, k = ⟨a.Group, a.Version, a.Kind, a.Plural⟩) ∧
    (∀ t : List Nat × List Nat × List Nat,
      (∃ d ∈ (bundle name pkg channel replaces providedCRDs requiredCRDs providedAPIServices
          requiredAPIServices []).Dependencies.getD [],
          d.Typ = GVKType ∧ carriedGVK d.Value = some t) ↔
        ∃ k ∈ (bundle name pkg channel replaces providedCRDs requiredCRDs providedAPIServices
          requiredAPIServices []).RequiredApis, t = (k.Group, k.Version, k.Kind)) ∧
    (∀ k : GroupVersionKind,
      k ∈ (bundle name pkg channel replaces providedCRDs requiredCRDs providedAPIServices
          requiredAPIServices []).ProvidedApis ↔
        ∃ a ∈ providedCRDs ++ providedAPIServices, k = ⟨a.Group, a.Version, a.Kind, a.Plural⟩) ∧
    (∀ t : List Nat × List Nat × List Nat,
      (∃ p ∈ (bundle name pkg channel replaces providedCRDs requiredCRDs providedAPIServices
          requiredAPIServices []).Properties,
          p.Typ = GVKType ∧ carriedGVK p.Value = some t) ↔
        ∃ k ∈ (bundle name pkg channel replaces providedCRDs requiredCRDs providedAPIServices
          requiredAPIServices []).ProvidedApis, t = (k.Group, k.Version, k.Kind)) ∧
    (∀ d ∈ (bundle name pkg channel replaces providedCRDs requiredCRDs providedAPIServices
        requiredAPIServices []).Dependencies.getD [],
        d.Typ = GVKType → ∃ t, carriedGVK d.Value = some t) ∧
    (∀ p ∈ (bundle name pkg channel replaces providedCRDs requiredCRDs providedAPIServices
        requiredAPIServices []).Properties,
        p.Typ = GVKType → ∃ t, carriedGVK p.Value = some t) ∧
    ((bundle name pkg channel replaces providedCRDs requiredCRDs providedAPIServices
        requiredAPIServices []).Dependencies = none ↔
      requiredCRDs = [] ∧ requiredAPIServices = []) := by
  have hprops : ∀ p : Property,
      (p ∈ (bundle name pkg channel replaces providedCRDs requiredCRDs providedAPIServices
          requiredAPIServices []).Properties ∧ p.Typ = GVKType) ↔
        ∃ a ∈ providedCRDs ++ providedAPIServices,
          p = ⟨GVKType, marshalGVKProperty a.Group a.Kind a.Version⟩ := by
    intro p
    simp only [bundle, List.foldl_nil, List.mem_append, List.mem_singleton]
    rw [show (p ∈ (apiSetToProperties providedCRDs providedAPIServices false).getD [] ↔ _) from
      mem_getD_apiSetToProperties providedCRDs providedAPIServices p]
    constructor
    · rintro ⟨h | h, ht⟩
      · simpa only [List.mem_append] using h
      · subst h
        exact absurd ht.symm GVKType_ne_PackageType
    · rintro ⟨a, ha, rfl⟩
      exact ⟨Or.inl ⟨a, List.mem_append.mpr ha, rfl⟩, rfl⟩
  have hdeps : ∀ d : Dependency,
      d ∈ (bundle name pkg channel replaces providedCRDs requiredCRDs providedAPIServices
          requiredAPIServices []).Dependencies.getD [] ↔
        ∃ a ∈ requiredCRDs ++ requiredAPIServices,
          d = ⟨GVKType, marshalGVKProperty a.Group a.Kind a.Version⟩ := by
    intro d
    simp only [bundle, List.foldl_nil]
    exact mem_getD_apiSetToDependencies _ _ d
  have hreq : ∀ k : GroupVersionKind,
      k ∈ (bundle name pkg channel replaces providedCRDs requiredCRDs providedAPIServices
          requiredAPIServices []).RequiredApis ↔
        ∃ a ∈ requiredCRDs ++ requiredAPIServices,
          k = ⟨a.Group, a.Version, a.Kind, a.Plural⟩ := by
    intro k
    simp only [bundle, List.foldl_nil]
    exact mem_apiSetToGVK _ _ k
  have hprov : ∀ k : GroupVersionKind,
      k ∈ (bundle name pkg channel replaces providedCRDs requiredCRDs providedAPIServices
          requiredAPIServices []).ProvidedApis ↔
        ∃ a ∈ providedCRDs ++ providedAPIServices,
          k = ⟨a.Group, a.Version, a.Kind, a.Plural⟩ := by
    intro k
    simp only [bundle, List.foldl_nil]
    exact mem_apiSetToGVK _ _ k
  refine ⟨hreq, ?_, hprov, ?_, ?_, ?_, ?_⟩
  · intro t
    constructor
    · rintro ⟨d, hd, -, hc⟩
      obtain ⟨a, ha, rfl⟩ := (hdeps d).mp hd
      rw [carriedGVK_marshalGVKProperty (hrequired a ha)] at hc
      exact ⟨⟨a.Group, a.Version, a.Kind, a.Plural⟩, (hreq _).mpr ⟨a, ha, rfl⟩,
        (Option.some.inj hc).symm⟩
    · rintro ⟨k, hk, rfl⟩
      obtain ⟨a, ha, rfl⟩ := (hreq k).mp hk
      exact ⟨⟨GVKType, marshalGVKProperty a.Group a.Kind a.Version⟩,
        (hdeps _).mpr ⟨a, ha, rfl⟩, rfl, carriedGVK_marshalGVKProperty (hrequired a ha)⟩
  · intro t
    constructor
    · rintro ⟨p, hp, ht, hc⟩
      obtain ⟨a, ha, rfl⟩ := (hprops p).mp ⟨hp, ht⟩
      rw [carriedGVK_marshalGVKProperty (hprovided a ha)] at hc
      exact ⟨⟨a.Group, a.Version, a.Kind, a.Plural⟩, (hprov _).mpr ⟨a, ha, rfl⟩,
        (Option.some.inj hc).symm⟩
    · rintro ⟨k, hk, rfl⟩
      obtain ⟨a, ha, rfl⟩ := (hprov k).mp hk
      have h := (hprops ⟨GVKType, marshalGVKProperty a.Group a.Kind a.Version⟩).mpr ⟨a, ha, rfl⟩
      exact ⟨_, h.1, rfl, carriedGVK_marshalGVKProperty (hprovided a ha)⟩
  · intro d hd _
    obtain ⟨a, ha, rfl⟩ := (hdeps d).mp hd
    exact ⟨_, carriedGVK_marshalGVKProperty (hrequired a ha)⟩
  · intro p hp ht
    obtain ⟨a, ha, rfl⟩ := (hprops p).mp ⟨hp, ht⟩
    exact ⟨_, carriedGVK_marshalGVKProperty (hprovided a ha)⟩
  · simp only [bundle, List.foldl_nil]
    exact apiSetToDependencies_eq_none _ _

/-- C7 amended at a bundle that requires the CRD `g/v1/K` and provides the API service
`h/v2/L`: a dependency carries the first triple and a property the second. -/
theorem bundle_api_triples_agree_witness :
    (∀ a ∈ ([] : APISet) ++ [⟨ascii "h", ascii "v2", ascii "L", ascii "ls"⟩],
        validKey a = true) ∧
      (∀ a ∈ [(⟨ascii "g", ascii "v1", ascii "K", ascii "ks"⟩ : APIKey)] ++ [],
        validKey a = true) ∧
      (∃ d ∈ (bundle (ascii "a") (ascii "p") (ascii "c") [] []
          [⟨ascii "g", ascii "v1", ascii "K", ascii "ks"⟩]
          [⟨ascii "h", ascii "v2", ascii "L", ascii "ls"⟩] [] []).Dependencies.getD [],
          d.Typ = GVKType ∧ carriedGVK d.Value = some (ascii "g", ascii "v1", ascii "K")) ∧
      (∃ p ∈ (bundle (ascii "a") (ascii "p") (ascii "c") [] []
          [⟨ascii "g", ascii "v1", ascii "K", ascii "ks"⟩]
          [⟨ascii "h", ascii "v2", ascii "L", ascii "ls"⟩] [] []).Properties,
          p.Typ = GVKType ∧ carriedGVK p.Value = some (ascii "h", ascii "v2", ascii "L")) :=
  ⟨by decide, by decide,
    ((bundle_api_triples_agree (ascii "a") (ascii "p") (ascii "c") [] []
      [⟨ascii "g", ascii "v1", ascii "K", ascii "ks"⟩]
      [⟨ascii "h", ascii "v2", ascii "L", ascii "ls"⟩] [] (by decide) (by decide)).2.1
        (ascii "g", ascii "v1", ascii "K")).mpr
      ⟨⟨ascii "g", ascii "v1", ascii "K", ascii "ks"⟩, by decide, rfl⟩,
    ((bundle_api_triples_agree (ascii "a") (ascii "p") (ascii "c") [] []
      [⟨ascii "g", ascii "v1", ascii "K", ascii "ks"⟩]
      [⟨ascii "h", ascii "v2", ascii "L", ascii "ls"⟩] [] (by decide) (by decide)).2.2.2.1
        (ascii "h", ascii "v2", ascii "L")).mpr
      ⟨⟨ascii "h", ascii "v2", ascii "L", ascii "ls"⟩, by decide, rfl⟩⟩

theorem bundle_properties (name pkg channel replaces : List Nat)
    (providedCRDs requiredCRDs providedAPIServices requiredAPIServices : APISet)
    (opts : List Opt) :
    (bundle name pkg channel replaces providedCRDs requiredCRDs providedAPIServices
        requiredAPIServices (opts.map Opt.toBundleOpt)).Properties =
      (apiSetToProperties providedCRDs providedAPIServices false).getD []
        ++ [packageNameToProperty pkg (finalVersion (ascii "0.0.0") opts)] ∧
    (bundle name pkg channel replaces providedCRDs requiredCRDs providedAPIServices
        requiredAPIServices (opts.map Opt.toBundleOpt)).Version =
      finalVersion (ascii "0.0.0") opts := by
  have hgs : ∀ p ∈ (apiSetToProperties providedCRDs providedAPIServices false).getD [],
      p.Typ ≠ PackageType := by
    intro p hp
    rw [apiSetToProperties_getD] at hp
    simp only [List.mem_append, List.mem_map] at hp
    rcases hp with ⟨a, -, rfl⟩ | ⟨a, -, rfl⟩ <;> exact GVKType_ne_PackageType
  exact bundle_opts_properties _ hgs opts _ rfl

/-- C8: for every bundle built with any sequence of `withVersion`, `withSkips` and
`withSkipRange`, the `Version` field is `0.0.0` or the argument of the last `withVersion`, the
properties of the package type are exactly one property whose value encodes the package name
`pkg` with that version, and the GVK properties are those of the bundle built without
options. -/
theorem bundle_package_identity (name pkg channel replaces : List Nat)
    (providedCRDs requiredCRDs providedAPIServices requiredAPIServices : APISet)
    (opts : List Opt) :
    (bundle name pkg channel replaces providedCRDs requiredCRDs providedAPIServices
        requiredAPIServices (opts.map Opt.toBundleOpt)).Version =
      finalVersion (ascii "0.0.0") opts ∧
    (bundle name pkg channel replaces providedCRDs requiredCRDs providedAPIServices
        requiredAPIServices (opts.map Opt.toBundleOpt)).Properties.filter
        (fun p => decide (p.Typ = PackageType)) =
      [⟨PackageType, marshalPackageProperty pkg (bundle name pkg channel replaces providedCRDs
        requiredCRDs providedAPIServices requiredAPIServices
        (opts.map Opt.toBundleOpt)).Version⟩] ∧
    (bundle name pkg channel replaces providedCRDs requiredCRDs providedAPIServices
        requiredAPIServices (opts.map Opt.toBundleOpt)).Properties.filter
        (fun p => decide (p.Typ = GVKType)) =
      (bundle name pkg channel replaces providedCRDs requiredCRDs providedAPIServices
        requiredAPIServices []).Properties.filter (fun p => decide (p.Typ = GVKType)) := by
  obtain ⟨hp, hv⟩ := bundle_properties name pkg channel replaces providedCRDs requiredCRDs
    providedAPIServices requiredAPIServices opts
  obtain ⟨hp0, -⟩ := bundle_properties name pkg channel replaces providedCRDs requiredCRDs
    providedAPIServices requiredAPIServices []
  have hgs : ∀ p ∈ (apiSetToProperties providedCRDs providedAPIServices false).getD [],
      p.Typ = GVKType := by
    intro p hp
    rw [apiSetToProperties_getD] at hp
    simp only [List.mem_append, List.mem_map] at hp
    rcases hp with ⟨a, -, rfl⟩ | ⟨a, -, rfl⟩ <;> rfl
  refine ⟨hv, ?_, ?_⟩
  · rw [hp, hv, List.filter_append]
    have h1 : List.filter (fun p => decide (p.Typ = PackageType))
        ((apiSetToProperties providedCRDs providedAPIServices false).getD []) = [] := by
      rw [List.filter_eq_nil_iff]
      intro p hp
      simp [hgs p hp, GVKType_ne_PackageType]
    rw [h1]
    simp [packageNameToProperty]
  · simp only [List.map_nil] at hp0
    rw [hp, hp0, List.filter_append, List.filter_append]
    congr 1
end Resolver
